import Mathlib

/-!
# capture.c: frame queue, buffer pool, pacing timers, shutdown handshake

A shallow embedding of `src/capture.c`.

* Pointers are natural numbers, `NULL` is `0`.
* The heap maps an address to the `pixbuf` stored there (`none`: not allocated).
  The region `data` points to is owned by its `pixbuf` alone (allocated and
  freed together with it), so it is stored in the record as its byte contents.
* A function returns `Except Fault _`: `Fault.ub` for a dereference of `NULL`
  or of a freed address, a double free, an out-of-bounds copy or an unlock of a
  lock that is not held; `Fault.exitFailure` for `exit(EXIT_FAILURE)`;
  `Fault.blocked` for a lock call that can never return; `Fault.fuel` when a
  loop model is given too little fuel.
* `int` counters are mathematical integers; conversions of the `int size`
  argument to `unsigned int` and `size_t` are explicit.
* `double` time values are rationals.
* `malloc` is driven by the environment: each call is given what the allocator
  answers.
* The two threads are a transition system over atomic actions. A read of a
  global outside a lock (the loop conditions, the timers) belongs to the same
  action as the lock-protected call that follows it; `write` sends all its
  bytes.
-/

namespace Capture

/-! ## Data model -/

abbrev Ptr := Nat

/-- The null pointer. -/
abbrev NULL : Ptr := 0

/-- `const int POOL_MAX = 30;` -/
def POOL_MAX : Int := 30

/-- `struct pixbuf`: `data` is the contents of the region the field points to. -/
structure pixbuf where
  data : List Nat
  size : Nat
  next : Ptr
deriving DecidableEq, Repr

/-- `struct timer`. -/
structure timer where
  «end» : ℚ
  interval : ℚ
deriving DecidableEq

inductive Fault where
  | ub
  | exitFailure
  | blocked
  | fuel
deriving DecidableEq, Repr

inductive LockId where
  | b_lock
  | p_lock
deriving DecidableEq, Repr

inductive LockEv where
  | acq (l : LockId)
  | rel (l : LockId)
deriving DecidableEq, Repr

abbrev Heap := Ptr → Option pixbuf

/-- The globals of `capture.c`, the heap of `pixbuf`s, the bytes written to
file descriptor 1, and three observers (`nalloc`, `nfree`, `locklog`) that
count `pixbuf` allocations and frees and record the lock calls. -/
structure State where
  heap : Heap
  first : Ptr
  last : Ptr
  queuesize : Int
  fwps : Int
  pool_f : Ptr
  pool_l : Ptr
  poolsize : Int
  b_lock : Bool
  p_lock : Bool
  exit_handler : Int
  exit_main : Int
  ctick : ℚ
  img : List Nat
  out : List Nat
  nalloc : Nat
  nfree : Nat
  locklog : List LockEv

/-- The state at program start: the static initialisers of the globals. -/
def State.init : State where
  heap := fun _ => none
  first := NULL
  last := NULL
  queuesize := 0
  fwps := 0
  pool_f := NULL
  pool_l := NULL
  poolsize := 0
  b_lock := false
  p_lock := false
  exit_handler := 0
  exit_main := 0
  ctick := 0
  img := []
  out := []
  nalloc := 0
  nfree := 0
  locklog := []

/-! ## Memory and lock primitives -/

/-- Read `*p`. -/
def load (p : Ptr) (s : State) : Except Fault pixbuf :=
  if p = NULL then .error .ub
  else match s.heap p with
    | some b => .ok b
    | none => .error .ub

/-- Heap update at one address. -/
def Heap.set (h : Heap) (p : Ptr) (v : Option pixbuf) : Heap :=
  fun a => if a = p then v else h a

/-- `p->next = v`. -/
def store_next (p v : Ptr) (s : State) : Except Fault State :=
  match load p s with
  | .ok b => .ok { s with heap := s.heap.set p (some { b with next := v }) }
  | .error e => .error e

/-- `free(p->data); free(p);` -/
def free_pixbuf (p : Ptr) (s : State) : Except Fault State :=
  match load p s with
  | .ok _ => .ok { s with heap := s.heap.set p none, nfree := s.nfree + 1 }
  | .error e => .error e

/-- `pthread_mutex_lock(&b_lock)`. -/
def lock_b (s : State) : Except Fault State :=
  if s.b_lock then .error .blocked
  else .ok { s with b_lock := true, locklog := s.locklog ++ [.acq .b_lock] }

/-- `pthread_mutex_unlock(&b_lock)`. -/
def unlock_b (s : State) : Except Fault State :=
  if s.b_lock then .ok { s with b_lock := false, locklog := s.locklog ++ [.rel .b_lock] }
  else .error .ub

/-- `pthread_mutex_lock(&p_lock)`. -/
def lock_p (s : State) : Except Fault State :=
  if s.p_lock then .error .blocked
  else .ok { s with p_lock := true, locklog := s.locklog ++ [.acq .p_lock] }

/-- `pthread_mutex_unlock(&p_lock)`. -/
def unlock_p (s : State) : Except Fault State :=
  if s.p_lock then .ok { s with p_lock := false, locklog := s.locklog ++ [.rel .p_lock] }
  else .error .ub

/-! ## Frame queue -/

/-- `queue_pixbuf(b)`. -/
def queue_pixbuf (b : Ptr) (s : State) : Except Fault State := do
  let s ← lock_b s
  let s ← store_next b NULL s
  let s ← (if s.first ≠ NULL then do
      let s ← store_next s.last b s
      pure { s with last := b }
    else
      pure { s with first := b, last := b })
  let s := { s with queuesize := s.queuesize + 1 }
  unlock_b s

/-- `pop_pixbuf()`: the returned pointer and the new state. -/
def pop_pixbuf (s : State) : Except Fault (Ptr × State) := do
  let ret := NULL
  let s ← lock_b s
  let (ret, s) ← (if s.first ≠ NULL then do
      let ret := s.first
      let f ← load s.first s
      let s := { s with first := f.next }
      let s := if s.first = NULL then { s with last := NULL } else s
      pure (ret, { s with queuesize := s.queuesize - 1 })
    else
      pure (ret, s))
  let s ← unlock_b s
  pure (ret, s)

/-- `queue_size()`. -/
def queue_size (s : State) : Except Fault (Int × State) := do
  let s ← lock_b s
  let r := s.queuesize
  let s ← unlock_b s
  pure (r, s)

/-! ## Buffer pool -/

/-- What the allocator answers to the two `malloc` calls of `get_new_pixbuf`:
the address of the new `pixbuf` and the indeterminate initial bytes of the new
data region, by offset; `none` is a `malloc` that returned `NULL`. -/
structure Malloc where
  node : Option Ptr
  region : Option (Nat → Nat)

/-- Conversion of an `int` to `unsigned int`. -/
def toUInt (n : Int) : Nat := (n % 2 ^ 32).toNat

/-- Conversion of an `int` to `size_t`. -/
def toSizeT (n : Int) : Nat := (n % 2 ^ 64).toNat

/-- `pixbuf_return_to_pool(p)`. -/
def pixbuf_return_to_pool (p : Ptr) (s : State) : Except Fault State :=
  if p = NULL then pure s
  else do
    let s ← lock_p s
    if s.poolsize ≥ POOL_MAX then do
      let s ← free_pixbuf p s
      unlock_p s
    else do
      let s ← store_next p NULL s
      let s ← (if s.pool_f ≠ NULL then do
          let s ← store_next s.pool_l p s
          pure { s with pool_l := p }
        else
          pure { s with pool_f := p, pool_l := p })
      let s := { s with poolsize := s.poolsize + 1 }
      unlock_p s

/-- `get_new_pixbuf(size)`, the allocator answering `m` if it is called. A
failed `malloc` ends the process with `exit(EXIT_FAILURE)`. -/
def get_new_pixbuf (size : Int) (m : Malloc) (s : State) : Except Fault (Ptr × State) := do
  let s ← lock_p s
  let (ret, s) ← (if s.pool_f ≠ NULL then do
      let ret := s.pool_f
      let f ← load s.pool_f s
      let s := { s with pool_f := f.next }
      pure (ret, { s with poolsize := s.poolsize - 1 })
    else
      match m.node with
      | none => .error .exitFailure
      | some ret =>
        match m.region with
        | none => .error .exitFailure
        | some g =>
          pure (ret, { s with
            heap := s.heap.set ret (some {
              data := (List.range (toSizeT size)).map g
              size := toUInt size
              next := NULL })
            nalloc := s.nalloc + 1 }))
  let s ← unlock_p s
  pure (ret, s)

/-! ## Call sequences on the queue -/

/-- A call on the frame queue. -/
inductive QCall where
  | push (b : Ptr)
  | pop
deriving DecidableEq, Repr

/-- Runs the calls in order, each to completion, and collects the results of
the pops that did not return `NULL`. -/
def runQueue : List QCall → State → Except Fault (List Ptr × State)
  | [], s => .ok ([], s)
  | .push b :: cs, s => do
    let s ← queue_pixbuf b s
    runQueue cs s
  | .pop :: cs, s => do
    let (r, s) ← pop_pixbuf s
    let (rs, s) ← runQueue cs s
    pure (if r ≠ NULL then r :: rs else rs, s)

/-- The buffers pushed by a call sequence, in call order. -/
def pushed : List QCall → List Ptr
  | [] => []
  | .push b :: cs => b :: pushed cs
  | .pop :: cs => pushed cs

/-- The frame queue of the specification, a sequence: `push` appends at the
end, `pop` removes and returns the first element, or returns nothing when the
sequence is empty. From the queue `q`, the results of the non-empty pops of a
call sequence, in order, and the queue after it. -/
def fifoModel : List QCall → List Ptr → List Ptr × List Ptr
  | [], q => ([], q)
  | .push b :: cs, q => fifoModel cs (q ++ [b])
  | .pop :: cs, [] => fifoModel cs []
  | .pop :: cs, a :: q => (a :: (fifoModel cs q).1, (fifoModel cs q).2)

/-- The caller's side of `queue_pixbuf`: every buffer handed to it is non-null,
allocated, and not in the queue at the time of the call (`q` is the queue at
the start: the buffers pushed and not yet popped). -/
def QCallsOk (h : Heap) : List Ptr → List QCall → Prop
  | _, [] => True
  | q, .push b :: cs => b ≠ NULL ∧ (h b).isSome = true ∧ b ∉ q ∧ QCallsOk h (q ++ [b]) cs
  | q, .pop :: cs => QCallsOk h q.tail cs

/-! ## List abstraction of the two linked lists -/

/-- `IsList h p l`: following `next` from `p` visits exactly the addresses of
`l`, all allocated and non-null, and then reaches `NULL`. -/
def IsList (h : Heap) : Ptr → List Ptr → Prop
  | p, [] => p = NULL
  | p, a :: l => p = a ∧ a ≠ NULL ∧ ∃ b, h a = some b ∧ IsList h b.next l

/-- The data and size fields stored at an address (`none`: not allocated). -/
def Heap.payload (h : Heap) (a : Ptr) : Option (List Nat × Nat) :=
  (h a).map (fun b => (b.data, b.size))

/-- The queue is the list `q`: `first` heads it and, when it is non-empty,
`last` is its final buffer. -/
structure QueueIs (s : State) (q : List Ptr) : Prop where
  list : IsList s.heap s.first q
  nodup : q.Nodup
  tail : ∀ h : q ≠ [], s.last = q.getLast h

/-- The pool free-list is the list `l`. -/
structure PoolIs (s : State) (l : List Ptr) : Prop where
  list : IsList s.heap s.pool_f l
  nodup : l.Nodup
  tail : ∀ h : l ≠ [], s.pool_l = l.getLast h

/-! ## Call sequences on the pool -/

/-- A call on the buffer pool; an acquire carries the allocator's answer. -/
inductive PCall where
  | acquire (size : Int) (m : Malloc)
  | release (p : Ptr)

/-- Runs the calls in order, each to completion. -/
def runPool : List PCall → State → Except Fault State
  | [], s => .ok s
  | .acquire size m :: cs, s => do
    let (_, s) ← get_new_pixbuf size m s
    runPool cs s
  | .release p :: cs, s => do
    let s ← pixbuf_return_to_pool p s
    runPool cs s

/-- The caller's and the allocator's side of a call sequence. `held` are the
buffers the caller holds: those it held at the start or acquired, and has not
released. A release passes `NULL` or a held buffer; when `get_new_pixbuf` has
to allocate, both `malloc` calls succeed and the new address is non-null and
not allocated. -/
def PCallsOk : List PCall → State → List Ptr → Prop
  | [], _, _ => True
  | .acquire size m :: cs, s, held =>
    (s.pool_f = NULL → ∃ a g, m = ⟨some a, some g⟩ ∧ a ≠ NULL ∧ s.heap a = none) ∧
    ∀ r s', get_new_pixbuf size m s = .ok (r, s') → PCallsOk cs s' (r :: held)
  | .release p :: cs, s, held =>
    (p = NULL ∨ p ∈ held) ∧
    ∀ s', pixbuf_return_to_pool p s = .ok s' → PCallsOk cs s' (held.erase p)

/-- Buffers held by a caller: distinct, non-null and allocated. -/
structure HeldOk (h : Heap) (held : List Ptr) : Prop where
  nodup : held.Nodup
  live : ∀ a ∈ held, a ≠ NULL ∧ (h a).isSome = true

/-- The pool is the list `l`, its counter is right and within capacity, its
lock is free, and it shares no buffer with the caller's `held`. -/
structure PoolInv (s : State) (l held : List Ptr) : Prop where
  pool : PoolIs s l
  count : s.poolsize = l.length
  cap : (l.length : Int) ≤ POOL_MAX
  lock : s.p_lock = false
  owned : HeldOk s.heap held
  disj : ∀ a ∈ held, a ∉ l

/-! ## Pacing timers -/

/-- `get_millis()`, the monotonic clock reading `tv_sec`, `tv_nsec`. -/
def get_millis (tv_sec tv_nsec : Int) (s : State) : State :=
  { s with ctick := (tv_sec * 1000 : Int) + (round ((tv_nsec : ℚ) / 1000000) : Int) }

/-- `new_timer(len)`. -/
def new_timer (len : ℚ) (s : State) : timer :=
  { «end» := s.ctick + len, interval := len }

/-- `timer_is_done(t)`: the `int` value of `ctick >= t->end`. -/
def timer_is_done (t : timer) (s : State) : Int :=
  if s.ctick ≥ t.«end» then 1 else 0

/-- `timer_reset(t)`. -/
def timer_reset (t : timer) (s : State) : timer :=
  { t with «end» := s.ctick + t.interval }

/-! ## The writer thread: `buf_handler` -/

/-- The locals of `buf_handler`. -/
structure HandlerLocals where
  p : Ptr
  fcnt : Int
  timeout : timer
  fwps_t : timer

/-- `write(1, p->data, p->size)`; the sink takes all the bytes. -/
def write_stdout (p : Ptr) (s : State) : Except Fault State :=
  match load p s with
  | .ok b =>
    if b.size ≤ b.data.length then .ok { s with out := s.out ++ b.data.take b.size }
    else .error .ub
  | .error e => .error e

/-- The loop condition `!exit_handler || first`. -/
def handler_continues (s : State) : Bool :=
  s.exit_handler = 0 || s.first ≠ NULL

/-- First part of the loop body: the 1-second timer and `p = pop_pixbuf()`. -/
def handler_pop (s : State) (l : HandlerLocals) : Except Fault (State × HandlerLocals) := do
  let (s, l) :=
    if timer_is_done l.fwps_t s ≠ 0 then
      ({ s with fwps := l.fcnt }, { l with fcnt := 0, fwps_t := timer_reset l.fwps_t s })
    else (s, l)
  let (p, s) ← pop_pixbuf s
  pure (s, { l with p := p })

/-- Second part, when `p` is not `NULL`: the `write` and `fcnt++`. -/
def handler_write (s : State) (l : HandlerLocals) : Except Fault (State × HandlerLocals) := do
  let s ← write_stdout l.p s
  pure (s, { l with fcnt := l.fcnt + 1 })

/-- Third part: `pixbuf_return_to_pool(p); timer_reset(timeout);`. -/
def handler_release (s : State) (l : HandlerLocals) : Except Fault (State × HandlerLocals) := do
  let s ← pixbuf_return_to_pool l.p s
  pure (s, { l with timeout := timer_reset l.timeout s })

/-- One pass through the body of the `while` loop of `buf_handler`. -/
def buf_handler_body (s : State) (l : HandlerLocals) : Except Fault (State × HandlerLocals) := do
  let (s, l) ← handler_pop s l
  if l.p ≠ NULL then do
    let (s, l) ← handler_write s l
    handler_release s l
  else
    pure (s, l)

/-- The `while` loop of `buf_handler`; `fuel` bounds the number of times the
loop condition is evaluated. -/
def buf_handler_loop : Nat → State → HandlerLocals → Except Fault (State × HandlerLocals)
  | 0, _, _ => .error .fuel
  | fuel + 1, s, l =>
    if handler_continues s then do
      let (s, l) ← buf_handler_body s l
      buf_handler_loop fuel s l
    else
      pure (s, l)

/-- The locals of `buf_handler` at loop entry. -/
def handler_entry (s : State) : HandlerLocals :=
  { p := NULL, fcnt := 0
    timeout := new_timer ((1000 / 30 : Int) : ℚ) s
    fwps_t := new_timer 1000 s }

/-- `buf_handler()` from its loop on, the locals being `l`: the loop, then
`exit_handler = 0`. -/
def buf_handler_from (fuel : Nat) (s : State) (l : HandlerLocals) : Except Fault State := do
  let (s, _) ← buf_handler_loop fuel s l
  pure { s with exit_handler := 0 }

/-- `buf_handler()` run on its own. -/
def buf_handler (fuel : Nat) (s : State) : Except Fault State :=
  buf_handler_from fuel s (handler_entry s)

/-- The bytes `write(1, p->data, p->size)` sends for the buffer at `a`. -/
def frameBytes (h : Heap) (a : Ptr) : List Nat :=
  match h a with
  | some b => b.data.take b.size
  | none => []

/-- The state of pool and queue as lists: the free-list is `lp`, the queue is
`lq`, `slots` are the buffers held in local variables; no buffer is in two
places, exactly these buffers are allocated, the counters are right, both
locks are free, and every size field fits its data region. -/
structure SysInv (s : State) (lp lq slots : List Ptr) : Prop where
  pool : PoolIs s lp
  queue : QueueIs s lq
  nodup : (lp ++ lq ++ slots).Nodup
  live : ∀ a, (s.heap a).isSome = true ↔ a ∈ lp ++ lq ++ slots
  nonnull : NULL ∉ slots
  poolcount : s.poolsize = lp.length
  poolcap : (lp.length : Int) ≤ POOL_MAX
  queuecount : s.queuesize = lq.length
  block : s.b_lock = false
  plock : s.p_lock = false
  sized : ∀ a b, s.heap a = some b → b.size ≤ b.data.length
  alloc : s.nalloc = s.nfree + (lp ++ lq ++ slots).length

/-! ## Teardown -/

/-- The `while(pool_f)` loop of `free_pool`, `p` being its local. -/
def free_pool_loop : Nat → Ptr → State → Except Fault State
  | 0, _, _ => .error .fuel
  | fuel + 1, p, s =>
    if s.pool_f ≠ NULL then do
      let s ← free_pixbuf s.pool_f s
      let s := { s with pool_f := p }
      let b ← load p s
      free_pool_loop fuel b.next s
    else
      pure s

/-- `free_pool()`. -/
def free_pool (fuel : Nat) (s : State) : Except Fault State := do
  let s ← lock_p s
  if s.pool_f = NULL then pure s
  else do
    let f ← load s.pool_f s
    let s ← free_pool_loop fuel f.next s
    unlock_p s

/-- The `while(first)` loop of `free_bufs`, `p` being its local. -/
def free_bufs_loop : Nat → Ptr → State → Except Fault State
  | 0, _, _ => .error .fuel
  | fuel + 1, p, s =>
    if s.first ≠ NULL then do
      let s ← free_pixbuf s.first s
      let s := { s with first := p }
      let b ← load p s
      free_bufs_loop fuel b.next s
    else
      pure s

/-- `free_bufs()`. -/
def free_bufs (fuel : Nat) (s : State) : Except Fault State := do
  let s ← lock_b s
  if s.first = NULL then pure s
  else do
    let f ← load s.first s
    let s ← free_bufs_loop fuel f.next s
    unlock_b s

/-- The teardown calls of `main`: `free_pool(); free_bufs();`. -/
def teardown (fuel : Nat) (s : State) : Except Fault State := do
  let s ← free_pool fuel s
  free_bufs fuel s

/-- Reading a lock log from the locks `held` at its start: is some lock
acquired while the other lock is held? -/
def nestedAcquire : List LockId → List LockEv → Bool
  | _, [] => false
  | held, .acq l :: es => held.any (fun k => k ≠ l) || nestedAcquire (l :: held) es
  | held, .rel l :: es => nestedAcquire (held.erase l) es

/-! ## The two threads as a transition system -/

/-- `catch_int(sig)`; `SIGINT` is signal 2. -/
def catch_int (sig : Int) (s : State) : State :=
  if sig = 2 then { s with exit_main := 1 } else s

/-- The number of `SIGINT`, the signal `main` installs `catch_int` for. -/
abbrev SIGINT : Int := 2

/-- Conversion of an `unsigned int` to `int` (two's complement). -/
def toInt (n : Nat) : Int :=
  if n % 2 ^ 32 < 2 ^ 31 then ((n % 2 ^ 32 : Nat) : Int) else ((n % 2 ^ 32 : Nat) : Int) - 2 ^ 32

/-- `memcpy(p->data, img->data, n)`. -/
def memcpy_frame (p : Ptr) (n : Nat) (s : State) : Except Fault State :=
  match load p s with
  | .ok b =>
    if n ≤ b.data.length ∧ n ≤ s.img.length then
      .ok { s with heap := s.heap.set p (some { b with data := s.img.take n ++ b.data.drop n }) }
    else .error .ub
  | .error e => .error e

/-- `XShmGetImage(dpy, win, img, 0, 0, 0xFFFFFFFF)`: the capture primitive
overwrites the shared image region with the frame `f` (bytes by offset). -/
def XShmGetImage (f : Nat → Nat) (s : State) : State :=
  { s with img := (List.range s.img.length).map f }

/-- Where the orchestrating thread is: before its timers are created, at the
top of the capture loop, after `XShmGetImage`, after `get_new_pixbuf`, after
`memcpy`, and in `while(exit_handler) {}`. -/
inductive MainPc where
  | start
  | top
  | captured
  | acquired
  | filled
  | stopped
deriving DecidableEq, Repr

/-- Where the writer thread is: before its timers are created, at the loop
condition, after a non-null `pop_pixbuf`, after `write`, and returned. -/
inductive HandlerPc where
  | start
  | top
  | popped
  | written
  | exited
deriving DecidableEq, Repr

/-- The locals of `main` used by the capture loop. -/
structure MainLocals where
  size : Nat
  p : Ptr
  i : Int
  fcnt : Int
  main_t : timer
  frame : timer

/-- What the environment supplies to a step of `main`: the clock reading, the
frame the capture primitive delivers, and the allocator's answer. -/
structure Env where
  tv_sec : Int
  tv_nsec : Int
  frame : Nat → Nat
  malloc : Malloc

/-- Both threads, the globals, and the record `captured` of the frames the
capture primitive has produced so far. -/
structure Sys where
  g : State
  mpc : MainPc
  m : MainLocals
  hpc : HandlerPc
  h : HandlerLocals
  captured : List (List Nat)

/-- An atomic action: a step of `main`, a step of `buf_handler`, or the
delivery of a signal. -/
inductive Action where
  | main (env : Env)
  | handler
  | signal (sig : Int)

/-- One step of the orchestrating thread. -/
def main_step (env : Env) (σ : Sys) : Except Fault Sys :=
  match σ.mpc with
  | .start =>
    let g := get_millis env.tv_sec env.tv_nsec σ.g
    pure { σ with
      g := g, mpc := .top
      m := { σ.m with
        main_t := new_timer 1000 g, frame := new_timer (1000 / 29.976) g, i := 0, fcnt := 0 } }
  | .top =>
    if σ.g.exit_main ≠ 0 then
      pure { σ with g := { σ.g with exit_handler := 1 }, mpc := .stopped }
    else
      let g := get_millis env.tv_sec env.tv_nsec σ.g
      let m :=
        if timer_is_done σ.m.main_t g ≠ 0 then
          { σ.m with fcnt := 0, main_t := timer_reset σ.m.main_t g }
        else σ.m
      if timer_is_done m.frame g ≠ 0 then
        let g := XShmGetImage env.frame g
        pure { σ with g := g, m := m, mpc := .captured, captured := σ.captured ++ [g.img] }
      else
        pure { σ with g := g, m := m }
  | .captured => do
    let (p, g) ← get_new_pixbuf (toInt σ.m.size) env.malloc σ.g
    pure { σ with g := g, m := { σ.m with p := p }, mpc := .acquired }
  | .acquired => do
    let g ← memcpy_frame σ.m.p σ.m.size σ.g
    pure { σ with g := g, mpc := .filled }
  | .filled => do
    let g ← queue_pixbuf σ.m.p σ.g
    pure { σ with
      g := g, mpc := .top
      m := { σ.m with
        frame := timer_reset σ.m.frame g, i := σ.m.i + 1, fcnt := σ.m.fcnt + 1 } }
  | .stopped => pure σ

/-- One step of the writer thread. -/
def handler_step (σ : Sys) : Except Fault Sys :=
  match σ.hpc with
  | .start => pure { σ with h := handler_entry σ.g, hpc := .top }
  | .top =>
    if handler_continues σ.g then do
      let (g, h) ← handler_pop σ.g σ.h
      pure { σ with g := g, h := h, hpc := if h.p ≠ NULL then .popped else .top }
    else
      pure { σ with g := { σ.g with exit_handler := 0 }, hpc := .exited }
  | .popped => do
    let (g, h) ← handler_write σ.g σ.h
    pure { σ with g := g, h := h, hpc := .written }
  | .written => do
    let (g, h) ← handler_release σ.g σ.h
    pure { σ with g := g, h := h, hpc := .top }
  | .exited => pure σ

/-- One atomic action of the system. -/
def step (a : Action) (σ : Sys) : Except Fault Sys :=
  match a with
  | .main env => main_step env σ
  | .handler => handler_step σ
  | .signal sig => pure { σ with g := catch_int sig σ.g }

/-- Runs a schedule. -/
def run : List Action → Sys → Except Fault Sys
  | [], σ => pure σ
  | a :: as, σ => do
    let σ ← step a σ
    run as σ

/-- The program after `create_shared_image` returned `size` and the writer
thread was created: empty pool and queue, a shared image region of `size`
bytes. -/
def Sys.init (size : Nat) : Sys where
  g := { State.init with img := List.replicate size 0 }
  mpc := .start
  m := { size := size, p := NULL, i := 0, fcnt := 0,
         main_t := { «end» := 0, interval := 0 }, frame := { «end» := 0, interval := 0 } }
  hpc := .start
  h := handler_entry State.init
  captured := []

/-- The allocator's contract: an address it answers is non-null and not
allocated. -/
def MallocOk (a : Action) (σ : Sys) : Prop :=
  match a with
  | .main env => ∀ x, env.malloc.node = some x → x ≠ NULL ∧ σ.g.heap x = none
  | _ => True

/-- The states the program can be in: reached from the start by atomic
actions, the allocator keeping its contract. -/
inductive Reach (size : Nat) : Sys → Prop where
  | init : Reach size (Sys.init size)
  | step {σ σ' : Sys} (a : Action) :
    Reach size σ → MallocOk a σ → step a σ = .ok σ' → Reach size σ'

/-- The allocator keeps its contract along a schedule. -/
def RunOk : List Action → Sys → Prop
  | [], _ => True
  | a :: as, σ => MallocOk a σ ∧ ∀ σ', step a σ = .ok σ' → RunOk as σ'

/-- The buffer held in `main`'s local `p`, if any. -/
def mainSlot (σ : Sys) : List Ptr :=
  match σ.mpc with
  | .acquired => [σ.m.p]
  | .filled => [σ.m.p]
  | _ => []

/-- The buffer held in `buf_handler`'s local `p`, if any. -/
def handlerSlot (σ : Sys) : List Ptr :=
  match σ.hpc with
  | .popped => [σ.h.p]
  | .written => [σ.h.p]
  | _ => []

/-- The frame bytes that are on their way to the sink but not in the queue:
popped and not yet written. -/
def handlerPending (σ : Sys) : List Nat :=
  match σ.hpc with
  | .popped => frameBytes σ.g.heap σ.h.p
  | _ => []

/-- The frame bytes captured but not yet queued. -/
def mainPending (σ : Sys) : List Nat :=
  match σ.mpc with
  | .captured => σ.g.img
  | .acquired => σ.g.img
  | .filled => frameBytes σ.g.heap σ.m.p
  | _ => []

/-- The bytes that have been captured and not yet written, in stream order,
after what the sink already holds. -/
def streamOf (σ : Sys) (lq : List Ptr) : List Nat :=
  σ.g.out ++ handlerPending σ ++ lq.flatMap (frameBytes σ.g.heap) ++ mainPending σ

/-- The invariant of the two-thread system for a session of frame size
`size`, the free-list being `lp` and the queue `lq`. -/
structure Inv (size : Nat) (σ : Sys) (lp lq : List Ptr) : Prop where
  sys : SysInv σ.g lp lq (mainSlot σ ++ handlerSlot σ)
  msize : σ.m.size = size
  sizes : ∀ a b, σ.g.heap a = some b → b.size = size ∧ size ≤ b.data.length
  img : σ.g.img.length = size
  stream : streamOf σ lq = σ.captured.flatten
  frames : ∀ f ∈ σ.captured, f.length = size
  flag : σ.g.exit_handler ≠ 0 → σ.mpc = .stopped
  exited : σ.hpc = .exited → σ.mpc = .stopped ∧ lq = [] ∧ σ.g.exit_handler = 0
  stopflag : σ.mpc = .stopped → σ.g.exit_handler ≠ 0 ∨ σ.hpc = .exited

/-- The bytes of the frames in the queue `lq` are the same in `σ'` as in `σ`. -/
def FramesKept (σ σ' : Sys) (lq : List Ptr) : Prop :=
  ∀ x ∈ lq, frameBytes σ'.g.heap x = frameBytes σ.g.heap x

/-! ## The rate counters -/

/-- What a step does to a rate counter: an iteration of the loop of `main` at
which `main_t` is due, the `fcnt++` that ends a capture in `main`, an
iteration of the loop of `buf_handler` at which `fwps_t` is due, and the
`fcnt++` after a `write`. -/
inductive Mark where
  | mainReset
  | captured
  | handlerReset
  | written
deriving DecidableEq, Repr

/-- The marks of one atomic action taken in `σ`. -/
def marks (a : Action) (σ : Sys) : List Mark :=
  match a with
  | .main env =>
    match σ.mpc with
    | .top =>
      if σ.g.exit_main = 0 ∧
          timer_is_done σ.m.main_t (get_millis env.tv_sec env.tv_nsec σ.g) ≠ 0 then
        [.mainReset]
      else []
    | .filled => [.captured]
    | _ => []
  | .handler =>
    match σ.hpc with
    | .top =>
      if handler_continues σ.g = true ∧ timer_is_done σ.h.fwps_t σ.g ≠ 0 then [.handlerReset]
      else []
    | .popped => [.written]
    | _ => []
  | .signal _ => []

/-- The marks of a schedule run from `σ`, in order. -/
def runMarks : List Action → Sys → List Mark
  | [], _ => []
  | a :: as, σ =>
    marks a σ ++
      (match step a σ with
        | .ok σ' => runMarks as σ'
        | .error _ => [])

/-- The number of marks `c` after the last mark `r`. -/
def countSince (r c : Mark) (ms : List Mark) : Nat :=
  (ms.reverse.takeWhile (fun x => decide (x ≠ r))).count c

/-- The counters of both loops agree with the marks `ms` of the `n` steps
taken so far. -/
def CounterInv (σ : Sys) (ms : List Mark) (n : Nat) : Prop :=
  σ.m.fcnt = countSince .mainReset .captured ms ∧
  σ.h.fcnt = countSince .handlerReset .written ms ∧
  (σ.mpc = .start → σ.m.fcnt = 0) ∧ (σ.hpc = .start → σ.h.fcnt = 0) ∧
  σ.m.fcnt ≤ n ∧ σ.h.fcnt ≤ n

/-! ## Captures with a stalled sink -/

/-- One capture by the producer: the body of `if( timer_is_done(frame) )` in
`main` from `XShmGetImage` to `queue_pixbuf`. -/
def capture_frame (size : Nat) (env : Env) (s : State) : Except Fault State := do
  let (p, s) ← get_new_pixbuf (toInt size) env.malloc (XShmGetImage env.frame s)
  let s ← memcpy_frame p size s
  queue_pixbuf p s

/-- Captures in a row, no step of the writer in between. -/
def captures (size : Nat) : List Env → State → Except Fault State
  | [], s => pure s
  | e :: es, s => do
    let s ← capture_frame size e s
    captures size es s

/-- The allocator, whenever a capture finds the pool empty, answers with a
new region at a non-null address that is not allocated. -/
def CapturesOk (size : Nat) : List Env → State → Prop
  | [], _ => True
  | e :: es, s =>
    (s.pool_f = NULL →
      ∃ a g, e.malloc = ⟨some a, some g⟩ ∧ a ≠ NULL ∧ s.heap a = none) ∧
    ∀ s', capture_frame size e s = .ok s' → CapturesOk size es s'

/-- The globals of a session of frame size `size`: the free-list is `lp`, the
queue `lq`, the buffers held in locals `slots`; every buffer has size field
`size` and a region of at least `size` bytes, and so has the shared image. -/
structure Session (size : Nat) (s : State) (lp lq slots : List Ptr) : Prop where
  sys : SysInv s lp lq slots
  sizes : ∀ a b, s.heap a = some b → b.size = size ∧ size ≤ b.data.length
  img : s.img.length = size

/-! ## Call sequences on queue and pool together -/

/-- A call of one of the four list operations; `acquire` is
`get_new_pixbuf(size)` with the allocator's answer, `release` is
`pixbuf_return_to_pool(p)`, `push` is `queue_pixbuf(b)`, `pop` is
`pop_pixbuf()`. -/
inductive Call where
  | acquire (size : Int) (m : Malloc)
  | release (p : Ptr)
  | push (b : Ptr)
  | pop

/-- Runs the calls in order, each to completion. -/
def runCalls : List Call → State → Except Fault State
  | [], s => .ok s
  | .acquire size m :: cs, s => do
    let (_, s) ← get_new_pixbuf size m s
    runCalls cs s
  | .release p :: cs, s => do
    let s ← pixbuf_return_to_pool p s
    runCalls cs s
  | .push b :: cs, s => do
    let s ← queue_pixbuf b s
    runCalls cs s
  | .pop :: cs, s => do
    let (_, s) ← pop_pixbuf s
    runCalls cs s

/-- The callers' and the allocator's side of a call sequence. `held` are the
buffers held by callers: returned by `get_new_pixbuf` or `pop_pixbuf` and not
yet handed to `queue_pixbuf` or `pixbuf_return_to_pool`. A release passes
`NULL` or a held buffer, a push passes a held buffer; when `get_new_pixbuf`
has to allocate, both `malloc` calls succeed and the new address is non-null
and not allocated. -/
def CallsOk : List Call → State → List Ptr → Prop
  | [], _, _ => True
  | .acquire size m :: cs, s, held =>
    (s.pool_f = NULL → ∃ a g, m = ⟨some a, some g⟩ ∧ a ≠ NULL ∧ s.heap a = none) ∧
    ∀ r s', get_new_pixbuf size m s = .ok (r, s') → CallsOk cs s' (r :: held)
  | .release p :: cs, s, held =>
    (p = NULL ∨ p ∈ held) ∧
    ∀ s', pixbuf_return_to_pool p s = .ok s' → CallsOk cs s' (held.erase p)
  | .push b :: cs, s, held =>
    b ∈ held ∧ ∀ s', queue_pixbuf b s = .ok s' → CallsOk cs s' (held.erase b)
  | .pop :: cs, s, held =>
    ∀ r s', pop_pixbuf s = .ok (r, s') → CallsOk cs s' (if r ≠ NULL then r :: held else held)

/-! ## Mutex set-up -/

/-- `set_up_mutexes()`, `pthread_mutex_init` answering `rb` for `b_lock` and
`rp` for `p_lock`: the locks whose initialisation was attempted, in order, and
whether the function returns or ends the process with `exit(EXIT_FAILURE)`.
The right operand of `&&` is evaluated only if the left one is true. -/
def set_up_mutexes (rb rp : Int) : List LockId × Except Fault Unit :=
  if rb ≠ 0 then
    if rp ≠ 0 then ([.b_lock, .p_lock], .error .exitFailure)
    else ([.b_lock, .p_lock], .ok ())
  else ([.b_lock], .ok ())

/-! ## Concrete states used to exercise the theorems -/

/-- A heap with three allocated one-byte buffers at addresses 1, 2 and 3. -/
def demoHeap : Heap := fun a =>
  if a = 1 ∨ a = 2 ∨ a = 3 then some { data := [a], size := 1, next := NULL } else none

/-- The initial globals over `demoHeap`. -/
def demoState : State := { State.init with heap := demoHeap }

/-- Two pushes followed by three pops. -/
def demoCalls : List QCall := [.push 1, .push 2, .pop, .pop, .pop]

/-- Acquire a fresh two-byte buffer at address 1, release it, acquire again
(served from the pool), release it again and release `NULL`. -/
def demoPoolCalls : List PCall :=
  [.acquire 2 ⟨some 1, some (fun _ => 0)⟩, .release 1, .acquire 2 ⟨none, none⟩,
    .release 1, .release NULL]

/-- Buffers 1 and 2 chained (1 then 2), buffer 3 on its own. -/
def demoChain : Heap := fun a =>
  if a = 1 then some { data := [7], size := 1, next := 2 }
  else if a = 2 then some { data := [8], size := 1, next := NULL }
  else if a = 3 then some { data := [9], size := 1, next := NULL }
  else none

/-- The queue holds buffers 1 and 2; the pool is empty. -/
def demoQueueState : State :=
  { State.init with heap := demoChain, first := 1, last := 2, queuesize := 2 }

/-- The pool holds buffers 1 and 2; the queue is empty. -/
def demoPoolState : State :=
  { State.init with heap := demoChain, pool_f := 1, pool_l := 2, poolsize := 2 }

/-- As `demoPoolState` with the counter at capacity. -/
def demoFullState : State := { demoPoolState with poolsize := 30 }

/-- Two queued three-byte frames at addresses 1 and 2, nothing else allocated,
the pool empty and the producer-finished flag set. -/
def demoDrainState : State :=
  { State.init with
    heap := fun a =>
      if a = 1 then some { data := [10, 11, 12], size := 3, next := 2 }
      else if a = 2 then some { data := [20, 21, 22], size := 3, next := NULL }
      else none
    first := 1, last := 2, queuesize := 2, nalloc := 2, exit_handler := 1 }

/-- A one-second timer that was due at time 0. -/
def demoTimer : timer := { «end» := 0, interval := 1000 }

/-- The initial state with the clock snapshot at `n` milliseconds. -/
def demoClock (n : ℚ) : State := { State.init with ctick := n }

/-- What the environment supplies in the demonstration schedule: the clock
reads `sec` seconds, the capture primitive delivers the bytes 7, 8, 9, ...,
and the allocator, where it is called (`alloc`), answers address 1 with a
zeroed region. -/
def demoEnv (sec : Int) (alloc : Bool) : Env where
  tv_sec := sec
  tv_nsec := 0
  frame := fun i => i + 7
  malloc := if alloc then ⟨some 1, some (fun _ => 0)⟩ else ⟨none, none⟩

/-- A schedule in which both threads start, `main` captures one two-byte frame
after one second, allocates a buffer, copies and queues the frame (the writer
finding the queue empty in between), `SIGINT` arrives and `main` leaves its
loop. -/
def demoSchedule : List Action :=
  [.main (demoEnv 0 false), .handler, .main (demoEnv 1 false), .main (demoEnv 1 true),
    .handler, .main (demoEnv 1 false), .main (demoEnv 1 false), .signal 2,
    .main (demoEnv 1 false)]

/-- The state `demoSchedule` leads to. -/
def demoFinal : Sys :=
  match run demoSchedule (Sys.init 2) with
  | .ok σ => σ
  | .error _ => Sys.init 2

/-- A session of one-byte frames: one buffer, at address 1, in the pool. -/
def demoStallState : State :=
  { State.init with
    heap := fun a => if a = 1 then some { data := [0], size := 1, next := NULL } else none
    pool_f := 1, pool_l := 1, poolsize := 1, nalloc := 1, img := [0] }

/-- Two captures; at the second the allocator answers address 2. -/
def demoStallEnvs : List Env :=
  [{ tv_sec := 0, tv_nsec := 0, frame := fun _ => 7, malloc := ⟨none, none⟩ },
    { tv_sec := 0, tv_nsec := 0, frame := fun _ => 8, malloc := ⟨some 2, some (fun _ => 0)⟩ }]

/-- Acquire a fresh two-byte buffer at address 1 and queue it, acquire another
at address 2 and queue it, pop the first and return it to the pool, pop the
second and keep it, pop from the empty queue, acquire again (served from the
pool) and queue that buffer. -/
def demoMixedCalls : List Call :=
  [.acquire 2 ⟨some 1, some (fun _ => 0)⟩, .push 1, .acquire 2 ⟨some 2, some (fun _ => 0)⟩,
    .push 2, .pop, .release 1, .pop, .pop, .acquire 2 ⟨none, none⟩, .push 1]

/-! ## Basic lemmas -/

@[simp] theorem Heap.set_same (h : Heap) (p : Ptr) (v : Option pixbuf) :
    h.set p v p = v := by
  simp [Heap.set]

theorem Heap.set_other (h : Heap) (p a : Ptr) (v : Option pixbuf) (hne : a ≠ p) :
    h.set p v a = h a := by
  simp [Heap.set, hne]

@[simp] theorem ok_bind {α β : Type} (a : α) (f : α → Except Fault β) :
    (Except.ok a >>= f) = f a := rfl

@[simp] theorem error_bind {α β : Type} (e : Fault) (f : α → Except Fault β) :
    ((Except.error e : Except Fault α) >>= f) = Except.error e := rfl

@[simp] theorem pure_eq_ok {α : Type} (a : α) :
    (pure a : Except Fault α) = Except.ok a := rfl

theorem IsList.head_null {h : Heap} {l : List Ptr} (hl : IsList h NULL l) : l = [] := by
  cases l with
  | nil => rfl
  | cons a l =>
    obtain ⟨h1, h2, _⟩ := hl
    exact absurd h1.symm h2

theorem IsList.null_iff {h : Heap} {p : Ptr} {l : List Ptr} (hl : IsList h p l) :
    p = NULL ↔ l = [] := by
  constructor
  · intro hp
    subst hp
    exact hl.head_null
  · intro hnil
    subst hnil
    exact hl

theorem IsList.not_mem_null {h : Heap} : ∀ {l : List Ptr} {p : Ptr}, IsList h p l → NULL ∉ l
  | [], _, _ => by simp
  | a :: l, p, hl => by
    obtain ⟨_, h2, b, _, h4⟩ := hl
    intro hmem
    rcases List.mem_cons.mp hmem with h5 | h5
    · exact h2 h5.symm
    · exact IsList.not_mem_null h4 h5

theorem IsList.live {h : Heap} : ∀ {l : List Ptr} {p : Ptr}, IsList h p l →
    ∀ a ∈ l, ∃ b, h a = some b
  | [], _, _ => by simp
  | x :: l, p, hl => by
    obtain ⟨_, _, b, h3, h4⟩ := hl
    intro a hmem
    rcases List.mem_cons.mp hmem with h5 | h5
    · exact ⟨b, h5 ▸ h3⟩
    · exact IsList.live h4 a h5

/-- A list is determined by its head pointer. -/
theorem IsList.unique {h : Heap} : ∀ {l l' : List Ptr} {p : Ptr},
    IsList h p l → IsList h p l' → l = l'
  | [], l', p, h1, h2 => by
    have hp : p = NULL := h1
    subst hp
    exact h2.head_null.symm
  | a :: l, [], p, h1, h2 => by
    have hp : p = NULL := h2
    subst hp
    exact h1.head_null
  | a :: l, a' :: l', p, h1, h2 => by
    obtain ⟨e1, _, b, hb, t1⟩ := h1
    obtain ⟨e2, _, b', hb', t2⟩ := h2
    have haa : a = a' := e1.symm.trans e2
    subst haa
    have hbb : b = b' := Option.some.inj (hb.symm.trans hb')
    subst hbb
    rw [IsList.unique t1 t2]

/-- Heaps that agree on the cells of a list see the same list. -/
theorem IsList.frame {h h' : Heap} : ∀ {l : List Ptr} {p : Ptr},
    IsList h p l → (∀ a ∈ l, h' a = h a) → IsList h' p l
  | [], _, hl, _ => hl
  | a :: l, p, hl, hag => by
    obtain ⟨e1, n1, b, hb, t1⟩ := hl
    refine ⟨e1, n1, b, ?_, IsList.frame t1 (fun x hx => hag x (List.mem_cons_of_mem _ hx))⟩
    rw [hag a (List.mem_cons_self _ _)]
    exact hb

/-- Appending the cell `x` to a non-empty list: `x->next = NULL` and then
`last->next = x`, the two stores of `queue_pixbuf` and `pixbuf_return_to_pool`. -/
theorem IsList.snoc {h : Heap} {x : Ptr} {bx : pixbuf} (hx0 : x ≠ NULL) (hx : h x = some bx) :
    ∀ {l : List Ptr} {p : Ptr} (hne : l ≠ []), IsList h p l → l.Nodup → x ∉ l →
    ∃ bl, h (l.getLast hne) = some bl ∧
      IsList ((h.set x (some { bx with next := NULL })).set (l.getLast hne)
        (some { bl with next := x })) p (l ++ [x])
  | [], _, hne, _, _, _ => absurd rfl hne
  | [a], p, _, hl, _, hxl => by
    obtain ⟨e1, n1, b, hb, t1⟩ := hl
    have hax : a ≠ x := fun e => hxl (by simp [e])
    have hbn : b.next = NULL := t1
    refine ⟨b, by simpa using hb, e1, n1, { b with next := x }, by simp, ?_⟩
    refine ⟨rfl, hx0, { bx with next := NULL }, ?_, rfl⟩
    simp [Heap.set, hax, Ne.symm hax]
  | a :: a' :: l, p, _, hl, hnd, hxl => by
    obtain ⟨e1, n1, b, hb, t1⟩ := hl
    have hnd' : (a' :: l).Nodup := (List.nodup_cons.mp hnd).2
    have hxl' : x ∉ a' :: l := fun hm => hxl (List.mem_cons_of_mem _ hm)
    obtain ⟨bl, hbl, ht⟩ := IsList.snoc hx0 hx (List.cons_ne_nil a' l) t1 hnd' hxl'
    have hax : a ≠ x := fun e => hxl (by simp [e])
    have hlast : a ≠ (a' :: l).getLast (List.cons_ne_nil a' l) := by
      intro e
      exact (List.nodup_cons.mp hnd).1 (e ▸ List.getLast_mem _)
    refine ⟨bl, by simpa using hbl, e1, n1, b, ?_, ?_⟩
    · simp only [List.getLast_cons_cons]
      rw [Heap.set_other _ _ _ _ hlast, Heap.set_other _ _ _ _ hax]
      exact hb
    · simpa using ht

theorem Heap.payload_set_next (h : Heap) (p v : Ptr) (b : pixbuf) (hb : h p = some b) (a : Ptr) :
    (h.set p (some { b with next := v })).payload a = h.payload a := by
  by_cases hap : a = p
  · subst hap
    simp [Heap.payload, hb]
  · simp [Heap.payload, Heap.set, hap]

/-! ## The queue operations on a well-formed queue -/

/-- `queue_pixbuf(b)` for an allocated buffer that is not in the queue. -/
theorem queue_pixbuf_spec {s : State} {q : List Ptr} {b : Ptr} {bb : pixbuf}
    (hq : QueueIs s q) (hlock : s.b_lock = false) (hb0 : b ≠ NULL)
    (hb : s.heap b = some bb) (hbq : b ∉ q) :
    ∃ h' : Heap,
      queue_pixbuf b s = .ok { s with
        heap := h', first := if q = [] then b else s.first, last := b,
        queuesize := s.queuesize + 1, b_lock := false,
        locklog := s.locklog ++ [.acq .b_lock, .rel .b_lock] } ∧
      IsList h' (if q = [] then b else s.first) (q ++ [b]) ∧
      (∀ a, a ∉ q → a ≠ b → h' a = s.heap a) ∧
      (∀ a, h'.payload a = s.heap.payload a) := by
  by_cases hnil : q = []
  · subst hnil
    have hf : s.first = NULL := hq.list
    refine ⟨s.heap.set b (some { bb with next := NULL }), ?_, ?_, ?_, ?_⟩
    · simp [queue_pixbuf, lock_b, unlock_b, store_next, load, hlock, hb0, hb, hf]
    · simp only [if_true, List.nil_append]
      exact ⟨rfl, hb0, _, Heap.set_same _ _ _, rfl⟩
    · intro a _ hab
      exact Heap.set_other _ _ _ _ hab
    · exact Heap.payload_set_next _ _ _ _ hb
  · have hf : s.first ≠ NULL := fun e => hnil (hq.list.null_iff.mp e)
    obtain ⟨bl, hbl, hlist⟩ := IsList.snoc hb0 hb hnil hq.list hq.nodup hbq
    have hlast := hq.tail hnil
    have hl0 : s.last ≠ NULL := by
      rw [hlast]
      intro e
      exact hq.list.not_mem_null (e ▸ List.getLast_mem hnil)
    have hlb : q.getLast hnil ≠ b := fun e => hbq (e ▸ List.getLast_mem hnil)
    have hbl' : (s.heap.set b (some { bb with next := NULL })) (q.getLast hnil) = some bl := by
      rw [Heap.set_other _ _ _ _ hlb]
      exact hbl
    refine ⟨(s.heap.set b (some { bb with next := NULL })).set (q.getLast hnil)
      (some { bl with next := b }), ?_, ?_, ?_, ?_⟩
    · rw [← hlast] at hbl' ⊢
      simp [queue_pixbuf, lock_b, unlock_b, store_next, load, hlock, hb0, hb, hf, hl0, hbl', hnil]
    · simpa [hnil] using hlist
    · intro a haq hab
      have hal : a ≠ q.getLast hnil := fun e => haq (e ▸ List.getLast_mem hnil)
      rw [Heap.set_other _ _ _ _ hal, Heap.set_other _ _ _ _ hab]
    · intro a
      rw [Heap.payload_set_next _ _ _ _ hbl', Heap.payload_set_next _ _ _ _ hb]

/-- `pop_pixbuf()` on the empty queue. -/
theorem pop_pixbuf_nil {s : State} (hf : s.first = NULL) (hlock : s.b_lock = false) :
    pop_pixbuf s = .ok (NULL, { s with
      b_lock := false, locklog := s.locklog ++ [.acq .b_lock, .rel .b_lock] }) := by
  simp [pop_pixbuf, lock_b, unlock_b, hlock, hf]

/-- `pop_pixbuf()` on a non-empty queue. -/
theorem pop_pixbuf_cons {s : State} {a : Ptr} {q : List Ptr}
    (hq : QueueIs s (a :: q)) (hlock : s.b_lock = false) :
    ∃ ba : pixbuf, s.heap a = some ba ∧ s.first = a ∧ a ≠ NULL ∧
      IsList s.heap ba.next q ∧
      pop_pixbuf s = .ok (a, { s with
        first := ba.next, last := if ba.next = NULL then NULL else s.last,
        queuesize := s.queuesize - 1, b_lock := false,
        locklog := s.locklog ++ [.acq .b_lock, .rel .b_lock] }) := by
  obtain ⟨e1, n1, ba, hba, t1⟩ := hq.list
  refine ⟨ba, hba, e1, n1, t1, ?_⟩
  subst e1
  by_cases hn : ba.next = NULL
  · simp [pop_pixbuf, lock_b, unlock_b, load, hlock, n1, hba, hn]
  · simp [pop_pixbuf, lock_b, unlock_b, load, hlock, n1, hba, hn]

/-! ## FIFO order -/

theorem QCallsOk.mono {h h' : Heap} (hh : ∀ a, (h a).isSome = true → (h' a).isSome = true) :
    ∀ (cs : List QCall) (q : List Ptr), QCallsOk h q cs → QCallsOk h' q cs
  | [], _, _ => trivial
  | .push b :: cs, q, hok => by
    obtain ⟨h1, h2, h3, h4⟩ := hok
    exact ⟨h1, hh b h2, h3, QCallsOk.mono hh cs _ h4⟩
  | .pop :: cs, q, hok => QCallsOk.mono hh cs _ hok

theorem isSome_of_payload {h h' : Heap} (hp : ∀ a, h'.payload a = h.payload a) (a : Ptr)
    (ha : (h a).isSome = true) : (h' a).isSome = true := by
  have := hp a
  simp only [Heap.payload] at this
  cases h1 : h a with
  | none => simp [h1] at ha
  | some v =>
    cases h2 : h' a with
    | none => simp [h1, h2] at this
    | some v' => rfl

/-- Running a valid call sequence on a well-formed queue `q`: the run returns,
and the queue before followed by the pushes is the pops followed by the queue
after. -/
theorem runQueue_spec : ∀ (cs : List QCall) (s : State) (q : List Ptr),
    QueueIs s q → s.b_lock = false → QCallsOk s.heap q cs →
    ∃ pops s' q', runQueue cs s = .ok (pops, s') ∧ QueueIs s' q' ∧ s'.b_lock = false ∧
      q ++ pushed cs = pops ++ q' ∧ pops = (fifoModel cs q).1 ∧ q' = (fifoModel cs q).2
  | [], s, q, hq, hl, _ => ⟨[], s, q, rfl, hq, hl, by simp [pushed], rfl, rfl⟩
  | .push b :: cs, s, q, hq, hl, hok => by
    obtain ⟨hb0, hlive, hbq, hrest⟩ := hok
    obtain ⟨bb, hbb⟩ := Option.isSome_iff_exists.mp hlive
    obtain ⟨h', hrun, hlist, _, hpay⟩ := queue_pixbuf_spec hq hl hb0 hbb hbq
    have hq' : QueueIs { s with
        heap := h', first := if q = [] then b else s.first, last := b,
        queuesize := s.queuesize + 1, b_lock := false,
        locklog := s.locklog ++ [.acq .b_lock, .rel .b_lock] } (q ++ [b]) :=
      ⟨hlist, List.Nodup.append hq.nodup (List.nodup_singleton b) (by simpa using hbq),
        fun _ => by simp⟩
    obtain ⟨pops, s', q', hr, hq2, hl2, heq, hm1, hm2⟩ :=
      runQueue_spec cs _ (q ++ [b]) hq' rfl (QCallsOk.mono (isSome_of_payload hpay) cs _ hrest)
    refine ⟨pops, s', q', ?_, hq2, hl2, ?_, hm1, hm2⟩
    · simp [runQueue, hrun, hr]
    · simpa [pushed] using heq
  | .pop :: cs, s, [], hq, hl, hok => by
    have hf : s.first = NULL := hq.list
    have hq' : QueueIs { s with
        b_lock := false, locklog := s.locklog ++ [.acq .b_lock, .rel .b_lock] } [] :=
      ⟨hq.list, List.nodup_nil, fun h => absurd rfl h⟩
    obtain ⟨pops, s', q', hr, hq2, hl2, heq, hm1, hm2⟩ := runQueue_spec cs _ [] hq' rfl hok
    refine ⟨pops, s', q', ?_, hq2, hl2, ?_, hm1, hm2⟩
    · simp [runQueue, pop_pixbuf_nil hf hl, hr]
    · simpa [pushed] using heq
  | .pop :: cs, s, a :: q, hq, hl, hok => by
    obtain ⟨ba, hba, hfa, ha0, htl, hrun⟩ := pop_pixbuf_cons hq hl
    have hq' : QueueIs { s with
        first := ba.next, last := if ba.next = NULL then NULL else s.last,
        queuesize := s.queuesize - 1, b_lock := false,
        locklog := s.locklog ++ [.acq .b_lock, .rel .b_lock] } q := by
      refine ⟨htl, (List.nodup_cons.mp hq.nodup).2, fun hne => ?_⟩
      have hn : ba.next ≠ NULL := fun e => hne (htl.null_iff.mp e)
      have := hq.tail (List.cons_ne_nil a q)
      simp only [hn, if_false]
      rw [this, List.getLast_cons hne]
    obtain ⟨pops, s', q', hr, hq2, hl2, heq, hm1, hm2⟩ := runQueue_spec cs _ q hq' rfl hok
    refine ⟨a :: pops, s', q', ?_, hq2, hl2, ?_, ?_, hm2⟩
    · simp [runQueue, hrun, hr, ha0]
    · simpa [pushed] using heq
    · rw [hm1]
      rfl

/-- C1: starting from the empty queue, every sequence of `queue_pixbuf` and
`pop_pixbuf` calls in which each pushed buffer is an allocated buffer that is
not in the queue runs to completion and refines the queue as a sequence: the
buffers returned by the non-empty pops are those the sequence model returns (a
pop returns the first element whenever the sequence is not empty), the linked
list left behind is the sequence the model leaves, and the buffers pushed are
the buffers popped followed by those still queued. So the buffers returned are,
in order, exactly the first buffers pushed: the Nth buffer popped is the Nth
buffer pushed. -/
theorem queue_fifo (cs : List QCall) (s : State)
    (hempty : s.first = NULL) (hlock : s.b_lock = false) (hok : QCallsOk s.heap [] cs) :
    ∃ pops s', runQueue cs s = .ok (pops, s') ∧
      pops = (fifoModel cs []).1 ∧ QueueIs s' (fifoModel cs []).2 ∧
      pushed cs = pops ++ (fifoModel cs []).2 ∧
      pops = (pushed cs).take pops.length ∧
      ∀ n (hn : n < pops.length), (pushed cs)[n]? = some (pops.get ⟨n, hn⟩) := by
  have hq : QueueIs s [] := ⟨hempty, List.nodup_nil, fun h => absurd rfl h⟩
  obtain ⟨pops, s', q', hr, hq', _, heq, hm1, hm2⟩ := runQueue_spec cs s [] hq hlock hok
  simp only [List.nil_append] at heq
  subst hm2
  refine ⟨pops, s', hr, hm1, hq', heq, ?_, ?_⟩
  · rw [heq]
    simp
  · intro n hn
    rw [heq, List.getElem?_append_left hn]
    simp

theorem queue_fifo_witness :
    (demoState.first = NULL ∧ demoState.b_lock = false ∧ QCallsOk demoState.heap [] demoCalls) ∧
    ∃ pops s', runQueue demoCalls demoState = .ok (pops, s') ∧
      pops = [1, 2] ∧ s'.first = NULL ∧ pushed demoCalls = pops ∧
      ∀ n (hn : n < pops.length), (pushed demoCalls)[n]? = some (pops.get ⟨n, hn⟩) := by
  have hok : QCallsOk demoState.heap [] demoCalls := by
    simp [QCallsOk, demoCalls, demoState, demoHeap]
  obtain ⟨pops, s', h1, h2, h3, h4, _, h6⟩ := queue_fifo demoCalls demoState rfl rfl hok
  have hm : fifoModel demoCalls [] = ([1, 2], []) := rfl
  rw [hm] at h2 h3 h4
  exact ⟨⟨rfl, rfl, hok⟩, pops, s', h1, h2, h3.list, by simpa using h4, h6⟩

/-! ## The pool operations on a well-formed pool -/

/-- `pixbuf_return_to_pool(NULL)` does nothing. -/
theorem pixbuf_return_to_pool_null (s : State) : pixbuf_return_to_pool NULL s = .ok s := by
  simp [pixbuf_return_to_pool]

/-- `pixbuf_return_to_pool(p)` when the pool is at capacity: `p` is freed. -/
theorem pixbuf_return_to_pool_full {s : State} {p : Ptr} {bp : pixbuf}
    (hlock : s.p_lock = false) (hp0 : p ≠ NULL) (hp : s.heap p = some bp)
    (hfull : s.poolsize ≥ POOL_MAX) :
    pixbuf_return_to_pool p s = .ok { s with
      heap := s.heap.set p none, nfree := s.nfree + 1, p_lock := false,
      locklog := s.locklog ++ [.acq .p_lock, .rel .p_lock] } := by
  simp [pixbuf_return_to_pool, lock_p, unlock_p, free_pixbuf, load, hlock, hp0, hp, hfull]

/-- `pixbuf_return_to_pool(p)` below capacity, for an allocated buffer that is
not in the pool: `p` becomes the last buffer of the free-list. -/
theorem pixbuf_return_to_pool_spec {s : State} {l : List Ptr} {p : Ptr} {bp : pixbuf}
    (hl : PoolIs s l) (hlock : s.p_lock = false) (hp0 : p ≠ NULL)
    (hp : s.heap p = some bp) (hpl : p ∉ l) (hroom : s.poolsize < POOL_MAX) :
    ∃ h' : Heap,
      pixbuf_return_to_pool p s = .ok { s with
        heap := h', pool_f := if l = [] then p else s.pool_f, pool_l := p,
        poolsize := s.poolsize + 1, p_lock := false,
        locklog := s.locklog ++ [.acq .p_lock, .rel .p_lock] } ∧
      IsList h' (if l = [] then p else s.pool_f) (l ++ [p]) ∧
      (∀ a, a ∉ l → a ≠ p → h' a = s.heap a) ∧
      (∀ a, h'.payload a = s.heap.payload a) := by
  have hnf : ¬ s.poolsize ≥ POOL_MAX := not_le.mpr hroom
  by_cases hnil : l = []
  · subst hnil
    have hf : s.pool_f = NULL := hl.list
    refine ⟨s.heap.set p (some { bp with next := NULL }), ?_, ?_, ?_, ?_⟩
    · simp [pixbuf_return_to_pool, lock_p, unlock_p, store_next, load, hlock, hp0, hp, hf, hnf]
    · simp only [if_true, List.nil_append]
      exact ⟨rfl, hp0, _, Heap.set_same _ _ _, rfl⟩
    · intro a _ hab
      exact Heap.set_other _ _ _ _ hab
    · exact Heap.payload_set_next _ _ _ _ hp
  · have hf : s.pool_f ≠ NULL := fun e => hnil (hl.list.null_iff.mp e)
    obtain ⟨bl, hbl, hlist⟩ := IsList.snoc hp0 hp hnil hl.list hl.nodup hpl
    have hlast := hl.tail hnil
    have hl0 : s.pool_l ≠ NULL := by
      rw [hlast]
      intro e
      exact hl.list.not_mem_null (e ▸ List.getLast_mem hnil)
    have hlb : l.getLast hnil ≠ p := fun e => hpl (e ▸ List.getLast_mem hnil)
    have hbl' : (s.heap.set p (some { bp with next := NULL })) (l.getLast hnil) = some bl := by
      rw [Heap.set_other _ _ _ _ hlb]
      exact hbl
    refine ⟨(s.heap.set p (some { bp with next := NULL })).set (l.getLast hnil)
      (some { bl with next := p }), ?_, ?_, ?_, ?_⟩
    · rw [← hlast] at hbl' ⊢
      simp [pixbuf_return_to_pool, lock_p, unlock_p, store_next, load, hlock, hp0, hp, hf,
        hl0, hbl', hnil, hnf]
    · simpa [hnil] using hlist
    · intro a hal hap
      have hal' : a ≠ l.getLast hnil := fun e => hal (e ▸ List.getLast_mem hnil)
      rw [Heap.set_other _ _ _ _ hal', Heap.set_other _ _ _ _ hap]
    · intro a
      rw [Heap.payload_set_next _ _ _ _ hbl', Heap.payload_set_next _ _ _ _ hp]

/-- `get_new_pixbuf(size)` on a non-empty pool: the head of the free-list. -/
theorem get_new_pixbuf_cons {s : State} {a : Ptr} {l : List Ptr} (size : Int) (m : Malloc)
    (hl : PoolIs s (a :: l)) (hlock : s.p_lock = false) :
    ∃ ba : pixbuf, s.heap a = some ba ∧ s.pool_f = a ∧ a ≠ NULL ∧
      IsList s.heap ba.next l ∧
      get_new_pixbuf size m s = .ok (a, { s with
        pool_f := ba.next, poolsize := s.poolsize - 1, p_lock := false,
        locklog := s.locklog ++ [.acq .p_lock, .rel .p_lock] }) := by
  obtain ⟨e1, n1, ba, hba, t1⟩ := hl.list
  refine ⟨ba, hba, e1, n1, t1, ?_⟩
  subst e1
  simp [get_new_pixbuf, lock_p, unlock_p, load, hlock, n1, hba]

/-- `get_new_pixbuf(size)` on the empty pool when both `malloc` calls succeed. -/
theorem get_new_pixbuf_nil {s : State} (size : Int) (a : Ptr) (g : Nat → Nat)
    (hf : s.pool_f = NULL) (hlock : s.p_lock = false) :
    get_new_pixbuf size ⟨some a, some g⟩ s = .ok (a, { s with
      heap := s.heap.set a (some {
        data := (List.range (toSizeT size)).map g, size := toUInt size, next := NULL }),
      nalloc := s.nalloc + 1, p_lock := false,
      locklog := s.locklog ++ [.acq .p_lock, .rel .p_lock] }) := by
  simp [get_new_pixbuf, lock_p, unlock_p, hlock, hf]

/-- `get_new_pixbuf(size)` on the empty pool when a `malloc` fails. -/
theorem get_new_pixbuf_fail {s : State} (size : Int) (m : Malloc)
    (hf : s.pool_f = NULL) (hlock : s.p_lock = false) (hm : m.node = none ∨ m.region = none) :
    get_new_pixbuf size m s = .error .exitFailure := by
  rcases m with ⟨n, r⟩
  cases n <;> cases r <;> simp_all [get_new_pixbuf, lock_p, unlock_p]

/-! ## Pool occupancy -/

theorem HeldOk.erase {h h' : Heap} {held : List Ptr} (p : Ptr) (hh : HeldOk h held)
    (hlive : ∀ a, a ≠ p → (h a).isSome = true → (h' a).isSome = true) :
    HeldOk h' (held.erase p) := by
  refine ⟨hh.nodup.erase p, fun a ha => ?_⟩
  have hmem : a ∈ held := List.mem_of_mem_erase ha
  have hne : a ≠ p := fun e => (List.Nodup.not_mem_erase hh.nodup) (e ▸ ha)
  exact ⟨(hh.live a hmem).1, hlive a hne (hh.live a hmem).2⟩

/-- One valid pool call keeps the pool invariant and returns. -/
theorem runPool_spec : ∀ (cs : List PCall) (s : State) (l held : List Ptr),
    PoolInv s l held → PCallsOk cs s held →
    ∃ s' l' held', runPool cs s = .ok s' ∧ PoolInv s' l' held'
  | [], s, l, held, hinv, _ => ⟨s, l, held, rfl, hinv⟩
  | .acquire size m :: cs, s, [], held, hinv, hok => by
    have hf : s.pool_f = NULL := hinv.pool.list
    obtain ⟨a, g, hm, ha0, hfresh⟩ := hok.1 hf
    subst hm
    have hrun := get_new_pixbuf_nil size a g hf hinv.lock
    have hah : a ∉ held := fun hmem => by
      have := (hinv.owned.live a hmem).2
      simp [hfresh] at this
    have hinv' : PoolInv { s with
        heap := s.heap.set a (some {
          data := (List.range (toSizeT size)).map g, size := toUInt size, next := NULL }),
        nalloc := s.nalloc + 1, p_lock := false,
        locklog := s.locklog ++ [.acq .p_lock, .rel .p_lock] } [] (a :: held) := by
      refine ⟨⟨hf, List.nodup_nil, fun h => absurd rfl h⟩, by simpa using hinv.count,
        hinv.cap, rfl, ⟨List.nodup_cons.mpr ⟨hah, hinv.owned.nodup⟩, ?_⟩, by simp⟩
      intro x hx
      rcases List.mem_cons.mp hx with e | hx'
      · subst e
        exact ⟨ha0, by simp⟩
      · have hxa : x ≠ a := fun e => hah (e ▸ hx')
        exact ⟨(hinv.owned.live x hx').1, by
          simpa [Heap.set, hxa] using (hinv.owned.live x hx').2⟩
    obtain ⟨s', l', held', hr, hi⟩ := runPool_spec cs _ [] (a :: held) hinv' (hok.2 _ _ hrun)
    exact ⟨s', l', held', by simp [runPool, hrun, hr], hi⟩
  | .acquire size m :: cs, s, a :: l, held, hinv, hok => by
    obtain ⟨ba, hba, hfa, ha0, htl, hrun⟩ := get_new_pixbuf_cons size m hinv.pool hinv.lock
    have hah : a ∉ held := fun hmem => hinv.disj a hmem (List.mem_cons_self _ _)
    have hal : a ∉ l := (List.nodup_cons.mp hinv.pool.nodup).1
    have hinv' : PoolInv { s with
        pool_f := ba.next, poolsize := s.poolsize - 1, p_lock := false,
        locklog := s.locklog ++ [.acq .p_lock, .rel .p_lock] } l (a :: held) := by
      refine ⟨⟨htl, (List.nodup_cons.mp hinv.pool.nodup).2, fun hne => ?_⟩, ?_, ?_, rfl,
        ⟨List.nodup_cons.mpr ⟨hah, hinv.owned.nodup⟩, ?_⟩, ?_⟩
      · have := hinv.pool.tail (List.cons_ne_nil a l)
        simp only
        rw [this, List.getLast_cons hne]
      · have := hinv.count
        simp only [List.length_cons, Nat.cast_add, Nat.cast_one] at this
        simp only
        omega
      · have := hinv.cap
        simp only [List.length_cons, Nat.cast_add, Nat.cast_one] at this
        omega
      · intro x hx
        rcases List.mem_cons.mp hx with e | hx'
        · subst e
          exact ⟨ha0, by simp [hba]⟩
        · exact hinv.owned.live x hx'
      · intro x hx
        rcases List.mem_cons.mp hx with e | hx'
        · subst e
          exact hal
        · exact fun hm => hinv.disj x hx' (List.mem_cons_of_mem _ hm)
    obtain ⟨s', l', held', hr, hi⟩ := runPool_spec cs _ l (a :: held) hinv' (hok.2 _ _ hrun)
    exact ⟨s', l', held', by simp [runPool, hrun, hr], hi⟩
  | .release p :: cs, s, l, held, hinv, hok => by
    rcases hok.1 with hp0 | hph
    · subst hp0
      have hrun := pixbuf_return_to_pool_null s
      have hinv' : PoolInv s l (held.erase NULL) :=
        ⟨hinv.pool, hinv.count, hinv.cap, hinv.lock,
          hinv.owned.erase NULL (fun _ _ h => h),
          fun a ha => hinv.disj a (List.mem_of_mem_erase ha)⟩
      obtain ⟨s', l', held', hr, hi⟩ := runPool_spec cs s l _ hinv' (hok.2 _ hrun)
      exact ⟨s', l', held', by simp [runPool, hrun, hr], hi⟩
    · obtain ⟨hp0, hplive⟩ := hinv.owned.live p hph
      obtain ⟨bp, hbp⟩ := Option.isSome_iff_exists.mp hplive
      have hpl : p ∉ l := hinv.disj p hph
      by_cases hfull : s.poolsize ≥ POOL_MAX
      · have hrun := pixbuf_return_to_pool_full hinv.lock hp0 hbp hfull
        have hinv' : PoolInv { s with
            heap := s.heap.set p none, nfree := s.nfree + 1, p_lock := false,
            locklog := s.locklog ++ [.acq .p_lock, .rel .p_lock] } l (held.erase p) := by
          refine ⟨⟨?_, hinv.pool.nodup, hinv.pool.tail⟩, hinv.count, hinv.cap, rfl,
            hinv.owned.erase p (fun a ha h => by simpa [Heap.set, ha] using h),
            fun a ha => hinv.disj a (List.mem_of_mem_erase ha)⟩
          exact hinv.pool.list.frame (fun a ha =>
            Heap.set_other _ _ _ _ (fun e => hpl (e ▸ ha)))
        obtain ⟨s', l', held', hr, hi⟩ := runPool_spec cs _ l _ hinv' (hok.2 _ hrun)
        exact ⟨s', l', held', by simp [runPool, hrun, hr], hi⟩
      · have hroom : s.poolsize < POOL_MAX := not_le.mp hfull
        obtain ⟨h', hrun, hlist, _, hpay⟩ :=
          pixbuf_return_to_pool_spec hinv.pool hinv.lock hp0 hbp hpl hroom
        have hinv' : PoolInv { s with
            heap := h', pool_f := if l = [] then p else s.pool_f, pool_l := p,
            poolsize := s.poolsize + 1, p_lock := false,
            locklog := s.locklog ++ [.acq .p_lock, .rel .p_lock] } (l ++ [p]) (held.erase p) := by
          refine ⟨⟨hlist, List.Nodup.append hinv.pool.nodup (List.nodup_singleton p)
              (by simpa using hpl), fun _ => by simp⟩, ?_, ?_, rfl,
            hinv.owned.erase p (fun a _ h => isSome_of_payload hpay a h), ?_⟩
          · have := hinv.count
            simp only [List.length_append, List.length_singleton, Nat.cast_add, Nat.cast_one]
            omega
          · have := hinv.count
            simp only [List.length_append, List.length_singleton, Nat.cast_add, Nat.cast_one]
            omega
          · intro a ha hm
            rcases List.mem_append.mp hm with h1 | h1
            · exact hinv.disj a (List.mem_of_mem_erase ha) h1
            · have : a = p := by simpa using h1
              exact (List.Nodup.not_mem_erase hinv.owned.nodup) (this ▸ ha)
        obtain ⟨s', l', held', hr, hi⟩ := runPool_spec cs _ _ _ hinv' (hok.2 _ hrun)
        exact ⟨s', l', held', by simp [runPool, hrun, hr], hi⟩

theorem PCallsOk.take : ∀ (cs : List PCall) (s : State) (held : List Ptr) (k : Nat),
    PCallsOk cs s held → PCallsOk (cs.take k) s held
  | _, _, _, 0, _ => by simp [PCallsOk]
  | [], _, _, _ + 1, _ => by simp [PCallsOk]
  | .acquire size m :: cs, s, held, k + 1, h =>
    ⟨h.1, fun r s' hr => PCallsOk.take cs s' (r :: held) k (h.2 r s' hr)⟩
  | .release p :: cs, s, held, k + 1, h =>
    ⟨h.1, fun s' hr => PCallsOk.take cs s' (held.erase p) k (h.2 s' hr)⟩

/-- C2: starting from the empty pool, every sequence of `get_new_pixbuf` and
`pixbuf_return_to_pool` calls in which the caller releases only buffers it
holds, and `malloc` gives fresh memory when asked, runs to completion; after
each of its calls (after the first `k` calls, for every `k`) `poolsize` is the
number of buffers on the free-list, is at least 0 and is at most
`POOL_MAX = 30`. -/
theorem pool_occupancy_bounded (cs : List PCall) (s : State) (held : List Ptr)
    (hempty : s.pool_f = NULL) (hzero : s.poolsize = 0) (hlock : s.p_lock = false)
    (hheld : HeldOk s.heap held) (hok : PCallsOk cs s held) (k : Nat) :
    ∃ s', runPool (cs.take k) s = .ok s' ∧ 0 ≤ s'.poolsize ∧ s'.poolsize ≤ 30 ∧
      ∃ l, IsList s'.heap s'.pool_f l ∧ (l.length : Int) = s'.poolsize := by
  have hinv : PoolInv s [] held :=
    ⟨⟨hempty, List.nodup_nil, fun h => absurd rfl h⟩, by simpa using hzero,
      by simp [POOL_MAX], hlock, hheld, by simp⟩
  obtain ⟨s', l', held', hr, hi⟩ :=
    runPool_spec (cs.take k) s [] held hinv (PCallsOk.take cs s held k hok)
  refine ⟨s', hr, ?_, ?_, l', hi.pool.list, hi.count.symm⟩
  · rw [hi.count]
    exact Int.natCast_nonneg _
  · rw [hi.count]
    exact hi.cap

theorem pool_occupancy_bounded_witness :
    (State.init.pool_f = NULL ∧ State.init.poolsize = 0 ∧ State.init.p_lock = false ∧
      HeldOk State.init.heap [] ∧ PCallsOk demoPoolCalls State.init []) ∧
    ∃ s', runPool (demoPoolCalls.take 5) State.init = .ok s' ∧ 0 ≤ s'.poolsize ∧
      s'.poolsize ≤ 30 ∧
      ∃ l, IsList s'.heap s'.pool_f l ∧ (l.length : Int) = s'.poolsize :=
  have hheld : HeldOk State.init.heap [] := ⟨List.nodup_nil, by simp⟩
  have hok : PCallsOk demoPoolCalls State.init [] := by
    simp [PCallsOk, demoPoolCalls, State.init, get_new_pixbuf, pixbuf_return_to_pool, lock_p,
      unlock_p, store_next, load, free_pixbuf, Heap.set, POOL_MAX]
  ⟨⟨rfl, rfl, rfl, hheld, hok⟩,
    pool_occupancy_bounded demoPoolCalls State.init [] rfl rfl rfl hheld hok 5⟩

/-! ## C6, C7, C8: the single operations -/

/-- C6: `get_new_pixbuf(size)` on a well-formed pool with free-list `l`. If `l`
is non-empty the call returns its head, the free-list becomes the tail of `l`
in the same order, `poolsize` drops by one and the heap, so the size field and
data of the returned buffer, is unchanged whatever `size` is. If `l` is empty
and both `malloc` calls succeed with a fresh address, the call returns that
newly allocated buffer, whose size field is `size` converted to `unsigned int`
(equal to `size` for a non-negative `int`) and whose region has `size` bytes;
the pool stays empty and `poolsize` is unchanged. -/
theorem get_new_pixbuf_contract (s : State) (l : List Ptr) (size : Int) (m : Malloc)
    (hl : PoolIs s l) (hlock : s.p_lock = false) :
    (∀ a l', l = a :: l' →
      ∃ s', get_new_pixbuf size m s = .ok (a, s') ∧ s.pool_f = a ∧ PoolIs s' l' ∧
        s'.poolsize = s.poolsize - 1 ∧ s'.heap = s.heap ∧ s'.p_lock = false) ∧
    (l = [] → ∀ a g, m = ⟨some a, some g⟩ → a ≠ NULL → s.heap a = none →
      ∃ s' b, get_new_pixbuf size m s = .ok (a, s') ∧ s'.heap a = some b ∧
        b.size = toUInt size ∧ b.data.length = toSizeT size ∧
        (0 ≤ size → size < 2 ^ 31 → (b.size : Int) = size ∧ (b.data.length : Int) = size) ∧
        (∀ x, x ≠ a → s'.heap x = s.heap x) ∧
        PoolIs s' [] ∧ s'.pool_f = NULL ∧ s'.poolsize = s.poolsize ∧ s'.p_lock = false) := by
  constructor
  · intro a l' hcons
    subst hcons
    obtain ⟨ba, _, hfa, _, htl, hrun⟩ := get_new_pixbuf_cons size m hl hlock
    refine ⟨_, hrun, hfa, ⟨htl, (List.nodup_cons.mp hl.nodup).2, fun hne => ?_⟩, rfl, rfl, rfl⟩
    have := hl.tail (List.cons_ne_nil a l')
    simp only
    rw [this, List.getLast_cons hne]
  · intro hnil a g hm _ _
    subst hnil
    subst hm
    have hf : s.pool_f = NULL := hl.list
    refine ⟨_, _, get_new_pixbuf_nil size a g hf hlock, Heap.set_same _ _ _, rfl, by simp,
      ?_, fun x hx => Heap.set_other _ _ _ _ hx,
      ⟨hf, List.nodup_nil, fun h => absurd rfl h⟩, hf, rfl, rfl⟩
    intro h0 h31
    have h32 : size % 2 ^ 32 = size := Int.emod_eq_of_lt h0 (by omega)
    have h64 : size % 2 ^ 64 = size := Int.emod_eq_of_lt h0 (by omega)
    simp only [toUInt, toSizeT, List.length_map, List.length_range, h32, h64]
    exact ⟨Int.toNat_of_nonneg h0, Int.toNat_of_nonneg h0⟩

/-- C7: `pixbuf_return_to_pool(p)` on a well-formed pool with free-list `l`.
For `p = NULL` the state is unchanged. For a non-null allocated `p` that is not
on the free-list: if `poolsize >= POOL_MAX` the buffer is freed and the
free-list, `pool_f`, `pool_l` and `poolsize` are unchanged; otherwise the
free-list becomes `l` followed by `p` and `poolsize` grows by exactly one. -/
theorem pixbuf_return_to_pool_contract (s : State) (l : List Ptr) (p : Ptr)
    (hl : PoolIs s l) (hlock : s.p_lock = false) :
    (p = NULL → pixbuf_return_to_pool p s = .ok s) ∧
    (p ≠ NULL → p ∉ l → (s.heap p).isSome = true →
      (s.poolsize ≥ POOL_MAX →
        ∃ s', pixbuf_return_to_pool p s = .ok s' ∧ s'.heap p = none ∧
          (∀ x, x ≠ p → s'.heap x = s.heap x) ∧ s'.nfree = s.nfree + 1 ∧
          PoolIs s' l ∧ s'.pool_f = s.pool_f ∧ s'.pool_l = s.pool_l ∧
          s'.poolsize = s.poolsize ∧ s'.p_lock = false) ∧
      (s.poolsize < POOL_MAX →
        ∃ s', pixbuf_return_to_pool p s = .ok s' ∧ PoolIs s' (l ++ [p]) ∧
          s'.pool_l = p ∧ s'.poolsize = s.poolsize + 1 ∧ s'.nfree = s.nfree ∧
          (∀ x, s'.heap.payload x = s.heap.payload x) ∧ s'.p_lock = false)) := by
  refine ⟨fun h0 => h0 ▸ pixbuf_return_to_pool_null s, fun hp0 hpl hlive => ⟨fun hfull => ?_,
    fun hroom => ?_⟩⟩
  · obtain ⟨bp, hbp⟩ := Option.isSome_iff_exists.mp hlive
    refine ⟨_, pixbuf_return_to_pool_full hlock hp0 hbp hfull, Heap.set_same _ _ _,
      fun x hx => Heap.set_other _ _ _ _ hx, rfl, ⟨?_, hl.nodup, hl.tail⟩, rfl, rfl, rfl, rfl⟩
    exact hl.list.frame (fun a ha => Heap.set_other _ _ _ _ (fun e => hpl (e ▸ ha)))
  · obtain ⟨bp, hbp⟩ := Option.isSome_iff_exists.mp hlive
    obtain ⟨h', hrun, hlist, _, hpay⟩ := pixbuf_return_to_pool_spec hl hlock hp0 hbp hpl hroom
    exact ⟨_, hrun, ⟨hlist, List.Nodup.append hl.nodup (List.nodup_singleton p)
      (by simpa using hpl), fun _ => by simp⟩, rfl, rfl, rfl, hpay, rfl⟩

/-- C8: `pop_pixbuf()` on a well-formed queue `q` always returns, never with an
error. It returns `NULL` exactly when the queue is empty (`first` is `NULL`),
and then `first`, `last` and `queuesize` are unchanged. On a non-empty queue it
returns the head, the queue becomes the tail of `q`, and `queuesize` drops by
exactly one. The heap is never changed. -/
theorem pop_pixbuf_contract (s : State) (q : List Ptr)
    (hq : QueueIs s q) (hlock : s.b_lock = false) :
    ∃ r s', pop_pixbuf s = .ok (r, s') ∧
      (r = NULL ↔ q = []) ∧ (r = NULL ↔ s.first = NULL) ∧
      (q = [] → s'.first = s.first ∧ s'.last = s.last ∧ s'.queuesize = s.queuesize) ∧
      (∀ a q', q = a :: q' → r = a ∧ s.first = a ∧ QueueIs s' q' ∧
        s'.queuesize = s.queuesize - 1) ∧
      s'.heap = s.heap ∧ s'.b_lock = false := by
  cases q with
  | nil =>
    have hf : s.first = NULL := hq.list
    refine ⟨_, _, pop_pixbuf_nil hf hlock, by simp, by simp [hf], fun _ => ⟨rfl, rfl, rfl⟩,
      fun a q' h => (by cases h), rfl, rfl⟩
  | cons a q =>
    obtain ⟨ba, _, hfa, ha0, htl, hrun⟩ := pop_pixbuf_cons hq hlock
    refine ⟨_, _, hrun, by simp [ha0], by simp [ha0, hfa], fun h => (by cases h), ?_, rfl, rfl⟩
    intro a' q' h
    obtain ⟨e1, e2⟩ := List.cons.inj h
    subst e1
    subst e2
    refine ⟨rfl, hfa, ⟨htl, (List.nodup_cons.mp hq.nodup).2, fun hne => ?_⟩, rfl⟩
    have hn : ba.next ≠ NULL := fun e => hne (htl.null_iff.mp e)
    have := hq.tail (List.cons_ne_nil a q)
    simp only [hn, if_false]
    rw [this, List.getLast_cons hne]

theorem demoChain_isList : IsList demoChain 1 [1, 2] :=
  ⟨rfl, by decide, _, rfl, rfl, by decide, _, rfl, rfl⟩

theorem demoQueueState_queueIs : QueueIs demoQueueState [1, 2] :=
  ⟨demoChain_isList, by decide, fun _ => rfl⟩

theorem demoPoolState_poolIs : PoolIs demoPoolState [1, 2] :=
  ⟨demoChain_isList, by decide, fun _ => rfl⟩

theorem demoFullState_poolIs : PoolIs demoFullState [1, 2] :=
  ⟨demoChain_isList, by decide, fun _ => rfl⟩

theorem init_poolIs : PoolIs State.init [] :=
  ⟨rfl, List.nodup_nil, fun h => absurd rfl h⟩

theorem get_new_pixbuf_contract_witness :
    (PoolIs demoPoolState [1, 2] ∧ demoPoolState.p_lock = false ∧
      ∃ s', get_new_pixbuf 5 ⟨none, none⟩ demoPoolState = .ok (1, s') ∧ demoPoolState.pool_f = 1 ∧
        PoolIs s' [2] ∧ s'.poolsize = demoPoolState.poolsize - 1 ∧
        s'.heap = demoPoolState.heap ∧ s'.p_lock = false) ∧
    (PoolIs State.init [] ∧ State.init.p_lock = false ∧
      ∃ s' b, get_new_pixbuf 5 ⟨some 4, some (fun _ => 0)⟩ State.init = .ok (4, s') ∧
        s'.heap 4 = some b ∧ b.size = toUInt 5 ∧ b.data.length = toSizeT 5 ∧
        ((0 : Int) ≤ 5 → (5 : Int) < 2 ^ 31 → (b.size : Int) = 5 ∧ (b.data.length : Int) = 5) ∧
        (∀ x, x ≠ 4 → s'.heap x = State.init.heap x) ∧
        PoolIs s' [] ∧ s'.pool_f = NULL ∧ s'.poolsize = State.init.poolsize ∧
        s'.p_lock = false) :=
  ⟨⟨demoPoolState_poolIs, rfl,
      (get_new_pixbuf_contract demoPoolState [1, 2] 5 ⟨none, none⟩ demoPoolState_poolIs rfl).1
        1 [2] rfl⟩,
    ⟨init_poolIs, rfl,
      (get_new_pixbuf_contract State.init [] 5 ⟨some 4, some (fun _ => 0)⟩ init_poolIs rfl).2
        rfl 4 (fun _ => 0) rfl (by decide) rfl⟩⟩

theorem pixbuf_return_to_pool_contract_witness :
    (PoolIs demoPoolState [1, 2] ∧ demoPoolState.p_lock = false ∧
      pixbuf_return_to_pool NULL demoPoolState = .ok demoPoolState ∧
      ∃ s', pixbuf_return_to_pool 3 demoPoolState = .ok s' ∧ PoolIs s' ([1, 2] ++ [3]) ∧
        s'.pool_l = 3 ∧ s'.poolsize = demoPoolState.poolsize + 1 ∧
        s'.nfree = demoPoolState.nfree ∧
        (∀ x, s'.heap.payload x = demoPoolState.heap.payload x) ∧ s'.p_lock = false) ∧
    (PoolIs demoFullState [1, 2] ∧ demoFullState.p_lock = false ∧
      ∃ s', pixbuf_return_to_pool 3 demoFullState = .ok s' ∧ s'.heap 3 = none ∧
        (∀ x, x ≠ 3 → s'.heap x = demoFullState.heap x) ∧
        s'.nfree = demoFullState.nfree + 1 ∧
        PoolIs s' [1, 2] ∧ s'.pool_f = demoFullState.pool_f ∧
        s'.pool_l = demoFullState.pool_l ∧
        s'.poolsize = demoFullState.poolsize ∧ s'.p_lock = false) :=
  ⟨⟨demoPoolState_poolIs, rfl,
      (pixbuf_return_to_pool_contract demoPoolState [1, 2] NULL demoPoolState_poolIs rfl).1 rfl,
      ((pixbuf_return_to_pool_contract demoPoolState [1, 2] 3 demoPoolState_poolIs rfl).2
        (by decide) (by decide) rfl).2 (by decide)⟩,
    ⟨demoFullState_poolIs, rfl,
      ((pixbuf_return_to_pool_contract demoFullState [1, 2] 3 demoFullState_poolIs rfl).2
        (by decide) (by decide) rfl).1 (by decide)⟩⟩

theorem pop_pixbuf_contract_witness :
    (QueueIs demoQueueState [1, 2] ∧ demoQueueState.b_lock = false) ∧
    ∃ r s', pop_pixbuf demoQueueState = .ok (r, s') ∧
      (r = NULL ↔ [1, 2] = ([] : List Ptr)) ∧ (r = NULL ↔ demoQueueState.first = NULL) ∧
      ([1, 2] = ([] : List Ptr) → s'.first = demoQueueState.first ∧
        s'.last = demoQueueState.last ∧ s'.queuesize = demoQueueState.queuesize) ∧
      (∀ a q', [1, 2] = a :: q' → r = a ∧ demoQueueState.first = a ∧ QueueIs s' q' ∧
        s'.queuesize = demoQueueState.queuesize - 1) ∧
      s'.heap = demoQueueState.heap ∧ s'.b_lock = false :=
  ⟨⟨demoQueueState_queueIs, rfl⟩,
    pop_pixbuf_contract demoQueueState [1, 2] demoQueueState_queueIs rfl⟩

/-! ## The operations on the whole pool-and-queue state -/

theorem isSome_eq_of_payload {h h' : Heap} (hp : ∀ a, h'.payload a = h.payload a) (a : Ptr) :
    (h' a).isSome = (h a).isSome := by
  have := hp a
  simp only [Heap.payload] at this
  cases h1 : h a <;> cases h2 : h' a <;> simp_all

theorem none_of_payload {h h' : Heap} (hp : ∀ a, h'.payload a = h.payload a) (a : Ptr)
    (ha : h a = none) : h' a = none := by
  have := hp a
  simp only [Heap.payload, ha, Option.map_none'] at this
  cases h2 : h' a with
  | none => rfl
  | some v => simp [h2] at this

theorem sized_of_payload {h h' : Heap} (hp : ∀ a, h'.payload a = h.payload a)
    (hs : ∀ a b, h a = some b → b.size ≤ b.data.length) :
    ∀ a b, h' a = some b → b.size ≤ b.data.length := by
  intro a b hb
  have := hp a
  simp only [Heap.payload, hb, Option.map_some'] at this
  cases h1 : h a with
  | none => simp [h1] at this
  | some b0 =>
    simp only [h1, Option.map_some', Option.some.injEq, Prod.mk.injEq] at this
    have h0 := hs a b0 h1
    rw [this.1, this.2]
    exact h0

theorem toUInt_le_toSizeT (n : Int) : toUInt n ≤ toSizeT n := by
  unfold toUInt toSizeT
  have h1 : (0 : Int) ≤ n % 2 ^ 64 := Int.emod_nonneg _ (by norm_num)
  have h2 : (n % 2 ^ 64) % 2 ^ 32 = n % 2 ^ 32 :=
    Int.emod_emod_of_dvd n (by norm_num)
  have h3 : (n % 2 ^ 64) % 2 ^ 32 ≤ n % 2 ^ 64 := by
    have h4 : (0 : Int) ≤ (n % 2 ^ 64) % 2 ^ 32 := Int.emod_nonneg _ (by norm_num)
    have h5 := Int.emod_add_ediv (n % 2 ^ 64) (2 ^ 32)
    have h6 : (0 : Int) ≤ (n % 2 ^ 64) / 2 ^ 32 := Int.ediv_nonneg h1 (by norm_num)
    nlinarith
  rw [h2] at h3
  exact Int.toNat_le_toNat h3

/-- Moving buffers between the three places, the heap keeping its payloads. -/
theorem SysInv.rearrange {s s' : State} {lp lq slots lp' lq' slots' : List Ptr}
    (hinv : SysInv s lp lq slots) (hpool : PoolIs s' lp') (hqueue : QueueIs s' lq')
    (hperm : (lp' ++ lq' ++ slots').Perm (lp ++ lq ++ slots))
    (hpay : ∀ a, s'.heap.payload a = s.heap.payload a)
    (hnn : NULL ∉ slots')
    (hpc : s'.poolsize = lp'.length) (hcap : (lp'.length : Int) ≤ POOL_MAX)
    (hqc : s'.queuesize = lq'.length) (hb : s'.b_lock = false) (hp : s'.p_lock = false)
    (hna : s'.nalloc = s.nalloc) (hnf : s'.nfree = s.nfree) :
    SysInv s' lp' lq' slots' := by
  refine ⟨hpool, hqueue, hperm.nodup_iff.mpr hinv.nodup, fun a => ?_, hnn, hpc, hcap, hqc, hb, hp,
    sized_of_payload hpay hinv.sized, ?_⟩
  · rw [isSome_eq_of_payload hpay a, hinv.live a]
    exact (hperm.mem_iff).symm
  · rw [hna, hnf, hinv.alloc, hperm.length_eq]

theorem perm_pop (lp lq slots : List Ptr) (a : Ptr) :
    (lp ++ lq ++ a :: slots).Perm (lp ++ a :: lq ++ slots) := by
  rw [List.perm_iff_count]
  intro x
  simp only [List.count_append, List.count_cons]
  omega

theorem perm_acquire (lp lq slots : List Ptr) (a : Ptr) :
    (lp ++ lq ++ a :: slots).Perm (a :: lp ++ lq ++ slots) := by
  rw [List.perm_iff_count]
  intro x
  simp only [List.count_append, List.count_cons, List.cons_append]
  omega

theorem perm_push (lp lq slots : List Ptr) (b : Ptr) (h : b ∈ slots) :
    (lp ++ (lq ++ [b]) ++ slots.erase b).Perm (lp ++ lq ++ slots) := by
  have h1 := List.perm_cons_erase h
  rw [List.perm_iff_count] at h1 ⊢
  intro x
  have := h1 x
  simp only [List.count_append, List.count_cons, List.count_nil] at this ⊢
  omega

theorem perm_release (lp lq slots : List Ptr) (b : Ptr) (h : b ∈ slots) :
    ((lp ++ [b]) ++ lq ++ slots.erase b).Perm (lp ++ lq ++ slots) := by
  have h1 := List.perm_cons_erase h
  rw [List.perm_iff_count] at h1 ⊢
  intro x
  have := h1 x
  simp only [List.count_append, List.count_cons, List.count_nil] at this ⊢
  omega

theorem perm_drop (lp lq slots : List Ptr) (b : Ptr) (h : b ∈ slots) :
    (b :: (lp ++ lq ++ slots.erase b)).Perm (lp ++ lq ++ slots) := by
  have h1 := List.perm_cons_erase h
  rw [List.perm_iff_count] at h1 ⊢
  intro x
  have := h1 x
  simp only [List.count_append, List.count_cons, List.count_nil] at this ⊢
  omega

theorem SysInv.slot_facts {s : State} {lp lq slots : List Ptr} (hinv : SysInv s lp lq slots)
    {b : Ptr} (hb : b ∈ slots) :
    b ≠ NULL ∧ b ∉ lp ∧ b ∉ lq ∧ b ∉ slots.erase b ∧ ∃ bb, s.heap b = some bb := by
  have hnd : (b :: (lp ++ lq ++ slots.erase b)).Nodup :=
    (perm_drop lp lq slots b hb).nodup_iff.mpr hinv.nodup
  have hnot := (List.nodup_cons.mp hnd).1
  simp only [List.mem_append, not_or] at hnot
  refine ⟨fun e => hinv.nonnull (e ▸ hb), hnot.1.1, hnot.1.2, hnot.2, ?_⟩
  exact Option.isSome_iff_exists.mp ((hinv.live b).mpr (by simp [hb]))

theorem SysInv.disjoint_pool_queue {s : State} {lp lq slots : List Ptr}
    (hinv : SysInv s lp lq slots) : ∀ a, a ∈ lp → a ∉ lq := by
  have h1 : (lp ++ lq).Nodup := (List.nodup_append.mp hinv.nodup).1
  intro a ha hq
  exact (List.nodup_append.mp h1).2.2 ha hq

/-- `pop_pixbuf()` with a non-empty queue: the head moves to a local slot. -/
theorem SysInv.pop_cons {s : State} {lp lq slots : List Ptr} {a : Ptr}
    (hinv : SysInv s lp (a :: lq) slots) :
    ∃ ba : pixbuf, s.heap a = some ba ∧ a ≠ NULL ∧
      pop_pixbuf s = .ok (a, { s with
        first := ba.next, last := if ba.next = NULL then NULL else s.last,
        queuesize := s.queuesize - 1, b_lock := false,
        locklog := s.locklog ++ [.acq .b_lock, .rel .b_lock] }) ∧
      SysInv { s with
        first := ba.next, last := if ba.next = NULL then NULL else s.last,
        queuesize := s.queuesize - 1, b_lock := false,
        locklog := s.locklog ++ [.acq .b_lock, .rel .b_lock] } lp lq (a :: slots) := by
  obtain ⟨ba, hba, _, ha0, htl, hrun⟩ := pop_pixbuf_cons hinv.queue hinv.block
  refine ⟨ba, hba, ha0, hrun, ?_⟩
  have hq' : QueueIs { s with
      first := ba.next, last := if ba.next = NULL then NULL else s.last,
      queuesize := s.queuesize - 1, b_lock := false,
      locklog := s.locklog ++ [.acq .b_lock, .rel .b_lock] } lq := by
    refine ⟨htl, (List.nodup_cons.mp hinv.queue.nodup).2, fun hne => ?_⟩
    have hn : ba.next ≠ NULL := fun e => hne (htl.null_iff.mp e)
    have := hinv.queue.tail (List.cons_ne_nil a lq)
    simp only [hn, if_false]
    rw [this, List.getLast_cons hne]
  refine hinv.rearrange ⟨hinv.pool.list, hinv.pool.nodup, hinv.pool.tail⟩ hq'
    (perm_pop lp lq slots a) (fun _ => rfl) ?_ hinv.poolcount hinv.poolcap ?_ rfl hinv.plock
    rfl rfl
  · intro hm
    rcases List.mem_cons.mp hm with e | hm'
    · exact ha0 e.symm
    · exact hinv.nonnull hm'
  · have := hinv.queuecount
    simp only [List.length_cons, Nat.cast_add, Nat.cast_one] at this
    simp only
    omega

/-- `pop_pixbuf()` with the empty queue. -/
theorem SysInv.pop_nil {s : State} {lp slots : List Ptr} (hinv : SysInv s lp [] slots) :
    pop_pixbuf s = .ok (NULL, { s with
      b_lock := false, locklog := s.locklog ++ [.acq .b_lock, .rel .b_lock] }) ∧
    SysInv { s with
      b_lock := false, locklog := s.locklog ++ [.acq .b_lock, .rel .b_lock] } lp [] slots := by
  have hf : s.first = NULL := hinv.queue.list
  refine ⟨pop_pixbuf_nil hf hinv.block, ?_⟩
  exact hinv.rearrange ⟨hinv.pool.list, hinv.pool.nodup, hinv.pool.tail⟩
    ⟨hinv.queue.list, hinv.queue.nodup, hinv.queue.tail⟩ (List.Perm.refl _) (fun _ => rfl)
    hinv.nonnull hinv.poolcount hinv.poolcap hinv.queuecount rfl hinv.plock rfl rfl

/-- `queue_pixbuf(b)` for a buffer held in a local slot. -/
theorem SysInv.push {s : State} {lp lq slots : List Ptr} {b : Ptr}
    (hinv : SysInv s lp lq slots) (hb : b ∈ slots) :
    ∃ h' : Heap,
      queue_pixbuf b s = .ok { s with
        heap := h', first := if lq = [] then b else s.first, last := b,
        queuesize := s.queuesize + 1, b_lock := false,
        locklog := s.locklog ++ [.acq .b_lock, .rel .b_lock] } ∧
      (∀ a, h'.payload a = s.heap.payload a) ∧
      SysInv { s with
        heap := h', first := if lq = [] then b else s.first, last := b,
        queuesize := s.queuesize + 1, b_lock := false,
        locklog := s.locklog ++ [.acq .b_lock, .rel .b_lock] } lp (lq ++ [b]) (slots.erase b) := by
  obtain ⟨hb0, hblp, hblq, _, bb, hbb⟩ := hinv.slot_facts hb
  obtain ⟨h', hrun, hlist, hframe, hpay⟩ := queue_pixbuf_spec hinv.queue hinv.block hb0 hbb hblq
  refine ⟨h', hrun, hpay, ?_⟩
  have hpool : PoolIs { s with
      heap := h', first := if lq = [] then b else s.first, last := b,
      queuesize := s.queuesize + 1, b_lock := false,
      locklog := s.locklog ++ [.acq .b_lock, .rel .b_lock] } lp := by
    refine ⟨hinv.pool.list.frame (fun a ha => ?_), hinv.pool.nodup, hinv.pool.tail⟩
    exact hframe a (hinv.disjoint_pool_queue a ha) (fun e => hblp (e ▸ ha))
  refine hinv.rearrange hpool ⟨hlist, List.Nodup.append hinv.queue.nodup (List.nodup_singleton b)
      (by simpa using hblq), fun _ => by simp⟩
    (perm_push lp lq slots b hb) hpay (fun hm => hinv.nonnull (List.mem_of_mem_erase hm))
    hinv.poolcount hinv.poolcap ?_ rfl hinv.plock rfl rfl
  have := hinv.queuecount
  simp only [List.length_append, List.length_singleton, Nat.cast_add, Nat.cast_one]
  omega

/-- `pixbuf_return_to_pool(b)` below capacity, for a buffer held in a slot. -/
theorem SysInv.release_room {s : State} {lp lq slots : List Ptr} {b : Ptr}
    (hinv : SysInv s lp lq slots) (hb : b ∈ slots) (hroom : s.poolsize < POOL_MAX) :
    ∃ h' : Heap,
      pixbuf_return_to_pool b s = .ok { s with
        heap := h', pool_f := if lp = [] then b else s.pool_f, pool_l := b,
        poolsize := s.poolsize + 1, p_lock := false,
        locklog := s.locklog ++ [.acq .p_lock, .rel .p_lock] } ∧
      (∀ a, h'.payload a = s.heap.payload a) ∧
      SysInv { s with
        heap := h', pool_f := if lp = [] then b else s.pool_f, pool_l := b,
        poolsize := s.poolsize + 1, p_lock := false,
        locklog := s.locklog ++ [.acq .p_lock, .rel .p_lock] } (lp ++ [b]) lq (slots.erase b) := by
  obtain ⟨hb0, hblp, hblq, _, bb, hbb⟩ := hinv.slot_facts hb
  obtain ⟨h', hrun, hlist, hframe, hpay⟩ :=
    pixbuf_return_to_pool_spec hinv.pool hinv.plock hb0 hbb hblp hroom
  refine ⟨h', hrun, hpay, ?_⟩
  have hqueue : QueueIs { s with
      heap := h', pool_f := if lp = [] then b else s.pool_f, pool_l := b,
      poolsize := s.poolsize + 1, p_lock := false,
      locklog := s.locklog ++ [.acq .p_lock, .rel .p_lock] } lq := by
    refine ⟨hinv.queue.list.frame (fun a ha => ?_), hinv.queue.nodup, hinv.queue.tail⟩
    exact hframe a (fun hp => hinv.disjoint_pool_queue a hp ha) (fun e => hblq (e ▸ ha))
  have hc := hinv.poolcount
  have hcap : ((lp ++ [b]).length : Int) ≤ POOL_MAX := by
    simp only [List.length_append, List.length_singleton, Nat.cast_add, Nat.cast_one]
    omega
  refine hinv.rearrange ⟨hlist, List.Nodup.append hinv.pool.nodup (List.nodup_singleton b)
      (by simpa using hblp), fun _ => by simp⟩ hqueue
    (perm_release lp lq slots b hb) hpay (fun hm => hinv.nonnull (List.mem_of_mem_erase hm))
    ?_ hcap hinv.queuecount hinv.block rfl rfl rfl
  simp only [List.length_append, List.length_singleton, Nat.cast_add, Nat.cast_one]
  omega

/-- `pixbuf_return_to_pool(b)` at capacity: the buffer held in a slot is freed. -/
theorem SysInv.release_full {s : State} {lp lq slots : List Ptr} {b : Ptr}
    (hinv : SysInv s lp lq slots) (hb : b ∈ slots) (hfull : s.poolsize ≥ POOL_MAX) :
    pixbuf_return_to_pool b s = .ok { s with
      heap := s.heap.set b none, nfree := s.nfree + 1, p_lock := false,
      locklog := s.locklog ++ [.acq .p_lock, .rel .p_lock] } ∧
    SysInv { s with
      heap := s.heap.set b none, nfree := s.nfree + 1, p_lock := false,
      locklog := s.locklog ++ [.acq .p_lock, .rel .p_lock] } lp lq (slots.erase b) := by
  obtain ⟨hb0, hblp, hblq, hbe, bb, hbb⟩ := hinv.slot_facts hb
  refine ⟨pixbuf_return_to_pool_full hinv.plock hb0 hbb hfull, ?_⟩
  have hperm := perm_drop lp lq slots b hb
  have hnd : (b :: (lp ++ lq ++ slots.erase b)).Nodup := hperm.nodup_iff.mpr hinv.nodup
  refine ⟨⟨hinv.pool.list.frame (fun a ha => Heap.set_other _ _ _ _ (fun e => hblp (e ▸ ha))),
      hinv.pool.nodup, hinv.pool.tail⟩,
    ⟨hinv.queue.list.frame (fun a ha => Heap.set_other _ _ _ _ (fun e => hblq (e ▸ ha))),
      hinv.queue.nodup, hinv.queue.tail⟩,
    (List.nodup_cons.mp hnd).2, fun a => ?_,
    fun hm => hinv.nonnull (List.mem_of_mem_erase hm), hinv.poolcount, hinv.poolcap,
    hinv.queuecount, hinv.block, rfl, fun a x hx => ?_, ?_⟩
  · by_cases hab : a = b
    · subst hab
      simp only [Heap.set_same, Option.isSome_none, Bool.false_eq_true, false_iff]
      exact (List.nodup_cons.mp hnd).1
    · simp only [Heap.set, hab, if_false]
      rw [hinv.live a, ← hperm.mem_iff]
      simp [hab]
  · by_cases hab : a = b
    · subst hab
      simp [Heap.set] at hx
    · simp only [Heap.set, hab, if_false] at hx
      exact hinv.sized a x hx
  · have h1 := hinv.alloc
    have h2 := hperm.length_eq
    simp only [List.length_cons] at h2
    simp only
    omega

/-- `get_new_pixbuf(size)` with a non-empty pool: its head moves to a slot. -/
theorem SysInv.acquire_cons {s : State} {lp lq slots : List Ptr} {a : Ptr}
    (size : Int) (m : Malloc) (hinv : SysInv s (a :: lp) lq slots) :
    ∃ ba : pixbuf, s.heap a = some ba ∧ a ≠ NULL ∧
      get_new_pixbuf size m s = .ok (a, { s with
        pool_f := ba.next, poolsize := s.poolsize - 1, p_lock := false,
        locklog := s.locklog ++ [.acq .p_lock, .rel .p_lock] }) ∧
      SysInv { s with
        pool_f := ba.next, poolsize := s.poolsize - 1, p_lock := false,
        locklog := s.locklog ++ [.acq .p_lock, .rel .p_lock] } lp lq (a :: slots) := by
  obtain ⟨ba, hba, _, ha0, htl, hrun⟩ := get_new_pixbuf_cons size m hinv.pool hinv.plock
  refine ⟨ba, hba, ha0, hrun, ?_⟩
  have hp' : PoolIs { s with
      pool_f := ba.next, poolsize := s.poolsize - 1, p_lock := false,
      locklog := s.locklog ++ [.acq .p_lock, .rel .p_lock] } lp := by
    refine ⟨htl, (List.nodup_cons.mp hinv.pool.nodup).2, fun hne => ?_⟩
    have := hinv.pool.tail (List.cons_ne_nil a lp)
    simp only
    rw [this, List.getLast_cons hne]
  have hc := hinv.poolcount
  have hcap := hinv.poolcap
  simp only [List.length_cons, Nat.cast_add, Nat.cast_one] at hc hcap
  refine hinv.rearrange hp' ⟨hinv.queue.list, hinv.queue.nodup, hinv.queue.tail⟩
    (perm_acquire lp lq slots a) (fun _ => rfl) ?_ ?_ ?_ hinv.queuecount hinv.block rfl rfl rfl
  · intro hm
    rcases List.mem_cons.mp hm with e | hm'
    · exact ha0 e.symm
    · exact hinv.nonnull hm'
  · simp only
    omega
  · omega

/-- `get_new_pixbuf(size)` with the empty pool: a new buffer in a slot. -/
theorem SysInv.acquire_nil {s : State} {lq slots : List Ptr} (size : Int) (a : Ptr)
    (g : Nat → Nat) (hinv : SysInv s [] lq slots) (ha0 : a ≠ NULL) (hfresh : s.heap a = none) :
    get_new_pixbuf size ⟨some a, some g⟩ s = .ok (a, { s with
      heap := s.heap.set a (some {
        data := (List.range (toSizeT size)).map g, size := toUInt size, next := NULL }),
      nalloc := s.nalloc + 1, p_lock := false,
      locklog := s.locklog ++ [.acq .p_lock, .rel .p_lock] }) ∧
    SysInv { s with
      heap := s.heap.set a (some {
        data := (List.range (toSizeT size)).map g, size := toUInt size, next := NULL }),
      nalloc := s.nalloc + 1, p_lock := false,
      locklog := s.locklog ++ [.acq .p_lock, .rel .p_lock] } [] lq (a :: slots) := by
  have hf : s.pool_f = NULL := hinv.pool.list
  refine ⟨get_new_pixbuf_nil size a g hf hinv.plock, ?_⟩
  have hnew : a ∉ [] ++ lq ++ slots := fun hm => by
    have := (hinv.live a).mpr hm
    simp [hfresh] at this
  have hnq : a ∉ lq := fun hm => hnew (by simp [hm])
  refine ⟨⟨hf, List.nodup_nil, fun h => absurd rfl h⟩,
    ⟨hinv.queue.list.frame (fun x hx => Heap.set_other _ _ _ _ (fun e => hnq (e ▸ hx))),
      hinv.queue.nodup, hinv.queue.tail⟩,
    ?_, fun x => ?_, ?_, hinv.poolcount, hinv.poolcap, hinv.queuecount, hinv.block, rfl,
    fun x b hx => ?_, ?_⟩
  · have h1 : ([] ++ lq ++ a :: slots).Perm (a :: ([] ++ lq ++ slots)) := by
      simp
    exact h1.nodup_iff.mpr (List.nodup_cons.mpr ⟨hnew, hinv.nodup⟩)
  · by_cases hxa : x = a
    · subst hxa
      simp
    · simp only [Heap.set, hxa, if_false]
      rw [hinv.live x]
      simp [hxa]
  · intro hm
    rcases List.mem_cons.mp hm with e | hm'
    · exact ha0 e.symm
    · exact hinv.nonnull hm'
  · by_cases hxa : x = a
    · subst hxa
      simp only [Heap.set_same, Option.some.injEq] at hx
      subst hx
      simpa using toUInt_le_toSizeT size
    · simp only [Heap.set, hxa, if_false] at hx
      exact hinv.sized x b hx
  · have := hinv.alloc
    simp only [List.nil_append, List.length_append, List.length_cons] at this ⊢
    omega

/-! ## The writer loop -/

/-- The invariant reads only the heap, the list heads and tails, the counters
and the locks. -/
theorem SysInv.of_eq {s s' : State} {lp lq slots : List Ptr} (hinv : SysInv s lp lq slots)
    (h1 : s'.heap = s.heap) (h2 : s'.first = s.first) (h3 : s'.last = s.last)
    (h4 : s'.queuesize = s.queuesize) (h5 : s'.pool_f = s.pool_f) (h6 : s'.pool_l = s.pool_l)
    (h7 : s'.poolsize = s.poolsize) (h8 : s'.b_lock = s.b_lock) (h9 : s'.p_lock = s.p_lock)
    (h10 : s'.nalloc = s.nalloc) (h11 : s'.nfree = s.nfree) : SysInv s' lp lq slots := by
  refine hinv.rearrange ⟨?_, hinv.pool.nodup, fun h => ?_⟩ ⟨?_, hinv.queue.nodup, fun h => ?_⟩
    (List.Perm.refl _) (fun a => by rw [Heap.payload, Heap.payload, h1]) hinv.nonnull
    (h7.trans hinv.poolcount) hinv.poolcap (h4.trans hinv.queuecount) (h8.trans hinv.block)
    (h9.trans hinv.plock) h10 h11
  · rw [h1, h5]
    exact hinv.pool.list
  · rw [h6]
    exact hinv.pool.tail h
  · rw [h1, h2]
    exact hinv.queue.list
  · rw [h3]
    exact hinv.queue.tail h

/-- The state after the 1-second timer check of the writer loop. -/
theorem handler_pop_eq (s : State) (l : HandlerLocals) :
    handler_pop s l =
      (pop_pixbuf { s with fwps := if timer_is_done l.fwps_t s ≠ 0 then l.fcnt else s.fwps }
        >>= fun r => pure (r.2, {
          p := r.1
          fcnt := if timer_is_done l.fwps_t s ≠ 0 then 0 else l.fcnt
          timeout := l.timeout
          fwps_t := if timer_is_done l.fwps_t s ≠ 0 then timer_reset l.fwps_t s
            else l.fwps_t })) := by
  unfold handler_pop
  split_ifs with h <;> rfl

/-- One pass of the writer loop body with a non-empty queue: the head is
written to the sink and handed to `pixbuf_return_to_pool`. -/
theorem buf_handler_body_cons {s : State} {lp lq : List Ptr} {a : Ptr} (l : HandlerLocals)
    (hinv : SysInv s lp (a :: lq) []) :
    ∃ s' l', buf_handler_body s l = .ok (s', l') ∧
      s'.out = s.out ++ frameBytes s.heap a ∧
      s'.exit_handler = s.exit_handler ∧ s'.exit_main = s.exit_main ∧
      s'.ctick = s.ctick ∧ s'.img = s.img ∧
      s'.fwps = (if timer_is_done l.fwps_t s ≠ 0 then l.fcnt else s.fwps) ∧
      l'.fcnt = (if timer_is_done l.fwps_t s ≠ 0 then 0 else l.fcnt) + 1 ∧
      l'.p = a ∧
      (∀ x, s.heap x = none → s'.heap x = none) ∧
      (s.poolsize < POOL_MAX →
        SysInv s' (lp ++ [a]) lq [] ∧ ∀ x, s'.heap.payload x = s.heap.payload x) ∧
      (s.poolsize ≥ POOL_MAX →
        SysInv s' lp lq [] ∧ s'.heap a = none ∧
          ∀ x, x ≠ a → s'.heap.payload x = s.heap.payload x) := by
  have hinv0 : SysInv { s with
      fwps := if timer_is_done l.fwps_t s ≠ 0 then l.fcnt else s.fwps } lp (a :: lq) [] :=
    hinv.of_eq rfl rfl rfl rfl rfl rfl rfl rfl rfl rfl rfl
  obtain ⟨ba, hba, ha0, hpop, hinv1⟩ := hinv0.pop_cons
  have hsz : ba.size ≤ ba.data.length := hinv.sized a ba hba
  have hfb : frameBytes s.heap a = ba.data.take ba.size := by
    simp only [frameBytes]
    rw [hba]
  have hinv2 : SysInv { s with
      fwps := if timer_is_done l.fwps_t s ≠ 0 then l.fcnt else s.fwps,
      first := ba.next, last := if ba.next = NULL then NULL else s.last,
      queuesize := s.queuesize - 1, b_lock := false,
      locklog := s.locklog ++ [.acq .b_lock, .rel .b_lock],
      out := s.out ++ ba.data.take ba.size } lp lq [a] :=
    hinv1.of_eq rfl rfl rfl rfl rfl rfl rfl rfl rfl rfl rfl
  have hmem : a ∈ [a] := List.mem_singleton_self a
  have hhead : (buf_handler_body s l) =
      (handler_release { s with
        fwps := if timer_is_done l.fwps_t s ≠ 0 then l.fcnt else s.fwps,
        first := ba.next, last := if ba.next = NULL then NULL else s.last,
        queuesize := s.queuesize - 1, b_lock := false,
        locklog := s.locklog ++ [.acq .b_lock, .rel .b_lock],
        out := s.out ++ ba.data.take ba.size } {
          p := a
          fcnt := (if timer_is_done l.fwps_t s ≠ 0 then 0 else l.fcnt) + 1
          timeout := l.timeout
          fwps_t := if timer_is_done l.fwps_t s ≠ 0 then timer_reset l.fwps_t s
            else l.fwps_t }) := by
    unfold buf_handler_body
    rw [handler_pop_eq, hpop]
    have hba' : s.heap a = some ba := hba
    simp [handler_write, write_stdout, load, ha0, hba', hsz]
  by_cases hfull : s.poolsize ≥ POOL_MAX
  · obtain ⟨hrel, hinv3⟩ := hinv2.release_full hmem hfull
    simp only [List.erase_cons_head] at hinv3
    refine Exists.intro ?s' (Exists.intro ?l' (And.intro ?run ?rest))
    case run =>
      rw [hhead]
      simp only [handler_release, hrel, ok_bind, pure_eq_ok]
      exact rfl
    refine ⟨by rw [hfb], rfl, rfl, rfl, rfl, rfl, rfl, rfl, ?_,
      fun h => absurd hfull (not_le.mpr h),
      fun _ => ⟨hinv3, Heap.set_same _ _ _, fun x hx => ?_⟩⟩
    · intro x hx
      by_cases hxa : x = a
      · subst hxa
        exact Heap.set_same _ _ _
      · simp only [Heap.set, hxa, if_false]
        exact hx
    · simp only [Heap.payload, Heap.set, hx, if_false]
  · have hroom : s.poolsize < POOL_MAX := not_le.mp hfull
    obtain ⟨h', hrel, hpay, hinv3⟩ := hinv2.release_room hmem hroom
    simp only [List.erase_cons_head] at hinv3
    refine Exists.intro ?s2 (Exists.intro ?l2 (And.intro ?run2 ?rest2))
    case run2 =>
      rw [hhead]
      simp only [handler_release, hrel, ok_bind, pure_eq_ok]
      exact rfl
    refine ⟨by rw [hfb], rfl, rfl, rfl, rfl, rfl, rfl, rfl, ?_, fun _ => ⟨hinv3, hpay⟩,
      fun h => absurd h hfull⟩
    intro x hx
    exact none_of_payload hpay x hx

theorem flatMap_congr_mem {α β : Type} (f g : α → List β) :
    ∀ (l : List α), (∀ x ∈ l, f x = g x) → l.flatMap f = l.flatMap g
  | [], _ => rfl
  | a :: l, h => by
    rw [List.flatMap_cons, List.flatMap_cons, h a (List.mem_cons_self _ _),
      flatMap_congr_mem f g l (fun x hx => h x (List.mem_cons_of_mem _ hx))]

theorem frameBytes_eq_of_payload_eq {h h' : Heap} {x : Ptr}
    (hp : h'.payload x = h.payload x) : frameBytes h' x = frameBytes h x := by
  simp only [Heap.payload] at hp
  unfold frameBytes
  cases h1 : h x <;> cases h2 : h' x <;> simp_all

theorem handler_continues_cons {s : State} {lp lq slots : List Ptr} {a : Ptr}
    (hinv : SysInv s lp (a :: lq) slots) : handler_continues s = true := by
  obtain ⟨e1, n1, _⟩ := hinv.queue.list
  have : s.first ≠ NULL := e1 ▸ n1
  simp [handler_continues, this]

theorem handler_continues_nil {s : State} {lp slots : List Ptr}
    (hinv : SysInv s lp [] slots) (hexit : s.exit_handler ≠ 0) :
    handler_continues s = false := by
  have : s.first = NULL := hinv.queue.list
  simp [handler_continues, this, hexit]

/-- The writer loop with the producer-finished flag set: it pops, writes and
releases the whole queue and then stops. -/
theorem buf_handler_loop_drain : ∀ (lq : List Ptr) (s : State) (lp : List Ptr)
    (l : HandlerLocals), SysInv s lp lq [] → s.exit_handler ≠ 0 →
    ∃ s' l', buf_handler_loop (lq.length + 1) s l = .ok (s', l') ∧
      s'.out = s.out ++ lq.flatMap (frameBytes s.heap) ∧
      SysInv s' (lp ++ lq.take (30 - lp.length)) [] [] ∧
      (∀ a ∈ lq.drop (30 - lp.length), s'.heap a = none) ∧
      (∀ x, s.heap x = none → s'.heap x = none) ∧
      s'.exit_handler = s.exit_handler ∧ s'.exit_main = s.exit_main ∧
      s'.ctick = s.ctick ∧ s'.img = s.img ∧
      (∀ fuel, fuel ≤ lq.length → buf_handler_loop fuel s l = .error .fuel)
  | [], s, lp, l, hinv, hexit => by
    refine ⟨s, l, ?_, by simp, by simpa using hinv, by simp, fun _ h => h, rfl, rfl, rfl, rfl, ?_⟩
    · simp [buf_handler_loop, handler_continues_nil hinv hexit]
    · intro fuel hfuel
      have : fuel = 0 := by simpa using hfuel
      subst this
      rfl
  | a :: lq, s, lp, l, hinv, hexit => by
    obtain ⟨s1, l1, hbody, hout, hex, hem, hct, himg, _, _, _, hnone, hroom, hfull⟩ :=
      buf_handler_body_cons l hinv
    have hcont := handler_continues_cons hinv
    have hpc := hinv.poolcount
    have hcap := hinv.poolcap
    have halq : a ∉ lq := (List.nodup_cons.mp hinv.queue.nodup).1
    have hstep : ∀ fuel, buf_handler_loop (fuel + 1) s l = buf_handler_loop fuel s1 l1 := by
      intro fuel
      simp [buf_handler_loop, hcont, hbody]
    have hexit1 : s1.exit_handler ≠ 0 := hex ▸ hexit
    by_cases hr : s.poolsize < POOL_MAX
    · obtain ⟨hinv1, hpay⟩ := hroom hr
      obtain ⟨s', l', hrun, hout', hinv', hfreed, hnone', hex', hem', hct', himg', hfuel⟩ :=
        buf_handler_loop_drain lq s1 (lp ++ [a]) l1 hinv1 hexit1
      have hlen : lp.length < 30 := by
        simp only [POOL_MAX] at hr
        omega
      obtain ⟨k, hk⟩ : ∃ k, 30 - lp.length = k + 1 := ⟨30 - lp.length - 1, by omega⟩
      have hk' : 30 - (lp ++ [a]).length = k := by
        simp only [List.length_append, List.length_singleton]
        omega
      rw [hk'] at hinv' hfreed
      refine ⟨s', l', ?_, ?_, ?_, ?_, fun x hx => hnone' x (hnone x hx), hex'.trans hex,
        hem'.trans hem, hct'.trans hct, himg'.trans himg, ?_⟩
      · rw [List.length_cons, hstep]
        exact hrun
      · rw [hout', hout, List.flatMap_cons, List.append_assoc,
          flatMap_congr_mem _ _ lq (fun x _ => frameBytes_eq_of_payload_eq (hpay x))]
      · rw [hk, List.take_succ_cons]
        simpa using hinv'
      · rw [hk, List.drop_succ_cons]
        exact hfreed
      · intro fuel hle
        cases fuel with
        | zero => rfl
        | succ n =>
          rw [hstep]
          exact hfuel n (by simpa using hle)
    · have hf : s.poolsize ≥ POOL_MAX := not_lt.mp hr
      obtain ⟨hinv1, hgone, hpay⟩ := hfull hf
      obtain ⟨s', l', hrun, hout', hinv', hfreed, hnone', hex', hem', hct', himg', hfuel⟩ :=
        buf_handler_loop_drain lq s1 lp l1 hinv1 hexit1
      have hlen : 30 - lp.length = 0 := by
        simp only [POOL_MAX] at hf hcap
        omega
      rw [hlen] at hinv' hfreed ⊢
      refine ⟨s', l', ?_, ?_, ?_, ?_, fun x hx => hnone' x (hnone x hx), hex'.trans hex,
        hem'.trans hem, hct'.trans hct, himg'.trans himg, ?_⟩
      · rw [List.length_cons, hstep]
        exact hrun
      · rw [hout', hout, List.flatMap_cons, List.append_assoc,
          flatMap_congr_mem _ _ lq (fun x hx => frameBytes_eq_of_payload_eq
            (hpay x (fun e => halq (e ▸ hx))))]
      · simpa using hinv'
      · intro x hx
        simp only [List.drop_zero] at hx hfreed
        rcases List.mem_cons.mp hx with e | hx'
        · subst e
          exact hnone' x hgone
        · exact hfreed x hx'
      · intro fuel hle
        cases fuel with
        | zero => rfl
        | succ n =>
          rw [hstep]
          exact hfuel n (by simpa using hle)

/-- The writer loop returns only with the queue empty and the
producer-finished flag set. -/
theorem buf_handler_loop_exit : ∀ (fuel : Nat) (s : State) (l : HandlerLocals)
    (s' : State) (l' : HandlerLocals), buf_handler_loop fuel s l = .ok (s', l') →
    s'.first = NULL ∧ s'.exit_handler ≠ 0
  | 0, _, _, _, _, h => by simp [buf_handler_loop] at h
  | fuel + 1, s, l, s', l', h => by
    unfold buf_handler_loop at h
    by_cases hc : handler_continues s = true
    · simp only [hc, if_true] at h
      cases hb : buf_handler_body s l with
      | error e => simp [hb] at h
      | ok r =>
        rw [hb] at h
        exact buf_handler_loop_exit fuel r.1 r.2 s' l' h
    · simp only [hc] at h
      have hs : s' = s := by
        simp only [Bool.false_eq_true, if_false, pure_eq_ok, Except.ok.injEq,
          Prod.mk.injEq] at h
        exact h.1.symm
      subst hs
      simp only [handler_continues, Bool.or_eq_true, decide_eq_true_eq, not_or] at hc
      exact ⟨by simpa using hc.2, hc.1⟩

/-- C3: drain-before-exit. From any well-formed state whose queue holds the
`K` buffers `lq`, with `exit_handler` set and nobody else running, the loop of
`buf_handler` (entered with any values `l` of its locals) returns after exactly
`K` passes through its body (`K + 1` evaluations of the loop condition, and not
fewer): every queued frame has been written to the sink in queue order, every
buffer has been handed to `pixbuf_return_to_pool` (the first ones fill the
free-list up to `POOL_MAX`, the others are freed), the queue is empty, and
`buf_handler` then clears `exit_handler` to 0. Moreover, from any state at all,
the loop can return only in a state where the queue is empty and
`exit_handler` is set. -/
theorem drain_before_exit (s : State) (lp lq : List Ptr) (l : HandlerLocals)
    (hinv : SysInv s lp lq []) (hexit : s.exit_handler ≠ 0) :
    (∃ s', buf_handler_from (lq.length + 1) s l = .ok s' ∧
      s'.out = s.out ++ lq.flatMap (frameBytes s.heap) ∧
      s'.first = NULL ∧ s'.queuesize = 0 ∧
      SysInv s' (lp ++ lq.take (30 - lp.length)) [] [] ∧
      (∀ a ∈ lq.drop (30 - lp.length), s'.heap a = none) ∧
      s'.exit_handler = 0) ∧
    (∀ fuel, fuel ≤ lq.length → buf_handler_from fuel s l = .error .fuel) ∧
    (∀ fuel (t : State) (k : HandlerLocals) (t' : State) (k' : HandlerLocals),
      buf_handler_loop fuel t k = .ok (t', k') → t'.first = NULL ∧ t'.exit_handler ≠ 0) := by
  obtain ⟨s', l', hrun, hout, hinv', hfreed, _, _, _, _, _, hfuel⟩ :=
    buf_handler_loop_drain lq s lp l hinv hexit
  refine ⟨⟨{ s' with exit_handler := 0 }, ?_, hout, ?_, ?_, ?_, hfreed, rfl⟩, ?_,
    buf_handler_loop_exit⟩
  · simp [buf_handler_from, hrun]
  · exact hinv'.queue.list
  · have := hinv'.queuecount
    simpa using this
  · exact hinv'.of_eq rfl rfl rfl rfl rfl rfl rfl rfl rfl rfl rfl
  · intro fuel hle
    simp [buf_handler_from, hfuel fuel hle]

theorem demoDrainState_inv : SysInv demoDrainState [] [1, 2] [] where
  pool := ⟨rfl, List.nodup_nil, fun h => absurd rfl h⟩
  queue := ⟨⟨rfl, by decide, _, rfl, rfl, by decide, _, rfl, rfl⟩, by decide, fun _ => rfl⟩
  nodup := by decide
  live := by
    intro a
    by_cases h1 : a = 1
    · subst h1
      decide
    · by_cases h2 : a = 2
      · subst h2
        decide
      · simp [demoDrainState, h1, h2]
  nonnull := by simp
  poolcount := rfl
  poolcap := by decide
  queuecount := rfl
  block := rfl
  plock := rfl
  sized := by
    intro a b hb
    by_cases h1 : a = 1
    · subst h1
      have : b = { data := [10, 11, 12], size := 3, next := 2 } :=
        (Option.some.inj hb).symm
      subst this
      decide
    · by_cases h2 : a = 2
      · subst h2
        have : b = { data := [20, 21, 22], size := 3, next := NULL } :=
          (Option.some.inj hb).symm
        subst this
        decide
      · simp [demoDrainState, h1, h2] at hb
  alloc := rfl

theorem drain_before_exit_witness :
    (SysInv demoDrainState [] [1, 2] [] ∧ demoDrainState.exit_handler ≠ 0) ∧
    (∃ s', buf_handler 3 demoDrainState = .ok s' ∧
      s'.out = [10, 11, 12, 20, 21, 22] ∧ s'.first = NULL ∧ s'.exit_handler = 0 ∧
      PoolIs s' [1, 2]) ∧
    buf_handler 2 demoDrainState = .error .fuel :=
  have h := drain_before_exit demoDrainState [] [1, 2] (handler_entry demoDrainState)
    demoDrainState_inv (by decide)
  ⟨⟨demoDrainState_inv, by decide⟩,
    (match h.1 with
      | ⟨s', h1, h2, h3, _, h5, _, h7⟩ => ⟨s', h1, h2, h3, h7, h5.pool⟩),
    h.2.1 2 (by decide)⟩

/-! ## Pacing timers -/

/-- C9: the pacing timer over exact time values. `new_timer(len)` at clock
snapshot `ctick` has `end = ctick + len` and `interval = len`;
`timer_is_done(t)` is non-zero (and then 1) exactly when `ctick >= t.end`;
`timer_reset(t)` sets `end = ctick + t.interval` and keeps `interval`. Hence,
for a positive interval, a timer reset at snapshot `s` is not due at `s` and is
due at a snapshot `s'` exactly when `s'.ctick >= s.ctick + interval`. -/
theorem timer_contract (len : ℚ) (t : timer) (s s' : State) :
    (new_timer len s).«end» = s.ctick + len ∧ (new_timer len s).interval = len ∧
    (timer_is_done t s ≠ 0 ↔ s.ctick ≥ t.«end») ∧
    (timer_is_done t s = 1 ∨ timer_is_done t s = 0) ∧
    (timer_reset t s).«end» = s.ctick + t.interval ∧
    (timer_reset t s).interval = t.interval ∧
    (0 < t.interval →
      timer_is_done (timer_reset t s) s = 0 ∧
      (timer_is_done (timer_reset t s) s' ≠ 0 ↔ s'.ctick ≥ s.ctick + t.interval)) := by
  refine ⟨rfl, rfl, ?_, ?_, rfl, rfl, fun hpos => ⟨?_, ?_⟩⟩
  · unfold timer_is_done
    split_ifs with h <;> simp [h]
  · unfold timer_is_done
    split_ifs <;> simp
  · unfold timer_is_done timer_reset
    have : ¬ s.ctick ≥ s.ctick + t.interval := by
      intro h
      linarith
    simp only [this, if_false]
  · unfold timer_is_done timer_reset
    split_ifs with h <;> simp [h]

theorem timer_contract_witness :
    (0 : ℚ) < demoTimer.interval ∧
    timer_is_done (timer_reset demoTimer (demoClock 5)) (demoClock 5) = 0 ∧
    (timer_is_done (timer_reset demoTimer (demoClock 5)) (demoClock 1005) ≠ 0 ↔
      (demoClock 1005).ctick ≥ (demoClock 5).ctick + demoTimer.interval) :=
  have hpos : (0 : ℚ) < demoTimer.interval := by
    show (0 : ℚ) < 1000
    norm_num
  ⟨hpos, (timer_contract 0 demoTimer (demoClock 5) (demoClock 1005)).2.2.2.2.2.2 hpos⟩

/-! ## Lock discipline -/

/-- C10 (the code departs from the claim): teardown when no frame was ever
captured, so that pool and queue are both empty. `free_pool` takes `p_lock`
and returns at `if( ! pool_f ) return;` without releasing it; `free_bufs` then
takes `b_lock` while `p_lock` is held and returns holding `b_lock` as well. -/
theorem teardown_keeps_locks (fuel : Nat) :
    ∃ s, teardown fuel State.init = .ok s ∧ s.p_lock = true ∧ s.b_lock = true ∧
      s.locklog = [.acq .p_lock, .acq .b_lock] ∧ nestedAcquire [] s.locklog = true := by
  refine ⟨{ State.init with
    p_lock := true, b_lock := true, locklog := [.acq .p_lock, .acq .b_lock] }, ?_, rfl, rfl,
    rfl, by decide⟩
  simp [teardown, free_pool, free_bufs, lock_p, lock_b, State.init]

/-! ## The two-thread system keeps its invariant -/

theorem SysInv.perm_slots {s : State} {lp lq slots slots' : List Ptr}
    (hinv : SysInv s lp lq slots) (hperm : slots'.Perm slots) : SysInv s lp lq slots' :=
  hinv.rearrange hinv.pool hinv.queue (List.Perm.append_left _ hperm) (fun _ => rfl)
    (fun h => hinv.nonnull (hperm.mem_iff.mp h)) hinv.poolcount hinv.poolcap hinv.queuecount
    hinv.block hinv.plock rfl rfl

theorem frameBytes_set_other (h : Heap) (p x : Ptr) (v : Option pixbuf) (hne : x ≠ p) :
    frameBytes (h.set p v) x = frameBytes h x := by
  simp [frameBytes, Heap.set, hne]

theorem toInt_roundtrip {n : Nat} (hn : n < 2 ^ 32) :
    toUInt (toInt n) = n ∧ n ≤ toSizeT (toInt n) := by
  have hmod : n % 2 ^ 32 = n := Nat.mod_eq_of_lt hn
  unfold toUInt toSizeT toInt
  rw [hmod]
  split_ifs with h
  · have h1 : ((n : Int)) % 2 ^ 32 = n := Int.emod_eq_of_lt (by omega) (by omega)
    have h2 : ((n : Int)) % 2 ^ 64 = n := Int.emod_eq_of_lt (by omega) (by omega)
    rw [h1, h2]
    simp
  · have h1 : ((n : Int) - 2 ^ 32) % 2 ^ 32 = n := by
      rw [Int.sub_emod, Int.emod_self, sub_zero, Int.emod_emod_of_dvd _ (dvd_refl _)]
      exact Int.emod_eq_of_lt (by omega) (by omega)
    have h2 : ((n : Int) - 2 ^ 32) % 2 ^ 64 = (n : Int) - 2 ^ 32 + 2 ^ 64 := by
      rw [← @Int.add_mul_emod_self ((n : Int) - 2 ^ 32) 1 (2 ^ 64)]
      rw [one_mul]
      exact Int.emod_eq_of_lt (by omega) (by omega)
    rw [h1, h2]
    constructor
    · simp
    · omega

theorem sizes_of_payload {size : Nat} {h h' : Heap} (hp : ∀ a, h'.payload a = h.payload a)
    (hs : ∀ a b, h a = some b → b.size = size ∧ size ≤ b.data.length) :
    ∀ a b, h' a = some b → b.size = size ∧ size ≤ b.data.length := by
  intro a b hb
  have := hp a
  simp only [Heap.payload, hb, Option.map_some'] at this
  cases h1 : h a with
  | none => simp [h1] at this
  | some b0 =>
    simp only [h1, Option.map_some', Option.some.injEq, Prod.mk.injEq] at this
    have h0 := hs a b0 h1
    rw [this.1, this.2]
    exact h0

theorem Inv.stop_of_running {size : Nat} {σ : Sys} {lp lq : List Ptr}
    (hinv : Inv size σ lp lq) (hne : σ.hpc ≠ .exited) (h : σ.mpc = .stopped) :
    σ.g.exit_handler ≠ 0 :=
  (hinv.stopflag h).resolve_right hne

theorem Inv.signal {size : Nat} {σ : Sys} {lp lq : List Ptr} (hinv : Inv size σ lp lq)
    (sig : Int) :
    Inv size { σ with g := catch_int sig σ.g } lp lq ∧
      FramesKept σ { σ with g := catch_int sig σ.g } lq := by
  unfold catch_int
  split_ifs
  · exact ⟨⟨hinv.sys.of_eq rfl rfl rfl rfl rfl rfl rfl rfl rfl rfl rfl, hinv.msize, hinv.sizes,
      hinv.img, hinv.stream, hinv.frames, hinv.flag, hinv.exited, hinv.stopflag⟩,
      (by intro _ _; rfl)⟩
  · exact ⟨hinv, (by intro _ _; rfl)⟩

theorem Inv.main_start {size : Nat} {σ : Sys} {lp lq : List Ptr} (hinv : Inv size σ lp lq)
    (env : Env) (hpc : σ.mpc = .start) :
    ∃ σ', main_step env σ = .ok σ' ∧ Inv size σ' lp lq ∧ FramesKept σ σ' lq := by
  have hms : mainSlot σ = [] := by simp [mainSlot, hpc]
  have hmp : mainPending σ = [] := by simp [mainPending, hpc]
  have hsys := hinv.sys
  have hstream := hinv.stream
  rw [hms] at hsys
  simp only [streamOf, hmp] at hstream
  refine ⟨_, by simp only [main_step, hpc]; rfl, ?_, (by intro _ _; rfl)⟩
  refine ⟨hsys.of_eq rfl rfl rfl rfl rfl rfl rfl rfl rfl rfl rfl, hinv.msize, hinv.sizes,
    hinv.img, hstream, hinv.frames, fun h => ?_, fun h => ?_, fun h => by cases h⟩
  · have := hinv.flag h
    rw [hpc] at this
    cases this
  · have := (hinv.exited h).1
    rw [hpc] at this
    cases this

theorem Inv.main_stopped {size : Nat} {σ : Sys} {lp lq : List Ptr} (hinv : Inv size σ lp lq)
    (env : Env) (hpc : σ.mpc = .stopped) :
    ∃ σ', main_step env σ = .ok σ' ∧ Inv size σ' lp lq ∧ FramesKept σ σ' lq :=
  ⟨σ, by simp only [main_step, hpc]; rfl, hinv, (by intro _ _; rfl)⟩

theorem Inv.handler_start {size : Nat} {σ : Sys} {lp lq : List Ptr} (hinv : Inv size σ lp lq)
    (hpc : σ.hpc = .start) :
    ∃ σ', handler_step σ = .ok σ' ∧ Inv size σ' lp lq ∧ FramesKept σ σ' lq := by
  have hhs : handlerSlot σ = [] := by simp [handlerSlot, hpc]
  have hhp : handlerPending σ = [] := by simp [handlerPending, hpc]
  have hsys := hinv.sys
  have hstream := hinv.stream
  rw [hhs] at hsys
  simp only [streamOf, hhp] at hstream
  have hne : σ.hpc ≠ .exited := by rw [hpc]; decide
  refine ⟨_, by simp only [handler_step, hpc]; rfl, ?_, (by intro _ _; rfl)⟩
  exact ⟨hsys, hinv.msize, hinv.sizes, hinv.img, hstream, hinv.frames, hinv.flag,
    fun h => (by cases h), fun h => Or.inl (hinv.stop_of_running hne h)⟩

theorem Inv.handler_exited {size : Nat} {σ : Sys} {lp lq : List Ptr} (hinv : Inv size σ lp lq)
    (hpc : σ.hpc = .exited) :
    ∃ σ', handler_step σ = .ok σ' ∧ Inv size σ' lp lq ∧ FramesKept σ σ' lq :=
  ⟨σ, by simp only [handler_step, hpc]; rfl, hinv, (by intro _ _; rfl)⟩

/-- `main` at the top of its loop: it stops, captures a frame, or sleeps. -/
theorem Inv.main_top {size : Nat} {σ : Sys} {lp lq : List Ptr} (hinv : Inv size σ lp lq)
    (env : Env) (hpc : σ.mpc = .top) :
    ∃ σ', main_step env σ = .ok σ' ∧ Inv size σ' lp lq ∧ FramesKept σ σ' lq := by
  have hms : mainSlot σ = [] := by simp [mainSlot, hpc]
  have hmp : mainPending σ = [] := by simp [mainPending, hpc]
  have hsys := hinv.sys
  have hstream := hinv.stream
  rw [hms] at hsys
  simp only [streamOf, hmp, List.append_nil] at hstream
  have hnotexit : σ.hpc ≠ .exited := fun h => by
    have := (hinv.exited h).1
    rw [hpc] at this
    cases this
  by_cases hex : σ.g.exit_main ≠ 0
  · refine ⟨_, by simp only [main_step, hpc]; rw [if_pos hex]; rfl, ?_, (by intro _ _; rfl)⟩
    refine ⟨hsys.of_eq rfl rfl rfl rfl rfl rfl rfl rfl rfl rfl rfl, hinv.msize, hinv.sizes,
      hinv.img, ?_, hinv.frames, fun _ => rfl, fun h => absurd h hnotexit,
      fun _ => Or.inl one_ne_zero⟩
    simpa [streamOf, mainPending, handlerPending] using hstream
  · simp only [main_step, hpc]
    rw [if_neg hex]
    generalize hm' : (if timer_is_done σ.m.main_t (get_millis env.tv_sec env.tv_nsec σ.g) ≠ 0 then
      ({ σ.m with
        fcnt := 0
        main_t := timer_reset σ.m.main_t (get_millis env.tv_sec env.tv_nsec σ.g) } : MainLocals)
      else σ.m) = m'
    have hsz : m'.size = size := by
      rw [← hm']
      split_ifs <;> exact hinv.msize
    by_cases hdue : timer_is_done m'.frame (get_millis env.tv_sec env.tv_nsec σ.g) ≠ 0
    · rw [if_pos hdue]
      refine ⟨_, rfl, ?_, (by intro _ _; rfl)⟩
      refine ⟨hsys.of_eq rfl rfl rfl rfl rfl rfl rfl rfl rfl rfl rfl, hsz, hinv.sizes, ?_, ?_,
        ?_, fun h => ?_, fun h => absurd h hnotexit, fun h => by cases h⟩
      · simp [XShmGetImage, get_millis, hinv.img]
      · have : σ.g.out ++ handlerPending σ ++ lq.flatMap (frameBytes σ.g.heap) =
            σ.captured.flatten := hstream
        simp only [streamOf, mainPending, List.flatten_append,
          List.flatten_cons, List.flatten_nil, List.append_nil]
        rw [← this]
        rfl
      · intro f hf
        rcases List.mem_append.mp hf with h1 | h1
        · exact hinv.frames f h1
        · have : f = (XShmGetImage env.frame (get_millis env.tv_sec env.tv_nsec σ.g)).img := by
            simpa using h1
          rw [this]
          simp [XShmGetImage, get_millis, hinv.img]
      · have h0 : σ.g.exit_handler ≠ 0 := h
        have := hinv.flag h0
        rw [hpc] at this
        cases this
    · rw [if_neg hdue]
      refine ⟨_, rfl, ?_, (by intro _ _; rfl)⟩
      refine ⟨hsys.of_eq rfl rfl rfl rfl rfl rfl rfl rfl rfl rfl rfl, hsz, hinv.sizes, hinv.img,
        ?_, hinv.frames, fun h => ?_, fun h => absurd h hnotexit, fun h => by cases h⟩
      · have : σ.g.out ++ handlerPending σ ++ lq.flatMap (frameBytes σ.g.heap) =
            σ.captured.flatten := hstream
        simp only [streamOf, mainPending, List.append_nil]
        rw [← this]
        rfl
      · have h0 : σ.g.exit_handler ≠ 0 := h
        have := hinv.flag h0
        rw [hpc] at this
        cases this

theorem stream_congr {o o' p p' q q' r r' : List Nat} (h1 : o' = o) (h2 : p' = p)
    (h3 : q' = q) (h4 : r' = r) : o' ++ p' ++ q' ++ r' = o ++ p ++ q ++ r := by
  rw [h1, h2, h3, h4]

theorem handlerPending_eq {σ σ' : Sys} (hpc : σ'.hpc = σ.hpc) (hh : σ'.h = σ.h)
    (hb : ∀ x ∈ handlerSlot σ, frameBytes σ'.g.heap x = frameBytes σ.g.heap x) :
    handlerPending σ' = handlerPending σ := by
  unfold handlerPending
  rw [hpc, hh]
  cases hc : σ.hpc <;> simp only
  exact hb _ (by simp [handlerSlot, hc])

theorem mainPending_eq {σ σ' : Sys} (hpc : σ'.mpc = σ.mpc) (hm : σ'.m = σ.m)
    (himg : σ'.g.img = σ.g.img)
    (hb : ∀ x ∈ mainSlot σ, frameBytes σ'.g.heap x = frameBytes σ.g.heap x) :
    mainPending σ' = mainPending σ := by
  unfold mainPending
  rw [hpc, hm, himg]
  cases hc : σ.mpc <;> simp only
  exact hb _ (by simp [mainSlot, hc])

/-- `main` after `XShmGetImage`: `p = get_new_pixbuf(size)`. -/
theorem Inv.main_captured {size : Nat} {σ : Sys} {lp lq : List Ptr} (hinv : Inv size σ lp lq)
    (hsize : size < 2 ^ 32) (env : Env) (hpc : σ.mpc = .captured)
    (hm : ∀ x, env.malloc.node = some x → x ≠ NULL ∧ σ.g.heap x = none) :
    (∃ σ' lp', main_step env σ = .ok σ' ∧ Inv size σ' lp' lq ∧ FramesKept σ σ' lq) ∨
    (main_step env σ = .error .exitFailure ∧ lp = [] ∧
      (env.malloc.node = none ∨ env.malloc.region = none)) := by
  have hms : mainSlot σ = [] := by simp [mainSlot, hpc]
  have hmp : mainPending σ = σ.g.img := by simp [mainPending, hpc]
  have hsys := hinv.sys
  have hstream := hinv.stream
  rw [hms] at hsys
  simp only [streamOf, hmp] at hstream
  have hnotexit : σ.hpc ≠ .exited := fun h => by
    have := (hinv.exited h).1
    rw [hpc] at this
    cases this
  have hflag : σ.g.exit_handler = 0 := by
    by_contra h
    have := hinv.flag h
    rw [hpc] at this
    cases this
  cases lp with
  | cons a lp' =>
    left
    obtain ⟨ba, _, _, hrun, hinv'⟩ := hsys.acquire_cons (toInt σ.m.size) env.malloc
    refine ⟨_, lp', by simp only [main_step, hpc, hrun, ok_bind]; rfl, ?_, (by intro _ _; rfl)⟩
    refine ⟨hinv', hinv.msize, hinv.sizes, hinv.img, ?_, hinv.frames,
      fun h => absurd hflag h, fun h => absurd h hnotexit, fun h => by cases h⟩
    simp only [streamOf, mainPending]
    rw [← hstream]
    exact stream_congr rfl (handlerPending_eq rfl rfl ((by intro _ _; rfl))) rfl rfl
  | nil =>
    rcases hmal : env.malloc with ⟨node, region⟩
    cases node with
    | none =>
      right
      refine ⟨?_, rfl, Or.inl rfl⟩
      simp only [main_step, hpc]
      rw [hmal, get_new_pixbuf_fail _ _ hsys.pool.list hsys.plock (Or.inl rfl)]
      rfl
    | some a =>
      cases region with
      | none =>
        right
        refine ⟨?_, rfl, Or.inr rfl⟩
        simp only [main_step, hpc]
        rw [hmal, get_new_pixbuf_fail _ _ hsys.pool.list hsys.plock (Or.inr rfl)]
        rfl
      | some g =>
        left
        obtain ⟨ha0, hfresh⟩ := hm a (by rw [hmal])
        obtain ⟨hrun, hinv'⟩ := hsys.acquire_nil (toInt σ.m.size) a g ha0 hfresh
        have hne : ∀ x, (σ.g.heap x).isSome = true → x ≠ a := by
          intro x hx e
          rw [e, hfresh] at hx
          simp at hx
        obtain ⟨hrt1, hrt2⟩ := toInt_roundtrip hsize
        refine ⟨_, [], by simp only [main_step, hpc]; rw [hmal, hrun]; rfl, ?_,
          by exact fun x hx =>
            frameBytes_set_other _ _ _ _ (hne x ((hsys.live x).mpr (by simp [hx])))⟩
        refine ⟨hinv', hinv.msize, fun x b hb => ?_, hinv.img, ?_, hinv.frames,
          fun h => absurd hflag h, fun h => absurd h hnotexit, fun h => by cases h⟩
        · by_cases hxa : x = a
          · subst hxa
            simp only [Heap.set_same, Option.some.injEq] at hb
            subst hb
            simp only [List.length_map, List.length_range, hinv.msize]
            exact ⟨hrt1, hrt2⟩
          · simp only [Heap.set, hxa, if_false] at hb
            exact hinv.sizes x b hb
        · simp only [streamOf, mainPending]
          rw [← hstream]
          exact stream_congr rfl
            (handlerPending_eq rfl rfl (fun x hx => frameBytes_set_other _ _ _ _
              (hne x ((hsys.live x).mpr (by simp [hx])))))
            (flatMap_congr_mem _ _ lq (fun x hx =>
              frameBytes_set_other _ _ _ _ (hne x ((hsys.live x).mpr (by simp [hx])))))
            rfl

/-- Overwriting the data of a buffer held in a slot keeps the lists. -/
theorem SysInv.set_slot {s : State} {lp lq slots : List Ptr} {b : Ptr} {nb : pixbuf}
    (hinv : SysInv s lp lq slots) (hb : b ∈ slots) (hsz : nb.size ≤ nb.data.length) :
    SysInv { s with heap := s.heap.set b (some nb) } lp lq slots := by
  obtain ⟨_, hblp, hblq, _, bb, hbb⟩ := hinv.slot_facts hb
  refine ⟨⟨hinv.pool.list.frame (fun a ha => Heap.set_other _ _ _ _ (fun e => hblp (e ▸ ha))),
      hinv.pool.nodup, hinv.pool.tail⟩,
    ⟨hinv.queue.list.frame (fun a ha => Heap.set_other _ _ _ _ (fun e => hblq (e ▸ ha))),
      hinv.queue.nodup, hinv.queue.tail⟩,
    hinv.nodup, fun a => ?_, hinv.nonnull, hinv.poolcount, hinv.poolcap, hinv.queuecount,
    hinv.block, hinv.plock, fun a x hx => ?_, hinv.alloc⟩
  · by_cases hab : a = b
    · subst hab
      simp only [Heap.set_same, Option.isSome_some, true_iff]
      exact (hinv.live a).mp (by simp [hbb])
    · simp only [Heap.set, hab, if_false]
      exact hinv.live a
  · by_cases hab : a = b
    · subst hab
      simp only [Heap.set_same, Option.some.injEq] at hx
      subst hx
      exact hsz
    · simp only [Heap.set, hab, if_false] at hx
      exact hinv.sized a x hx

theorem frameBytes_set_same (h : Heap) (p : Ptr) (b : pixbuf) :
    frameBytes (h.set p (some b)) p = b.data.take b.size := by
  simp [frameBytes]

/-- `main` after `get_new_pixbuf`: the `memcpy` of the captured frame. -/
theorem Inv.main_acquired {size : Nat} {σ : Sys} {lp lq : List Ptr} (hinv : Inv size σ lp lq)
    (env : Env) (hpc : σ.mpc = .acquired) :
    ∃ σ', main_step env σ = .ok σ' ∧ Inv size σ' lp lq ∧ FramesKept σ σ' lq := by
  have hms : mainSlot σ = [σ.m.p] := by simp [mainSlot, hpc]
  have hmp : mainPending σ = σ.g.img := by simp [mainPending, hpc]
  have hsys := hinv.sys
  have hstream := hinv.stream
  rw [hms] at hsys
  simp only [streamOf, hmp] at hstream
  have hnotexit : σ.hpc ≠ .exited := fun h => by
    have := (hinv.exited h).1
    rw [hpc] at this
    cases this
  have hflag : σ.g.exit_handler = 0 := by
    by_contra h
    have := hinv.flag h
    rw [hpc] at this
    cases this
  have hmem : σ.m.p ∈ [σ.m.p] ++ handlerSlot σ := by simp
  obtain ⟨hp0, _, hplq, _, bb, hbb⟩ := hsys.slot_facts hmem
  have hphs : σ.m.p ∉ handlerSlot σ := by
    have hnd : ([σ.m.p] ++ handlerSlot σ).Nodup :=
      (List.nodup_append.mp hsys.nodup).2.1
    exact (List.nodup_cons.mp hnd).1
  obtain ⟨hbs, hbl⟩ := hinv.sizes _ _ hbb
  have hrun : memcpy_frame σ.m.p σ.m.size σ.g = .ok { σ.g with
      heap := σ.g.heap.set σ.m.p (some { bb with
        data := σ.g.img.take σ.m.size ++ bb.data.drop σ.m.size }) } := by
    have h1 : σ.m.size ≤ bb.data.length := by rw [hinv.msize]; exact hbl
    have h2 : σ.m.size ≤ σ.g.img.length := by rw [hinv.msize, hinv.img]
    simp [memcpy_frame, load, hp0, hbb, h1, h2]
  have hlen : (σ.g.img.take σ.m.size ++ bb.data.drop σ.m.size).length = bb.data.length := by
    simp only [List.length_append, List.length_take, List.length_drop, hinv.msize, hinv.img]
    omega
  refine ⟨_, by simp only [main_step, hpc, hrun, ok_bind]; rfl, ?_,
    by exact fun x hx => frameBytes_set_other _ _ _ _ (fun e => hplq (e ▸ hx))⟩
  refine ⟨?_, hinv.msize, fun x b hb => ?_, hinv.img, ?_, hinv.frames,
    fun h => absurd hflag h, fun h => absurd h hnotexit, fun h => by cases h⟩
  · have hfit : ({ bb with
        data := σ.g.img.take σ.m.size ++ bb.data.drop σ.m.size } : pixbuf).size ≤
        ({ bb with
          data := σ.g.img.take σ.m.size ++ bb.data.drop σ.m.size } : pixbuf).data.length := by
      simp only [hlen]
      omega
    exact hsys.set_slot hmem hfit
  · by_cases hxp : x = σ.m.p
    · subst hxp
      simp only [Heap.set_same, Option.some.injEq] at hb
      subst hb
      simp only [hlen]
      exact ⟨hbs, hbl⟩
    · simp only [Heap.set, hxp, if_false] at hb
      exact hinv.sizes x b hb
  · simp only [streamOf, mainPending]
    rw [← hstream]
    refine stream_congr rfl
      (handlerPending_eq rfl rfl (fun x hx => frameBytes_set_other _ _ _ _
        (fun e => hphs (e ▸ hx))))
      (flatMap_congr_mem _ _ lq (fun x hx =>
        frameBytes_set_other _ _ _ _ (fun e => hplq (e ▸ hx)))) ?_
    rw [frameBytes_set_same]
    simp only [hbs, ← hinv.msize]
    rw [List.take_append_of_le_length (by
      rw [List.length_take, hinv.msize, hinv.img]
      omega)]
    rw [List.take_take, Nat.min_self, List.take_of_length_le (by rw [hinv.msize, hinv.img])]

/-- `main` after `memcpy`: `queue_pixbuf(p)` and the loop bookkeeping. -/
theorem Inv.main_filled {size : Nat} {σ : Sys} {lp lq : List Ptr} (hinv : Inv size σ lp lq)
    (env : Env) (hpc : σ.mpc = .filled) :
    ∃ σ', main_step env σ = .ok σ' ∧ Inv size σ' lp (lq ++ [σ.m.p]) ∧
      FramesKept σ σ' lq := by
  have hms : mainSlot σ = [σ.m.p] := by simp [mainSlot, hpc]
  have hmp : mainPending σ = frameBytes σ.g.heap σ.m.p := by simp [mainPending, hpc]
  have hsys := hinv.sys
  have hstream := hinv.stream
  rw [hms] at hsys
  simp only [streamOf, hmp] at hstream
  have hnotexit : σ.hpc ≠ .exited := fun h => by
    have := (hinv.exited h).1
    rw [hpc] at this
    cases this
  have hflag : σ.g.exit_handler = 0 := by
    by_contra h
    have := hinv.flag h
    rw [hpc] at this
    cases this
  have hmem : σ.m.p ∈ [σ.m.p] ++ handlerSlot σ := by simp
  obtain ⟨h', hrun, hpay, hinv'⟩ := hsys.push hmem
  have herase : ([σ.m.p] ++ handlerSlot σ).erase σ.m.p = handlerSlot σ := by simp
  rw [herase] at hinv'
  refine ⟨_, by simp only [main_step, hpc, hrun, ok_bind]; rfl, ?_,
    by exact fun x _ => frameBytes_eq_of_payload_eq (hpay x)⟩
  refine ⟨hinv', hinv.msize, sizes_of_payload hpay hinv.sizes, hinv.img, ?_, hinv.frames,
    fun h => absurd hflag h, fun h => absurd h hnotexit, fun h => by cases h⟩
  simp only [streamOf, mainPending, List.flatMap_append, List.flatMap_cons, List.flatMap_nil,
    List.append_nil]
  rw [← hstream, ← List.append_assoc]
  exact stream_congr rfl
    (handlerPending_eq rfl rfl (fun x _ => frameBytes_eq_of_payload_eq (hpay x)))
    (flatMap_congr_mem _ _ lq (fun x _ => frameBytes_eq_of_payload_eq (hpay x)))
    (frameBytes_eq_of_payload_eq (hpay _))

/-- `buf_handler` at its loop condition: it returns, or pops. -/
theorem Inv.handler_top {size : Nat} {σ : Sys} {lp lq : List Ptr} (hinv : Inv size σ lp lq)
    (hpc : σ.hpc = .top) :
    ∃ σ', handler_step σ = .ok σ' ∧ Inv size σ' lp lq.tail ∧ FramesKept σ σ' lq ∧
      (handler_continues σ.g = false → σ'.hpc = .exited ∧ σ'.g.exit_handler = 0 ∧ lq = []) ∧
      (handler_continues σ.g = true → σ'.hpc = (if lq = [] then .top else .popped)) := by
  have hhs : handlerSlot σ = [] := by simp [handlerSlot, hpc]
  have hhp : handlerPending σ = [] := by simp [handlerPending, hpc]
  have hsys := hinv.sys
  have hstream := hinv.stream
  rw [hhs] at hsys
  simp only [streamOf, hhp] at hstream
  have hne : σ.hpc ≠ .exited := by rw [hpc]; decide
  by_cases hc : handler_continues σ.g = true
  · have hsysT : SysInv { σ.g with
        fwps := if timer_is_done σ.h.fwps_t σ.g ≠ 0 then σ.h.fcnt else σ.g.fwps } lp lq
        (mainSlot σ ++ []) := hsys.of_eq rfl rfl rfl rfl rfl rfl rfl rfl rfl rfl rfl
    cases lq with
    | nil =>
      obtain ⟨hpop, hinv'⟩ := hsysT.pop_nil
      refine ⟨_, by
        simp only [handler_step, hpc, hc, if_true, handler_pop_eq, hpop, ok_bind, pure_eq_ok]
        rfl, ?_, (by intro _ _; rfl), fun h => by simp [hc] at h, fun _ => by simp⟩
      refine ⟨hinv', hinv.msize, hinv.sizes, hinv.img, ?_, hinv.frames, hinv.flag,
        fun h => (by simp at h), fun h => Or.inl (hinv.stop_of_running hne h)⟩
      simp only [streamOf, List.tail_nil]
      rw [← hstream]
      exact stream_congr rfl (by simp [handlerPending]) rfl
        (mainPending_eq rfl rfl rfl ((by intro _ _; rfl)))
    | cons a lq' =>
      obtain ⟨ba, hba, ha0, hpop, hinv'⟩ := hsysT.pop_cons
      have hperm : (mainSlot σ ++ [a]).Perm (a :: (mainSlot σ ++ [])) := by
        simp [List.perm_append_singleton a (mainSlot σ)]
      have hinv'' := hinv'.perm_slots hperm
      have e : σ.g.out ++ frameBytes σ.g.heap a ++ lq'.flatMap (frameBytes σ.g.heap) ++
          mainPending σ = σ.captured.flatten := by
        rw [← hstream]
        simp [List.flatMap_cons]
      refine ⟨_, by
        simp only [handler_step, hpc, hc, if_true, handler_pop_eq, hpop, ok_bind, pure_eq_ok]
        rfl, ?_, (by intro _ _; rfl), fun h => by simp [hc] at h, fun _ => by simp [ha0]⟩
      refine ⟨by simpa [handlerSlot, ha0] using hinv'', hinv.msize, hinv.sizes, hinv.img, ?_,
        hinv.frames, hinv.flag, fun h => (by simp [ha0] at h),
        fun h => Or.inl (hinv.stop_of_running hne h)⟩
      simp only [streamOf, List.tail_cons]
      rw [← e]
      exact stream_congr rfl (by simp [handlerPending, ha0]) rfl
        (mainPending_eq rfl rfl rfl ((by intro _ _; rfl)))
  · have hc' : handler_continues σ.g = false := by simpa using hc
    have hcond := hc'
    simp only [handler_continues, Bool.or_eq_false_iff, decide_eq_false_iff_not, not_not] at hcond
    have hlq : lq = [] := hsys.queue.list.null_iff.mp hcond.2
    subst hlq
    have hstopped := hinv.flag hcond.1
    refine ⟨_, by simp only [handler_step, hpc, hc', Bool.false_eq_true, if_false]; rfl, ?_,
      (by intro _ _; rfl), fun _ => ⟨rfl, rfl, rfl⟩, fun h => by simp [hc'] at h⟩
    refine ⟨hsys.of_eq rfl rfl rfl rfl rfl rfl rfl rfl rfl rfl rfl, hinv.msize, hinv.sizes,
      hinv.img, ?_, hinv.frames, fun h => absurd rfl h, fun _ => ⟨hstopped, rfl, rfl⟩,
      fun _ => Or.inr rfl⟩
    simp only [streamOf, List.tail_nil]
    rw [← hstream]
    exact stream_congr rfl (by simp [handlerPending]) rfl
      (mainPending_eq rfl rfl rfl ((by intro _ _; rfl)))

/-- `buf_handler` after a pop: the `write`. -/
theorem Inv.handler_popped {size : Nat} {σ : Sys} {lp lq : List Ptr} (hinv : Inv size σ lp lq)
    (hpc : σ.hpc = .popped) :
    ∃ σ', handler_step σ = .ok σ' ∧ Inv size σ' lp lq ∧ FramesKept σ σ' lq ∧
      σ'.hpc = .written ∧
      σ'.g.out = σ.g.out ++ frameBytes σ.g.heap σ.h.p := by
  have hhs : handlerSlot σ = [σ.h.p] := by simp [handlerSlot, hpc]
  have hhp : handlerPending σ = frameBytes σ.g.heap σ.h.p := by simp [handlerPending, hpc]
  have hsys := hinv.sys
  have hstream := hinv.stream
  rw [hhs] at hsys
  simp only [streamOf, hhp] at hstream
  have hmem : σ.h.p ∈ mainSlot σ ++ [σ.h.p] := by simp
  obtain ⟨hp0, _, _, _, bb, hbb⟩ := hsys.slot_facts hmem
  have hsz := hsys.sized _ _ hbb
  have hfb : frameBytes σ.g.heap σ.h.p = bb.data.take bb.size := by
    simp only [frameBytes]
    rw [hbb]
  have hrun : write_stdout σ.h.p σ.g = .ok { σ.g with out := σ.g.out ++ bb.data.take bb.size } := by
    simp [write_stdout, load, hp0, hbb, hsz]
  have e : (σ.g.out ++ bb.data.take bb.size) ++ [] ++ lq.flatMap (frameBytes σ.g.heap) ++
      mainPending σ = σ.captured.flatten := by
    rw [← hstream, hfb]
    simp
  have hne : σ.hpc ≠ .exited := by rw [hpc]; decide
  refine ⟨_, by simp only [handler_step, hpc, handler_write, hrun, ok_bind, pure_eq_ok]; rfl,
    ?_, (by intro _ _; rfl), rfl, by rw [hfb]⟩
  have hsys' : SysInv { σ.g with out := σ.g.out ++ bb.data.take bb.size } lp lq
      (mainSlot σ ++ [σ.h.p]) := hsys.of_eq rfl rfl rfl rfl rfl rfl rfl rfl rfl rfl rfl
  refine ⟨by simpa [handlerSlot] using hsys',
    hinv.msize, hinv.sizes, hinv.img, ?_, hinv.frames, hinv.flag, fun h => (by cases h),
    fun h => Or.inl (hinv.stop_of_running hne h)⟩
  simp only [streamOf]
  rw [← e]
  exact stream_congr rfl (by simp [handlerPending]) rfl
    (mainPending_eq rfl rfl rfl ((by intro _ _; rfl)))

/-- `buf_handler` after the `write`: `pixbuf_return_to_pool(p)`. -/
theorem Inv.handler_written {size : Nat} {σ : Sys} {lp lq : List Ptr}
    (hinv : Inv size σ lp lq) (hpc : σ.hpc = .written) :
    ∃ σ' lp', handler_step σ = .ok σ' ∧ Inv size σ' lp' lq ∧ FramesKept σ σ' lq ∧
      σ'.hpc = .top ∧
      σ'.g.out = σ.g.out := by
  have hhs : handlerSlot σ = [σ.h.p] := by simp [handlerSlot, hpc]
  have hhp : handlerPending σ = [] := by simp [handlerPending, hpc]
  have hsys := hinv.sys
  have hstream := hinv.stream
  rw [hhs] at hsys
  simp only [streamOf, hhp] at hstream
  have hmem : σ.h.p ∈ mainSlot σ ++ [σ.h.p] := by simp
  obtain ⟨hp0, _, hplq, _, bb, hbb⟩ := hsys.slot_facts hmem
  have hpms : σ.h.p ∉ mainSlot σ := by
    have hnd : (mainSlot σ ++ [σ.h.p]).Nodup := (List.nodup_append.mp hsys.nodup).2.1
    intro hm
    exact (List.nodup_append.mp hnd).2.2 hm (List.mem_singleton_self _)
  have hne : σ.hpc ≠ .exited := by rw [hpc]; decide
  have herase : (mainSlot σ ++ [σ.h.p]).erase σ.h.p = mainSlot σ ++ [] := by
    rw [List.erase_append_right _ hpms]
    simp
  by_cases hfull : σ.g.poolsize ≥ POOL_MAX
  · obtain ⟨hrel, hinv'⟩ := hsys.release_full hmem hfull
    rw [herase] at hinv'
    refine Exists.intro ?w1 (Exists.intro lp (And.intro ?run1 ?rest1))
    case run1 =>
      simp only [handler_step, hpc, handler_release, hrel, ok_bind, pure_eq_ok]
      exact rfl
    refine ⟨?_, fun x hx => frameBytes_set_other _ _ _ _ (fun e => hplq (e ▸ hx)), rfl, rfl⟩
    refine ⟨hinv', hinv.msize, fun x b hb => ?_, hinv.img, ?_, hinv.frames, hinv.flag,
      fun h => (by cases h), fun h => Or.inl (hinv.stop_of_running hne h)⟩
    · by_cases hxp : x = σ.h.p
      · subst hxp
        simp [Heap.set] at hb
      · simp only [Heap.set, hxp, if_false] at hb
        exact hinv.sizes x b hb
    · simp only [streamOf]
      rw [← hstream]
      exact stream_congr rfl (by simp [handlerPending])
        (flatMap_congr_mem _ _ lq (fun x hx =>
          frameBytes_set_other _ _ _ _ (fun e => hplq (e ▸ hx))))
        (mainPending_eq rfl rfl rfl (fun x hx =>
          frameBytes_set_other _ _ _ _ (fun e => hpms (e ▸ hx))))
  · have hroom : σ.g.poolsize < POOL_MAX := not_le.mp hfull
    obtain ⟨h', hrel, hpay, hinv'⟩ := hsys.release_room hmem hroom
    rw [herase] at hinv'
    refine Exists.intro ?w2 (Exists.intro (lp ++ [σ.h.p]) (And.intro ?run2 ?rest2))
    case run2 =>
      simp only [handler_step, hpc, handler_release, hrel, ok_bind, pure_eq_ok]
      exact rfl
    refine ⟨?_, fun x _ => frameBytes_eq_of_payload_eq (hpay x), rfl, rfl⟩
    refine ⟨hinv', hinv.msize, sizes_of_payload hpay hinv.sizes, hinv.img, ?_, hinv.frames,
      hinv.flag, fun h => (by cases h), fun h => Or.inl (hinv.stop_of_running hne h)⟩
    simp only [streamOf]
    rw [← hstream]
    exact stream_congr rfl (by simp [handlerPending])
      (flatMap_congr_mem _ _ lq (fun x _ => frameBytes_eq_of_payload_eq (hpay x)))
      (mainPending_eq rfl rfl rfl (fun x _ => frameBytes_eq_of_payload_eq (hpay x)))

/-- The initial state satisfies the invariant. -/
theorem Inv.init (size : Nat) : Inv size (Sys.init size) [] [] where
  sys := {
    pool := ⟨rfl, List.nodup_nil, fun h => absurd rfl h⟩
    queue := ⟨rfl, List.nodup_nil, fun h => absurd rfl h⟩
    nodup := by simp [mainSlot, handlerSlot, Sys.init]
    live := by
      intro a
      simp [mainSlot, handlerSlot, Sys.init, State.init]
    nonnull := by simp [mainSlot, handlerSlot, Sys.init]
    poolcount := rfl
    poolcap := by decide
    queuecount := rfl
    block := rfl
    plock := rfl
    sized := by
      intro a b hb
      simp [Sys.init, State.init] at hb
    alloc := rfl }
  msize := rfl
  sizes := by
    intro a b hb
    simp [Sys.init, State.init] at hb
  img := by simp [Sys.init]
  stream := rfl
  frames := by simp [Sys.init]
  flag := fun h => absurd rfl h
  exited := fun h => by cases h
  stopflag := fun h => by cases h

/-- Every action from a state satisfying the invariant either leads to a state
satisfying it, the frames in the queue keeping their bytes, or is the
`exit(EXIT_FAILURE)` of a failed `malloc`: no action is undefined behaviour and
none blocks. -/
theorem Inv.step {size : Nat} {σ : Sys} {lp lq : List Ptr} (hinv : Inv size σ lp lq)
    (hsize : size < 2 ^ 32) (a : Action) (hm : MallocOk a σ) :
    (∃ σ' lp' lq', step a σ = .ok σ' ∧ Inv size σ' lp' lq' ∧ FramesKept σ σ' lq) ∨
    step a σ = .error .exitFailure := by
  cases a with
  | signal sig => exact Or.inl ⟨_, lp, lq, rfl, hinv.signal sig⟩
  | handler =>
    left
    cases hpc : σ.hpc with
    | start =>
      obtain ⟨σ', h1, h2, h3⟩ := hinv.handler_start hpc
      exact ⟨σ', lp, lq, h1, h2, h3⟩
    | top =>
      obtain ⟨σ', h1, h2, h3, _⟩ := hinv.handler_top hpc
      exact ⟨σ', lp, lq.tail, h1, h2, h3⟩
    | popped =>
      obtain ⟨σ', h1, h2, h3, _⟩ := hinv.handler_popped hpc
      exact ⟨σ', lp, lq, h1, h2, h3⟩
    | written =>
      obtain ⟨σ', lp', h1, h2, h3, _⟩ := hinv.handler_written hpc
      exact ⟨σ', lp', lq, h1, h2, h3⟩
    | exited =>
      obtain ⟨σ', h1, h2, h3⟩ := hinv.handler_exited hpc
      exact ⟨σ', lp, lq, h1, h2, h3⟩
  | main env =>
    cases hpc : σ.mpc with
    | start =>
      obtain ⟨σ', h1, h2, h3⟩ := hinv.main_start env hpc
      exact Or.inl ⟨σ', lp, lq, h1, h2, h3⟩
    | top =>
      obtain ⟨σ', h1, h2, h3⟩ := hinv.main_top env hpc
      exact Or.inl ⟨σ', lp, lq, h1, h2, h3⟩
    | captured =>
      rcases hinv.main_captured hsize env hpc hm with ⟨σ', lp', h1, h2, h3⟩ | ⟨h1, _⟩
      · exact Or.inl ⟨σ', lp', lq, h1, h2, h3⟩
      · exact Or.inr h1
    | acquired =>
      obtain ⟨σ', h1, h2, h3⟩ := hinv.main_acquired env hpc
      exact Or.inl ⟨σ', lp, lq, h1, h2, h3⟩
    | filled =>
      obtain ⟨σ', h1, h2, h3⟩ := hinv.main_filled env hpc
      exact Or.inl ⟨σ', lp, _, h1, h2, h3⟩
    | stopped =>
      obtain ⟨σ', h1, h2, h3⟩ := hinv.main_stopped env hpc
      exact Or.inl ⟨σ', lp, lq, h1, h2, h3⟩

/-- Every reachable state satisfies the invariant. -/
theorem Reach.inv {size : Nat} (hsize : size < 2 ^ 32) {σ : Sys} (hr : Reach size σ) :
    ∃ lp lq, Inv size σ lp lq := by
  induction hr with
  | init => exact ⟨[], [], Inv.init size⟩
  | step a _ hm hstep ih =>
    obtain ⟨lp, lq, hinv⟩ := ih
    rcases hinv.step hsize a hm with ⟨σ'', lp', lq', h1, h2, _⟩ | h1
    · rw [h1] at hstep
      cases hstep
      exact ⟨lp', lq', h2⟩
    · rw [h1] at hstep
      cases hstep

/-! ## Draining after the stop -/

/-- A step of the writer thread leaves `main`'s side alone. -/
theorem handler_step_main {σ σ' : Sys} (h : handler_step σ = .ok σ') :
    σ'.mpc = σ.mpc ∧ σ'.m = σ.m ∧ σ'.captured = σ.captured := by
  unfold handler_step at h
  cases hpc : σ.hpc <;> simp only [hpc] at h
  · simp only [pure_eq_ok, Except.ok.injEq] at h
    subst h
    exact ⟨rfl, rfl, rfl⟩
  · split_ifs at h
    · cases hp : handler_pop σ.g σ.h with
      | error e => simp [hp] at h
      | ok r =>
        simp only [hp, ok_bind, pure_eq_ok, Except.ok.injEq] at h
        subst h
        exact ⟨rfl, rfl, rfl⟩
    · simp only [pure_eq_ok, Except.ok.injEq] at h
      subst h
      exact ⟨rfl, rfl, rfl⟩
  · cases hp : handler_write σ.g σ.h with
    | error e => simp [hp] at h
    | ok r =>
      simp only [hp, ok_bind, pure_eq_ok, Except.ok.injEq] at h
      subst h
      exact ⟨rfl, rfl, rfl⟩
  · cases hp : handler_release σ.g σ.h with
    | error e => simp [hp] at h
    | ok r =>
      simp only [hp, ok_bind, pure_eq_ok, Except.ok.injEq] at h
      subst h
      exact ⟨rfl, rfl, rfl⟩
  · simp only [pure_eq_ok, Except.ok.injEq] at h
    subst h
    exact ⟨rfl, rfl, rfl⟩

theorem run_handler_succ (n : Nat) (σ σ' : Sys) (h : handler_step σ = .ok σ') :
    run (List.replicate (n + 1) Action.handler) σ = run (List.replicate n Action.handler) σ' := by
  simp [List.replicate_succ, run, step, h]

/-- With `main` stopped and the writer at its loop condition, writer steps
alone empty the queue and make the writer return. -/
theorem drain_from_top {size : Nat} : ∀ (lq : List Ptr) (σ : Sys) (lp : List Ptr),
    Inv size σ lp lq → σ.mpc = .stopped → σ.hpc = .top →
    ∃ n σ' lp', run (List.replicate n Action.handler) σ = .ok σ' ∧ Inv size σ' lp' [] ∧
      σ'.hpc = .exited ∧ σ'.g.exit_handler = 0 ∧ σ'.captured = σ.captured
  | [], σ, lp, hinv, hm, hh => by
    have hne : σ.hpc ≠ .exited := by rw [hh]; decide
    have hflag := hinv.stop_of_running hne hm
    have hfirst : σ.g.first = NULL := hinv.sys.queue.list
    have hc : handler_continues σ.g = false := by
      simp [handler_continues, hflag, hfirst]
    obtain ⟨σ', hstep, hinv', _, hexit, _⟩ := hinv.handler_top hh
    obtain ⟨h1, h2, _⟩ := hexit hc
    refine ⟨1, σ', lp, ?_, hinv', h1, h2, (handler_step_main hstep).2.2⟩
    rw [run_handler_succ 0 σ σ' hstep]
    rfl
  | a :: lq, σ, lp, hinv, hm, hh => by
    have hc : handler_continues σ.g = true := by
      obtain ⟨e1, n1, _⟩ := hinv.sys.queue.list
      have : σ.g.first ≠ NULL := e1 ▸ n1
      simp [handler_continues, this]
    obtain ⟨σ1, hstep1, hinv1, _, _, hpc1⟩ := hinv.handler_top hh
    have hh1 : σ1.hpc = .popped := by simpa using hpc1 hc
    obtain ⟨σ2, hstep2, hinv2, _, hh2, _⟩ := hinv1.handler_popped hh1
    obtain ⟨σ3, lp3, hstep3, hinv3, _, hh3, _⟩ := hinv2.handler_written hh2
    have hm1 := (handler_step_main hstep1)
    have hm2 := (handler_step_main hstep2)
    have hm3 := (handler_step_main hstep3)
    have hm' : σ3.mpc = .stopped := by rw [hm3.1, hm2.1, hm1.1, hm]
    obtain ⟨n, σ', lp', hrun, hinv', h1, h2, h3⟩ :=
      drain_from_top lq σ3 lp3 (by simpa using hinv3) hm' hh3
    refine ⟨n + 3, σ', lp', ?_, hinv', h1, h2, ?_⟩
    · rw [run_handler_succ (n + 2) σ σ1 hstep1, run_handler_succ (n + 1) σ1 σ2 hstep2,
        run_handler_succ n σ2 σ3 hstep3]
      exact hrun
    · rw [h3, hm3.2.2, hm2.2.2, hm1.2.2]

/-- With `main` stopped, writer steps alone make the writer return, wherever
it is. -/
theorem drain_from_any {size : Nat} {σ : Sys} {lp lq : List Ptr} (hinv : Inv size σ lp lq)
    (hm : σ.mpc = .stopped) :
    ∃ n σ' lp', run (List.replicate n Action.handler) σ = .ok σ' ∧ Inv size σ' lp' [] ∧
      σ'.hpc = .exited ∧ σ'.g.exit_handler = 0 ∧ σ'.captured = σ.captured := by
  cases hpc : σ.hpc with
  | start =>
    obtain ⟨σ1, hstep1, hinv1, _⟩ := hinv.handler_start hpc
    have hm1 := handler_step_main hstep1
    have hh1 : σ1.hpc = .top := by
      simp only [handler_step, hpc, pure_eq_ok, Except.ok.injEq] at hstep1
      rw [← hstep1]
    obtain ⟨n, σ', lp', hrun, hinv', h1, h2, h3⟩ :=
      drain_from_top lq σ1 lp hinv1 (by rw [hm1.1, hm]) hh1
    exact ⟨n + 1, σ', lp', by rw [run_handler_succ n σ σ1 hstep1]; exact hrun, hinv', h1, h2,
      by rw [h3, hm1.2.2]⟩
  | top => exact drain_from_top lq σ lp hinv hm hpc
  | popped =>
    obtain ⟨σ2, hstep2, hinv2, _, hh2, _⟩ := hinv.handler_popped hpc
    obtain ⟨σ3, lp3, hstep3, hinv3, _, hh3, _⟩ := hinv2.handler_written hh2
    have hm2 := handler_step_main hstep2
    have hm3 := handler_step_main hstep3
    obtain ⟨n, σ', lp', hrun, hinv', h1, h2, h3⟩ :=
      drain_from_top lq σ3 lp3 hinv3 (by rw [hm3.1, hm2.1, hm]) hh3
    refine ⟨n + 2, σ', lp', ?_, hinv', h1, h2, by rw [h3, hm3.2.2, hm2.2.2]⟩
    rw [run_handler_succ (n + 1) σ σ2 hstep2, run_handler_succ n σ2 σ3 hstep3]
    exact hrun
  | written =>
    obtain ⟨σ3, lp3, hstep3, hinv3, _, hh3, _⟩ := hinv.handler_written hpc
    have hm3 := handler_step_main hstep3
    obtain ⟨n, σ', lp', hrun, hinv', h1, h2, h3⟩ :=
      drain_from_top lq σ3 lp3 hinv3 (by rw [hm3.1, hm]) hh3
    refine ⟨n + 1, σ', lp', ?_, hinv', h1, h2, by rw [h3, hm3.2.2]⟩
    rw [run_handler_succ n σ σ3 hstep3]
    exact hrun
  | exited =>
    obtain ⟨_, hlq, hz⟩ := hinv.exited hpc
    subst hlq
    exact ⟨0, σ, lp, rfl, hinv, hpc, hz, rfl⟩

/-- Once the writer has returned, the sink holds exactly the captured frames. -/
theorem Inv.out_of_exited {size : Nat} {σ : Sys} {lp lq : List Ptr} (hinv : Inv size σ lp lq)
    (hpc : σ.hpc = .exited) : σ.g.out = σ.captured.flatten := by
  obtain ⟨hm, hlq, _⟩ := hinv.exited hpc
  have := hinv.stream
  simpa [streamOf, handlerPending, mainPending, hpc, hm, hlq] using this

/-- The sink always holds a prefix of the captured frames. -/
theorem Inv.out_prefix {size : Nat} {σ : Sys} {lp lq : List Ptr} (hinv : Inv size σ lp lq) :
    σ.g.out <+: σ.captured.flatten := by
  rw [← hinv.stream]
  simp only [streamOf, List.append_assoc]
  exact List.prefix_append _ _

/-! ## C4 and C5 -/

theorem Reach.of_run {size : Nat} : ∀ (as : List Action) (σ σ' : Sys),
    Reach size σ → RunOk as σ → run as σ = .ok σ' → Reach size σ'
  | [], σ, σ', hr, _, h => by
    simp only [run, pure_eq_ok, Except.ok.injEq] at h
    exact h ▸ hr
  | a :: as, σ, σ', hr, hok, h => by
    cases hs : Capture.step a σ with
    | error e => simp [run, hs] at h
    | ok σ1 =>
      simp only [run, hs, ok_bind] at h
      exact Reach.of_run as σ1 σ' (Reach.step a hr hok.1 hs) (hok.2 σ1 hs) h

set_option maxHeartbeats 1000000 in
theorem demoSchedule_run :
    run demoSchedule (Sys.init 2) = .ok demoFinal ∧ demoFinal.mpc = .stopped ∧
      demoFinal.captured = [[7, 8]] ∧ demoFinal.g.out = [] := by
  have h : ∃ σ, run demoSchedule (Sys.init 2) = .ok σ ∧ σ.mpc = .stopped ∧
      σ.captured = [[7, 8]] ∧ σ.g.out = [] := by
    simp [demoSchedule, run, step, main_step, handler_step, Sys.init, State.init, get_millis,
      new_timer, timer_is_done, timer_reset, XShmGetImage, demoEnv, handler_entry,
      handler_continues, handler_pop, pop_pixbuf, lock_b, unlock_b, lock_p, unlock_p,
      get_new_pixbuf, memcpy_frame, load, Heap.set, queue_pixbuf, store_next, catch_int, toInt,
      toSizeT, toUInt]
    norm_num
    decide
  obtain ⟨σ, h1, h2, h3, h4⟩ := h
  have hf : demoFinal = σ := by
    simp only [demoFinal, h1]
  rw [hf]
  exact ⟨h1, h2, h3, h4⟩

set_option maxHeartbeats 1000000 in
theorem demoSchedule_runOk : RunOk demoSchedule (Sys.init 2) := by
  have hq : (1000 : ℚ) / 29.976 ≤ 1000 := by norm_num
  simp [RunOk, MallocOk, demoSchedule, step, main_step, handler_step, Sys.init, State.init,
    get_millis, new_timer, timer_is_done, timer_reset, XShmGetImage, demoEnv, handler_entry,
    handler_continues, handler_pop, pop_pixbuf, lock_b, unlock_b, lock_p, unlock_p,
    get_new_pixbuf, memcpy_frame, load, Heap.set, queue_pixbuf, store_next, catch_int, toInt,
    toSizeT, toUInt, hq]

theorem demoFinal_reach : Reach 2 demoFinal :=
  Reach.of_run demoSchedule (Sys.init 2) demoFinal Reach.init demoSchedule_runOk
    demoSchedule_run.1

/-- C4: end-to-end stream correctness. In every state reachable by any
interleaving of the atomic steps of `main` (capture, `get_new_pixbuf`,
`memcpy`, `queue_pixbuf`), of `buf_handler` (`pop_pixbuf`, `write`,
`pixbuf_return_to_pool`) and of signal delivery: every captured frame has the
session size; the sink holds a prefix of the concatenation of the captured
frames; no step changes the bytes of a frame that is in the queue; once `main`
has left its loop after the stop request, steps of `buf_handler` alone make it
return with `exit_handler` cleared, and whenever `buf_handler` has returned the
sink holds exactly the concatenation, in capture order, of all captured
frames. -/
theorem stream_correct (size : Nat) (hsize : size < 2 ^ 32) (σ : Sys) (hr : Reach size σ) :
    (∀ f ∈ σ.captured, f.length = size) ∧
    σ.g.out <+: σ.captured.flatten ∧
    (σ.hpc = .exited → σ.g.out = σ.captured.flatten) ∧
    (σ.mpc = .stopped →
      ∃ n σ', run (List.replicate n Action.handler) σ = .ok σ' ∧ σ'.hpc = .exited ∧
        σ'.g.exit_handler = 0 ∧ σ'.g.first = NULL ∧ σ'.captured = σ.captured ∧
        σ'.g.out = σ.captured.flatten) ∧
    (∀ a σ', MallocOk a σ → step a σ = .ok σ' →
      ∀ lq, IsList σ.g.heap σ.g.first lq →
        ∀ x ∈ lq, frameBytes σ'.g.heap x = frameBytes σ.g.heap x) := by
  obtain ⟨lp, lq, hinv⟩ := hr.inv hsize
  refine ⟨hinv.frames, hinv.out_prefix, hinv.out_of_exited, fun hm => ?_, ?_⟩
  · obtain ⟨n, σ', lp', hrun, hinv', h1, h2, h3⟩ := drain_from_any hinv hm
    refine ⟨n, σ', hrun, h1, h2, hinv'.sys.queue.list, h3, ?_⟩
    rw [← h3]
    exact hinv'.out_of_exited h1
  · intro a σ' hm hstep lq' hlq'
    have hq : lq' = lq := hlq'.unique hinv.sys.queue.list
    subst hq
    rcases hinv.step hsize a hm with ⟨σ'', _, _, h1, _, h3⟩ | h1
    · rw [h1] at hstep
      cases hstep
      exact h3
    · rw [h1] at hstep
      cases hstep

theorem stream_correct_witness :
    ((2 : Nat) < 2 ^ 32 ∧ Reach 2 demoFinal ∧ demoFinal.mpc = .stopped) ∧
    demoFinal.captured = [[7, 8]] ∧
    ∃ n σ', run (List.replicate n Action.handler) demoFinal = .ok σ' ∧ σ'.hpc = .exited ∧
      σ'.g.exit_handler = 0 ∧ σ'.g.out = [7, 8] :=
  have hs : demoFinal.mpc = .stopped := demoSchedule_run.2.1
  have hc : demoFinal.captured = [[7, 8]] := demoSchedule_run.2.2.1
  ⟨⟨by decide, demoFinal_reach, hs⟩, hc,
    match (stream_correct 2 (by decide) demoFinal demoFinal_reach).2.2.2.1 hs with
    | ⟨n, σ', h1, h2, h3, _, _, h6⟩ => ⟨n, σ', h1, h2, h3, by rw [h6, hc]; rfl⟩⟩

/-- C5: buffer conservation. In every reachable state of the two threads the
free-list and the queue are null-terminated lists `lp` and `lq`; no buffer
occurs twice among the free-list, the queue and the two local slots (so none is
twice in the pool, twice in the queue, or in both); exactly these buffers are
allocated; their number plus the number of frees equals the number of
allocations; and every further action is defined (it returns, or is the
`exit(EXIT_FAILURE)` of a failed `malloc`), so no `free` is ever applied to a
buffer that is not allocated: no buffer is freed twice. -/
theorem buffer_conservation (size : Nat) (hsize : size < 2 ^ 32) (σ : Sys)
    (hr : Reach size σ) :
    (∃ lp lq,
      IsList σ.g.heap σ.g.pool_f lp ∧ IsList σ.g.heap σ.g.first lq ∧
      (lp ++ lq ++ (mainSlot σ ++ handlerSlot σ)).Nodup ∧
      (∀ a, (σ.g.heap a).isSome = true ↔ a ∈ lp ++ lq ++ (mainSlot σ ++ handlerSlot σ)) ∧
      lp.length + lq.length + (mainSlot σ ++ handlerSlot σ).length + σ.g.nfree = σ.g.nalloc) ∧
    (∀ a, MallocOk a σ →
      (∃ σ', step a σ = .ok σ' ∧ Reach size σ') ∨ step a σ = .error .exitFailure) := by
  obtain ⟨lp, lq, hinv⟩ := hr.inv hsize
  refine ⟨⟨lp, lq, hinv.sys.pool.list, hinv.sys.queue.list, hinv.sys.nodup, hinv.sys.live, ?_⟩,
    fun a hm => ?_⟩
  · have := hinv.sys.alloc
    simp only [List.length_append] at this ⊢
    omega
  · rcases hinv.step hsize a hm with ⟨σ', _, _, h1, _, _⟩ | h1
    · exact Or.inl ⟨σ', h1, Reach.step a hr hm h1⟩
    · exact Or.inr h1

theorem buffer_conservation_witness :
    ((2 : Nat) < 2 ^ 32 ∧ Reach 2 demoFinal) ∧
    (∃ lp lq,
      IsList demoFinal.g.heap demoFinal.g.pool_f lp ∧
      IsList demoFinal.g.heap demoFinal.g.first lq ∧
      (lp ++ lq ++ (mainSlot demoFinal ++ handlerSlot demoFinal)).Nodup ∧
      (∀ a, (demoFinal.g.heap a).isSome = true ↔
        a ∈ lp ++ lq ++ (mainSlot demoFinal ++ handlerSlot demoFinal)) ∧
      lp.length + lq.length + (mainSlot demoFinal ++ handlerSlot demoFinal).length +
        demoFinal.g.nfree = demoFinal.g.nalloc) ∧
    ((∃ σ', step Action.handler demoFinal = .ok σ' ∧ Reach 2 σ') ∨
      step Action.handler demoFinal = .error .exitFailure) :=
  have h := buffer_conservation 2 (by decide) demoFinal demoFinal_reach
  ⟨⟨by decide, demoFinal_reach⟩, h.1, h.2 Action.handler trivial⟩

/-! ## Teardown of the lists -/

/-- The loop of `free_pool` on a non-empty free-list: after the last buffer is
freed, `p` is `NULL` and `p = p->next` dereferences it. -/
theorem free_pool_loop_ub : ∀ (l : List Ptr) (s : State) (a : Ptr) (ba : pixbuf) (fuel : Nat),
    IsList s.heap s.pool_f (a :: l) → (a :: l).Nodup → s.heap a = some ba →
    (a :: l).length ≤ fuel → free_pool_loop fuel ba.next s = .error .ub
  | [], s, a, ba, fuel, hl, _, hba, hfuel => by
    obtain ⟨e1, n1, b, hb, t1⟩ := hl
    have hbb : b = ba := Option.some.inj (hb.symm.trans hba)
    subst hbb
    have hn : b.next = NULL := t1
    obtain ⟨k, hk⟩ : ∃ k, fuel = k + 1 := ⟨fuel - 1, by simp at hfuel; omega⟩
    subst hk
    have hf : s.pool_f ≠ NULL := e1 ▸ n1
    rw [hn]
    simp [free_pool_loop, hf, free_pixbuf, load, e1, n1, hb]
  | c :: l, s, a, ba, fuel, hl, hnd, hba, hfuel => by
    obtain ⟨e1, n1, b, hb, t1⟩ := hl
    have hbb : b = ba := Option.some.inj (hb.symm.trans hba)
    subst hbb
    obtain ⟨e2, n2, bc, hbc, t2⟩ := t1
    obtain ⟨k, hk⟩ : ∃ k, fuel = k + 1 := ⟨fuel - 1, by simp at hfuel; omega⟩
    subst hk
    have hf : s.pool_f ≠ NULL := e1 ▸ n1
    have hca : c ≠ a := fun e => (List.nodup_cons.mp hnd).1 (e ▸ List.mem_cons_self _ _)
    have hrest : ∀ x ∈ c :: l, x ≠ a := fun x hx e => (List.nodup_cons.mp hnd).1 (e ▸ hx)
    have hlist : IsList (s.heap.set a none) c (c :: l) :=
      IsList.frame (show IsList s.heap c (c :: l) from ⟨rfl, n2, bc, hbc, t2⟩)
        (fun x hx => Heap.set_other _ _ _ _ (hrest x hx))
    have hbc' : (s.heap.set a none) c = some bc := by
      rw [Heap.set_other _ _ _ _ hca]
      exact hbc
    have ih := free_pool_loop_ub l
      { s with heap := s.heap.set a none, nfree := s.nfree + 1, pool_f := c } c bc k hlist
      (List.nodup_cons.mp hnd).2 hbc' (by simp at hfuel ⊢; omega)
    rw [e2]
    simp only [free_pool_loop, hf, ne_eq, not_false_eq_true, if_true, free_pixbuf, load, e1, n1,
      if_false, hb, ok_bind, n2, hbc']
    exact ih

/-- The loop of `free_bufs` on a non-empty queue: the same dereference. -/
theorem free_bufs_loop_ub : ∀ (l : List Ptr) (s : State) (a : Ptr) (ba : pixbuf) (fuel : Nat),
    IsList s.heap s.first (a :: l) → (a :: l).Nodup → s.heap a = some ba →
    (a :: l).length ≤ fuel → free_bufs_loop fuel ba.next s = .error .ub
  | [], s, a, ba, fuel, hl, _, hba, hfuel => by
    obtain ⟨e1, n1, b, hb, t1⟩ := hl
    have hbb : b = ba := Option.some.inj (hb.symm.trans hba)
    subst hbb
    have hn : b.next = NULL := t1
    obtain ⟨k, hk⟩ : ∃ k, fuel = k + 1 := ⟨fuel - 1, by simp at hfuel; omega⟩
    subst hk
    have hf : s.first ≠ NULL := e1 ▸ n1
    rw [hn]
    simp [free_bufs_loop, hf, free_pixbuf, load, e1, n1, hb]
  | c :: l, s, a, ba, fuel, hl, hnd, hba, hfuel => by
    obtain ⟨e1, n1, b, hb, t1⟩ := hl
    have hbb : b = ba := Option.some.inj (hb.symm.trans hba)
    subst hbb
    obtain ⟨e2, n2, bc, hbc, t2⟩ := t1
    obtain ⟨k, hk⟩ : ∃ k, fuel = k + 1 := ⟨fuel - 1, by simp at hfuel; omega⟩
    subst hk
    have hf : s.first ≠ NULL := e1 ▸ n1
    have hca : c ≠ a := fun e => (List.nodup_cons.mp hnd).1 (e ▸ List.mem_cons_self _ _)
    have hrest : ∀ x ∈ c :: l, x ≠ a := fun x hx e => (List.nodup_cons.mp hnd).1 (e ▸ hx)
    have hlist : IsList (s.heap.set a none) c (c :: l) :=
      IsList.frame (show IsList s.heap c (c :: l) from ⟨rfl, n2, bc, hbc, t2⟩)
        (fun x hx => Heap.set_other _ _ _ _ (hrest x hx))
    have hbc' : (s.heap.set a none) c = some bc := by
      rw [Heap.set_other _ _ _ _ hca]
      exact hbc
    have ih := free_bufs_loop_ub l
      { s with heap := s.heap.set a none, nfree := s.nfree + 1, first := c } c bc k hlist
      (List.nodup_cons.mp hnd).2 hbc' (by simp at hfuel ⊢; omega)
    rw [e2]
    simp only [free_bufs_loop, hf, ne_eq, not_false_eq_true, if_true, free_pixbuf, load, e1, n1,
      if_false, hb, ok_bind, n2, hbc']
    exact ih

/-- C11 (the code departs from the claim): on every non-empty well-formed
free-list `free_pool`, given fuel for all its buffers, ends in undefined
behaviour: having freed the last buffer it executes `p = p->next` with `p`
equal to `NULL`, and never reaches its unlock. `free_bufs` does the same on
every non-empty queue. -/
theorem teardown_null_deref (s : State) (l : List Ptr) (fuel : Nat)
    (hne : l ≠ []) (hfuel : l.length ≤ fuel) :
    (PoolIs s l → s.p_lock = false → free_pool fuel s = .error .ub) ∧
    (QueueIs s l → s.b_lock = false → free_bufs fuel s = .error .ub) := by
  cases l with
  | nil => exact absurd rfl hne
  | cons a l =>
    constructor
    · intro hp hlock
      obtain ⟨e1, n1, ba, hba, t1⟩ := hp.list
      have hf : s.pool_f ≠ NULL := e1 ▸ n1
      have hloop := free_pool_loop_ub l
        { s with p_lock := true, locklog := s.locklog ++ [.acq .p_lock] } a ba fuel
        ⟨e1, n1, ba, hba, t1⟩ hp.nodup hba hfuel
      have hba' : s.heap s.pool_f = some ba := e1.symm ▸ hba
      simp only [free_pool, lock_p, hlock, Bool.false_eq_true, if_false, ok_bind, hf, load,
        hba', ne_eq, not_false_eq_true, if_true]
      rw [hloop]
      rfl
    · intro hq hlock
      obtain ⟨e1, n1, ba, hba, t1⟩ := hq.list
      have hf : s.first ≠ NULL := e1 ▸ n1
      have hloop := free_bufs_loop_ub l
        { s with b_lock := true, locklog := s.locklog ++ [.acq .b_lock] } a ba fuel
        ⟨e1, n1, ba, hba, t1⟩ hq.nodup hba hfuel
      have hba' : s.heap s.first = some ba := e1.symm ▸ hba
      simp only [free_bufs, lock_b, hlock, Bool.false_eq_true, if_false, ok_bind, hf, load,
        hba', ne_eq, not_false_eq_true, if_true]
      rw [hloop]
      rfl

theorem teardown_null_deref_witness :
    (([1, 2] : List Ptr) ≠ [] ∧ ([1, 2] : List Ptr).length ≤ 2 ∧
      PoolIs demoPoolState [1, 2] ∧ demoPoolState.p_lock = false ∧
      QueueIs demoQueueState [1, 2] ∧ demoQueueState.b_lock = false) ∧
    free_pool 2 demoPoolState = .error .ub ∧ free_bufs 2 demoQueueState = .error .ub :=
  ⟨⟨by decide, by decide, demoPoolState_poolIs, rfl, demoQueueState_queueIs, rfl⟩,
    (teardown_null_deref demoPoolState [1, 2] 2 (by decide) (by decide)).1
      demoPoolState_poolIs rfl,
    (teardown_null_deref demoQueueState [1, 2] 2 (by decide) (by decide)).2
      demoQueueState_queueIs rfl⟩

/-! ## The signal handler -/

/-- C12: `catch_int` changes nothing but the stop flag of the capture loop. The
heap, the queue (`first`, `last`, `queuesize`), the pool (`pool_f`, `pool_l`,
`poolsize`) and the writer's stop flag `exit_handler` are as before, and so is
everything else; `exit_main` is 1 when the signal is `SIGINT` and keeps its
value for any other signal. -/
theorem catch_int_frame (sig : Int) (s : State) :
    (catch_int sig s).heap = s.heap ∧
    (catch_int sig s).first = s.first ∧ (catch_int sig s).last = s.last ∧
    (catch_int sig s).queuesize = s.queuesize ∧
    (catch_int sig s).pool_f = s.pool_f ∧ (catch_int sig s).pool_l = s.pool_l ∧
    (catch_int sig s).poolsize = s.poolsize ∧
    (catch_int sig s).exit_handler = s.exit_handler ∧
    (catch_int sig s).exit_main = (if sig = SIGINT then 1 else s.exit_main) ∧
    catch_int sig s = { s with exit_main := (catch_int sig s).exit_main } := by
  unfold catch_int SIGINT
  split_ifs <;> exact ⟨rfl, rfl, rfl, rfl, rfl, rfl, rfl, rfl, rfl, rfl⟩

/-! ## The rate counters -/

theorem countSince_reset (r c : Mark) (ms : List Mark) : countSince r c (ms ++ [r]) = 0 := by
  simp [countSince, List.takeWhile]

theorem countSince_count (r c : Mark) (ms : List Mark) (h : c ≠ r) :
    countSince r c (ms ++ [c]) = countSince r c ms + 1 := by
  simp [countSince, List.takeWhile, h]

theorem countSince_other (r c x : Mark) (ms : List Mark) (hr : x ≠ r) (hc : x ≠ c) :
    countSince r c (ms ++ [x]) = countSince r c ms := by
  simp [countSince, List.takeWhile, hr, List.count_cons, hc]

theorem pop_pixbuf_fwps {s s' : State} {p : Ptr} (h : pop_pixbuf s = .ok (p, s')) :
    s'.fwps = s.fwps := by
  unfold pop_pixbuf lock_b at h
  by_cases hb : s.b_lock = true
  · simp [hb] at h
  · simp only [hb, Bool.false_eq_true, if_false, ok_bind] at h
    by_cases hf : s.first = NULL
    · simp [hf, unlock_b] at h
      rw [← h.2]
    · simp only [ne_eq, hf, not_false_eq_true, if_true, load, if_false] at h
      cases hh : s.heap s.first with
      | none => simp [hh] at h
      | some b =>
        simp only [hh, ok_bind, pure_eq_ok, unlock_b] at h
        split_ifs at h <;> simp at h <;> rw [← h.2]

/-- The effect of the first part of the writer's loop body on the counters. -/
theorem handler_pop_counters {s s' : State} {l l' : HandlerLocals}
    (h : handler_pop s l = .ok (s', l')) :
    l'.fcnt = (if timer_is_done l.fwps_t s ≠ 0 then 0 else l.fcnt) ∧
    (timer_is_done l.fwps_t s ≠ 0 → s'.fwps = l.fcnt) := by
  unfold handler_pop at h
  by_cases hd : timer_is_done l.fwps_t s = 0
  · rw [if_neg (not_not.mpr hd)] at h
    rw [if_neg (not_not.mpr hd)]
    cases hp : pop_pixbuf s with
    | error e => simp [hp] at h
    | ok r =>
      simp only [hp, ok_bind, pure_eq_ok, Except.ok.injEq, Prod.mk.injEq] at h
      rw [← h.2]
      exact ⟨rfl, fun h0 => absurd hd h0⟩
  · rw [if_pos hd] at h
    rw [if_pos hd]
    cases hp : pop_pixbuf { s with fwps := l.fcnt } with
    | error e =>
      simp only [ok_bind] at h
      rw [hp] at h
      simp at h
    | ok r =>
      obtain ⟨p, g⟩ := r
      have hw := pop_pixbuf_fwps hp
      simp only [ok_bind] at h
      rw [hp] at h
      simp only [ok_bind, pure_eq_ok, Except.ok.injEq, Prod.mk.injEq] at h
      rw [← h.2, ← h.1]
      exact ⟨rfl, fun _ => hw⟩

/-- The effect of a step of `main` on the counters. -/
theorem main_step_counters {env : Env} {σ σ' : Sys} (h : main_step env σ = .ok σ') :
    σ'.h = σ.h ∧ σ'.hpc = σ.hpc ∧ σ'.mpc ≠ .start ∧
    σ'.m.fcnt =
      (match σ.mpc with
        | .start => 0
        | .top =>
          if σ.g.exit_main = 0 ∧
              timer_is_done σ.m.main_t (get_millis env.tv_sec env.tv_nsec σ.g) ≠ 0 then 0
          else σ.m.fcnt
        | .filled => σ.m.fcnt + 1
        | _ => σ.m.fcnt) := by
  unfold main_step at h
  cases hpc : σ.mpc <;> simp only [hpc] at h
  · simp only [pure_eq_ok, Except.ok.injEq] at h
    subst h
    exact ⟨rfl, rfl, by simp, rfl⟩
  · by_cases he : σ.g.exit_main = 0
    · simp only [he, ne_eq, not_true_eq_false, if_false, true_and] at h ⊢
      by_cases hd : timer_is_done σ.m.main_t (get_millis env.tv_sec env.tv_nsec σ.g) = 0
      · simp only [hd, not_true_eq_false, if_false] at h ⊢
        split_ifs at h <;>
          · simp only [pure_eq_ok, Except.ok.injEq] at h
            subst h
            exact ⟨rfl, rfl, by simp, rfl⟩
      · simp only [hd, not_false_eq_true, if_true] at h ⊢
        split_ifs at h <;>
          · simp only [pure_eq_ok, Except.ok.injEq] at h
            subst h
            exact ⟨rfl, rfl, by simp, rfl⟩
    · simp only [ne_eq, he, not_false_eq_true, if_true, pure_eq_ok, Except.ok.injEq] at h
      subst h
      exact ⟨rfl, rfl, by simp, by simp [he]⟩
  · cases hp : get_new_pixbuf (toInt σ.m.size) env.malloc σ.g with
    | error e => simp [hp] at h
    | ok r =>
      simp only [hp, ok_bind, pure_eq_ok, Except.ok.injEq] at h
      subst h
      exact ⟨rfl, rfl, by simp, rfl⟩
  · cases hp : memcpy_frame σ.m.p σ.m.size σ.g with
    | error e => simp [hp] at h
    | ok r =>
      simp only [hp, ok_bind, pure_eq_ok, Except.ok.injEq] at h
      subst h
      exact ⟨rfl, rfl, by simp, rfl⟩
  · cases hp : queue_pixbuf σ.m.p σ.g with
    | error e => simp [hp] at h
    | ok r =>
      simp only [hp, ok_bind, pure_eq_ok, Except.ok.injEq] at h
      subst h
      exact ⟨rfl, rfl, by simp, rfl⟩
  · simp only [pure_eq_ok, Except.ok.injEq] at h
    subst h
    exact ⟨rfl, rfl, by simp [hpc], rfl⟩

/-- The effect of a step of `buf_handler` on the counters. -/
theorem handler_step_counters {σ σ' : Sys} (h : handler_step σ = .ok σ') :
    σ'.hpc ≠ .start ∧
    σ'.h.fcnt =
      (match σ.hpc with
        | .start => 0
        | .top =>
          if handler_continues σ.g = true ∧ timer_is_done σ.h.fwps_t σ.g ≠ 0 then 0
          else σ.h.fcnt
        | .popped => σ.h.fcnt + 1
        | _ => σ.h.fcnt) ∧
    (σ.hpc = .top → handler_continues σ.g = true → timer_is_done σ.h.fwps_t σ.g ≠ 0 →
      σ'.g.fwps = σ.h.fcnt) := by
  unfold handler_step at h
  cases hpc : σ.hpc <;> simp only [hpc] at h
  · simp only [pure_eq_ok, Except.ok.injEq] at h
    subst h
    exact ⟨by simp, rfl, fun h0 => (by cases h0)⟩
  · by_cases hc : handler_continues σ.g = true
    · simp only [hc, if_true, true_and] at h ⊢
      cases hp : handler_pop σ.g σ.h with
      | error e => simp [hp] at h
      | ok r =>
        obtain ⟨g, l⟩ := r
        have hw := handler_pop_counters hp
        simp only [hp, ok_bind, pure_eq_ok, Except.ok.injEq] at h
        subst h
        refine ⟨?_, hw.1, fun _ _ hd => hw.2 hd⟩
        dsimp only
        split_ifs <;> simp
    · simp only [hc, Bool.false_eq_true, if_false, pure_eq_ok, Except.ok.injEq, false_and] at h ⊢
      subst h
      exact ⟨by simp, rfl, fun _ h0 => absurd h0 (by simp)⟩
  · cases hp : handler_write σ.g σ.h with
    | error e => simp [hp] at h
    | ok r =>
      have hw : r.2.fcnt = σ.h.fcnt + 1 := by
        unfold handler_write at hp
        cases hwr : write_stdout σ.h.p σ.g with
        | error e => simp [hwr] at hp
        | ok g =>
          simp only [hwr, ok_bind, pure_eq_ok, Except.ok.injEq] at hp
          rw [← hp]
      simp only [hp, ok_bind, pure_eq_ok, Except.ok.injEq] at h
      subst h
      exact ⟨by simp, hw, fun h0 => (by cases h0)⟩
  · cases hp : handler_release σ.g σ.h with
    | error e => simp [hp] at h
    | ok r =>
      have hw : r.2.fcnt = σ.h.fcnt := by
        unfold handler_release at hp
        cases hwr : pixbuf_return_to_pool σ.h.p σ.g with
        | error e => simp [hwr] at hp
        | ok g =>
          simp only [hwr, ok_bind, pure_eq_ok, Except.ok.injEq] at hp
          rw [← hp]
      simp only [hp, ok_bind, pure_eq_ok, Except.ok.injEq] at h
      subst h
      exact ⟨by simp, hw, fun h0 => (by cases h0)⟩
  · simp only [pure_eq_ok, Except.ok.injEq] at h
    subst h
    exact ⟨by simp [hpc], rfl, fun h0 => (by cases h0)⟩

/-- Every atomic action keeps the counters in step with the marks. -/
theorem CounterInv.after_step {σ σ' : Sys} {ms : List Mark} {n : Nat} (a : Action)
    (hj : CounterInv σ ms n) (h : Capture.step a σ = .ok σ') :
    CounterInv σ' (ms ++ marks a σ) (n + 1) := by
  obtain ⟨h1, h2, h3, h4, h5, h6⟩ := hj
  cases a with
  | main env =>
    obtain ⟨e1, e2, e3, e4⟩ := main_step_counters (show main_step env σ = .ok σ' from h)
    unfold CounterInv
    rw [e1, e2, e4]
    refine ⟨?_, ?_, fun h0 => absurd h0 e3, h4, ?_, by omega⟩
    · cases hpc : σ.mpc <;> simp only [marks, hpc, List.append_nil]
      · rw [← h1]
        exact (h3 hpc).symm
      · split_ifs
        · rw [countSince_reset]
          rfl
        · rw [List.append_nil]
          exact h1
      · exact h1
      · exact h1
      · rw [countSince_count _ _ _ (by decide), h1]
        push_cast
        rfl
      · exact h1
    · cases hpc : σ.mpc <;> simp only [marks, hpc, List.append_nil]
      · exact h2
      · split_ifs
        · rw [countSince_other _ _ _ _ (by decide) (by decide)]
          exact h2
        · rw [List.append_nil]
          exact h2
      · exact h2
      · exact h2
      · rw [countSince_other _ _ _ _ (by decide) (by decide)]
        exact h2
      · exact h2
    · cases hpc : σ.mpc <;> simp only [hpc]
      · omega
      · split_ifs <;> omega
      · omega
      · omega
      · omega
      · omega
  | handler =>
    obtain ⟨e1, e2, e3⟩ := handler_step_main (show handler_step σ = .ok σ' from h)
    obtain ⟨f1, f2, _⟩ := handler_step_counters (show handler_step σ = .ok σ' from h)
    unfold CounterInv
    rw [e1, e2, f2]
    refine ⟨?_, ?_, h3, fun h0 => absurd h0 f1, by omega, ?_⟩
    · cases hpc : σ.hpc <;> simp only [marks, hpc, List.append_nil]
      · exact h1
      · split_ifs
        · rw [countSince_other _ _ _ _ (by decide) (by decide)]
          exact h1
        · rw [List.append_nil]
          exact h1
      · rw [countSince_other _ _ _ _ (by decide) (by decide)]
        exact h1
      · exact h1
      · exact h1
    · cases hpc : σ.hpc <;> simp only [marks, hpc, List.append_nil]
      · rw [← h2]
        exact (h4 hpc).symm
      · split_ifs
        · rw [countSince_reset]
          rfl
        · rw [List.append_nil]
          exact h2
      · rw [countSince_count _ _ _ (by decide), h2]
        push_cast
        rfl
      · exact h2
      · exact h2
    · cases hpc : σ.hpc <;> simp only [hpc]
      · omega
      · split_ifs <;> omega
      · omega
      · omega
      · omega
  | signal sig =>
    simp only [Capture.step, pure_eq_ok, Except.ok.injEq] at h
    subst h
    simp only [marks, List.append_nil]
    have h5' : σ.m.fcnt ≤ ((n + 1 : Nat) : Int) := by omega
    have h6' : σ.h.fcnt ≤ ((n + 1 : Nat) : Int) := by omega
    exact ⟨h1, h2, h3, h4, h5', h6'⟩

/-- Along every schedule the counters agree with the marks of the run. -/
theorem CounterInv.after_run : ∀ (as : List Action) (σ σ' : Sys) (ms : List Mark) (n : Nat),
    CounterInv σ ms n → Capture.run as σ = .ok σ' →
    CounterInv σ' (ms ++ runMarks as σ) (n + as.length)
  | [], σ, σ', ms, n, hj, h => by
    simp only [Capture.run, pure_eq_ok, Except.ok.injEq] at h
    subst h
    simpa [runMarks] using hj
  | a :: as, σ, σ', ms, n, hj, h => by
    simp only [Capture.run] at h
    cases hs : Capture.step a σ with
    | error e => simp [hs] at h
    | ok σ1 =>
      simp only [hs, ok_bind] at h
      have ih := CounterInv.after_run as σ1 σ' (ms ++ marks a σ) (n + 1) (hj.after_step a hs) h
      simp only [runMarks, hs, List.length_cons]
      rw [← List.append_assoc, show n + (as.length + 1) = n + 1 + as.length by omega]
      exact ih

theorem CounterInv.at_start (size : Nat) : CounterInv (Sys.init size) [] 0 :=
  ⟨rfl, rfl, fun _ => rfl, fun _ => rfl, le_refl _, le_refl _⟩

/-- C13: the rate counters. In the state after any schedule of atomic actions
from the program start, the counter `fcnt` of `main` and the counter `fcnt` of
`buf_handler` are not negative and not above the number of actions taken;
`main`'s counter is the number of captures completed (`fcnt++`) since the last
loop iteration at which `main_t` was due, the writer's counter the number of
frames written since the last iteration at which `fwps_t` was due; the next
iteration of `main`'s loop, if `main_t` is due, sets its counter to 0, and the
next iteration of the writer's loop, if `fwps_t` is due, stores the counter in
`fwps` and sets it to 0. -/
theorem rate_counters (size : Nat) (as : List Action) (σ : Sys)
    (hrun : run as (Sys.init size) = .ok σ) :
    (0 ≤ σ.m.fcnt ∧ σ.m.fcnt ≤ as.length) ∧ (0 ≤ σ.h.fcnt ∧ σ.h.fcnt ≤ as.length) ∧
    σ.m.fcnt = countSince .mainReset .captured (runMarks as (Sys.init size)) ∧
    σ.h.fcnt = countSince .handlerReset .written (runMarks as (Sys.init size)) ∧
    (∀ env σ', step (.main env) σ = .ok σ' → σ.mpc = .top → σ.g.exit_main = 0 →
      timer_is_done σ.m.main_t (get_millis env.tv_sec env.tv_nsec σ.g) ≠ 0 →
      σ'.m.fcnt = 0) ∧
    (∀ σ', step .handler σ = .ok σ' → σ.hpc = .top → handler_continues σ.g = true →
      timer_is_done σ.h.fwps_t σ.g ≠ 0 → σ'.g.fwps = σ.h.fcnt ∧ σ'.h.fcnt = 0) := by
  have hj := CounterInv.after_run as (Sys.init size) σ [] 0 (CounterInv.at_start size) hrun
  rw [List.nil_append, Nat.zero_add] at hj
  obtain ⟨h1, h2, _, _, h5, h6⟩ := hj
  refine ⟨⟨by rw [h1]; exact Int.natCast_nonneg _, h5⟩,
    ⟨by rw [h2]; exact Int.natCast_nonneg _, h6⟩, h1, h2, ?_, ?_⟩
  · intro env σ' hs hpc he hd
    have e4 := (main_step_counters (show main_step env σ = .ok σ' from hs)).2.2.2
    rw [e4]
    simp only [hpc]
    rw [if_pos ⟨he, hd⟩]
  · intro σ' hs hpc hc hd
    obtain ⟨_, f2, f3⟩ := handler_step_counters (show handler_step σ = .ok σ' from hs)
    refine ⟨f3 hpc hc hd, ?_⟩
    rw [f2]
    simp only [hpc]
    rw [if_pos ⟨hc, hd⟩]

theorem rate_counters_witness :
    run demoSchedule (Sys.init 2) = .ok demoFinal ∧
    (0 ≤ demoFinal.m.fcnt ∧ demoFinal.m.fcnt ≤ demoSchedule.length) ∧
    (0 ≤ demoFinal.h.fcnt ∧ demoFinal.h.fcnt ≤ demoSchedule.length) ∧
    demoFinal.m.fcnt = countSince .mainReset .captured (runMarks demoSchedule (Sys.init 2)) ∧
    demoFinal.h.fcnt = countSince .handlerReset .written (runMarks demoSchedule (Sys.init 2)) :=
  have h := rate_counters 2 demoSchedule demoFinal demoSchedule_run.1
  ⟨demoSchedule_run.1, h.1, h.2.1, h.2.2.1, h.2.2.2.1⟩

/-! ## Captures with a stalled sink -/

/-- One capture: the buffer comes from the head of the pool, or from the
allocator if the pool is empty, and goes to the end of the queue. -/
theorem capture_frame_spec {size : Nat} {s : State} {lp lq slots : List Ptr}
    (hses : Session size s lp lq slots) (hsize : size < 2 ^ 32) (env : Env)
    (hm : s.pool_f = NULL →
      ∃ a g, env.malloc = ⟨some a, some g⟩ ∧ a ≠ NULL ∧ s.heap a = none) :
    ∃ s' b, capture_frame size env s = .ok s' ∧ Session size s' lp.tail (lq ++ [b]) slots ∧
      s'.nfree = s.nfree ∧
      (lp ≠ [] → lp.head? = some b ∧ s'.nalloc = s.nalloc) ∧
      (lp = [] → s.heap b = none ∧ s'.nalloc = s.nalloc + 1) := by
  have hinv0 : SysInv (XShmGetImage env.frame s) lp lq slots :=
    hses.sys.of_eq rfl rfl rfl rfl rfl rfl rfl rfl rfl rfl rfl
  have himg0 : (XShmGetImage env.frame s).img.length = size := by
    simp [XShmGetImage, hses.img]
  cases lp with
  | cons a lp' =>
    obtain ⟨ba, hba, ha0, hrun, hinv1⟩ := hinv0.acquire_cons (toInt size) env.malloc
    obtain ⟨hbs, hbl⟩ := hses.sizes a ba hba
    have hlen : ((XShmGetImage env.frame s).img.take size ++ ba.data.drop size).length =
        ba.data.length := by
      simp only [List.length_append, List.length_take, List.length_drop, himg0]
      omega
    have hrun2 : memcpy_frame a size { XShmGetImage env.frame s with
          pool_f := ba.next, poolsize := (XShmGetImage env.frame s).poolsize - 1,
          p_lock := false,
          locklog := (XShmGetImage env.frame s).locklog ++ [.acq .p_lock, .rel .p_lock] } =
        .ok { XShmGetImage env.frame s with
          heap := (XShmGetImage env.frame s).heap.set a (some { ba with
            data := (XShmGetImage env.frame s).img.take size ++ ba.data.drop size }),
          pool_f := ba.next, poolsize := (XShmGetImage env.frame s).poolsize - 1,
          p_lock := false,
          locklog := (XShmGetImage env.frame s).locklog ++ [.acq .p_lock, .rel .p_lock] } := by
      have hba' : (XShmGetImage env.frame s).heap a = some ba := hba
      have h2 : size ≤ (XShmGetImage env.frame s).img.length := by rw [himg0]
      simp [memcpy_frame, load, ha0, hba', hbl, h2]
    have hfit : ({ ba with
        data := (XShmGetImage env.frame s).img.take size ++ ba.data.drop size } : pixbuf).size ≤
        ({ ba with data := (XShmGetImage env.frame s).img.take size ++
          ba.data.drop size } : pixbuf).data.length := by
      simp only [hlen]
      omega
    have hinv2 := hinv1.set_slot (List.mem_cons_self a slots) hfit
    obtain ⟨h', hrun3, hpay, hinv3⟩ := hinv2.push (List.mem_cons_self a slots)
    rw [List.erase_cons_head] at hinv3
    refine ⟨_, a, by simp only [capture_frame, hrun, ok_bind, hrun2]; exact hrun3,
      ⟨hinv3, ?_, himg0⟩, rfl, fun _ => ⟨rfl, rfl⟩, fun h => (by cases h)⟩
    refine sizes_of_payload hpay (fun x b hb => ?_)
    by_cases hxa : x = a
    · subst hxa
      simp only [Heap.set_same, Option.some.injEq] at hb
      subst hb
      simp only [hlen]
      exact ⟨hbs, hbl⟩
    · simp only [Heap.set, hxa, if_false] at hb
      exact hses.sizes x b hb
  | nil =>
    obtain ⟨a, g, hmal, ha0, hfresh⟩ := hm hses.sys.pool.list
    obtain ⟨hrun, hinv1⟩ := hinv0.acquire_nil (toInt size) a g ha0 hfresh
    obtain ⟨hrt1, hrt2⟩ := toInt_roundtrip hsize
    have hlen : ((XShmGetImage env.frame s).img.take size ++
        ((List.range (toSizeT (toInt size))).map g).drop size).length =
        toSizeT (toInt size) := by
      simp only [List.length_append, List.length_take, List.length_drop, himg0,
        List.length_map, List.length_range]
      omega
    have hrun2 : memcpy_frame a size { XShmGetImage env.frame s with
          heap := (XShmGetImage env.frame s).heap.set a (some {
            data := (List.range (toSizeT (toInt size))).map g
            size := toUInt (toInt size), next := NULL }),
          nalloc := (XShmGetImage env.frame s).nalloc + 1, p_lock := false,
          locklog := (XShmGetImage env.frame s).locklog ++ [.acq .p_lock, .rel .p_lock] } =
        .ok { XShmGetImage env.frame s with
          heap := ((XShmGetImage env.frame s).heap.set a (some {
            data := (List.range (toSizeT (toInt size))).map g
            size := toUInt (toInt size), next := NULL })).set a (some {
              data := (XShmGetImage env.frame s).img.take size ++
                ((List.range (toSizeT (toInt size))).map g).drop size,
              size := toUInt (toInt size), next := NULL }),
          nalloc := (XShmGetImage env.frame s).nalloc + 1, p_lock := false,
          locklog := (XShmGetImage env.frame s).locklog ++ [.acq .p_lock, .rel .p_lock] } := by
      have h2 : size ≤ (XShmGetImage env.frame s).img.length := by rw [himg0]
      simp [memcpy_frame, load, ha0, hrt2, h2]
    have hfit : ({
          data := (XShmGetImage env.frame s).img.take size ++
            ((List.range (toSizeT (toInt size))).map g).drop size,
          size := toUInt (toInt size), next := NULL } : pixbuf).size ≤
        ({
          data := (XShmGetImage env.frame s).img.take size ++
            ((List.range (toSizeT (toInt size))).map g).drop size,
          size := toUInt (toInt size), next := NULL } : pixbuf).data.length := by
      simp only [hlen, hrt1]
      exact hrt2
    have hinv2 := hinv1.set_slot (List.mem_cons_self a slots) hfit
    obtain ⟨h', hrun3, hpay, hinv3⟩ := hinv2.push (List.mem_cons_self a slots)
    rw [List.erase_cons_head] at hinv3
    refine ⟨_, a, by simp only [capture_frame, hmal, hrun, ok_bind, hrun2]; exact hrun3,
      ⟨hinv3, ?_, himg0⟩, rfl, fun h => absurd rfl h, fun _ => ⟨hfresh, rfl⟩⟩
    refine sizes_of_payload hpay (fun x b hb => ?_)
    by_cases hxa : x = a
    · subst hxa
      simp only [Heap.set_same, Option.some.injEq] at hb
      subst hb
      simp only [hlen]
      exact ⟨hrt1, hrt2⟩
    · simp only [Heap.set, hxa, if_false] at hb
      exact hses.sizes x b hb

/-- Captures in a row: the pool is used up from its head, then the allocator
is called; all captured buffers are queued in order. -/
theorem captures_spec {size : Nat} (hsize : size < 2 ^ 32) :
    ∀ (envs : List Env) (s : State) (lp lq slots : List Ptr),
    Session size s lp lq slots → CapturesOk size envs s →
    ∃ s' fresh, captures size envs s = .ok s' ∧
      Session size s' (lp.drop envs.length) (lq ++ lp.take envs.length ++ fresh) slots ∧
      fresh.length = envs.length - lp.length ∧ (∀ a ∈ fresh, s.heap a = none) ∧
      s'.nalloc = s.nalloc + (envs.length - lp.length) ∧ s'.nfree = s.nfree
  | [], s, lp, lq, slots, hses, _ =>
    ⟨s, [], rfl, by simpa using hses, by simp, by simp, by simp, rfl⟩
  | e :: es, s, lp, lq, slots, hses, hok => by
    obtain ⟨s1, b, hrun1, hses1, hnf1, hcons, hnil⟩ := capture_frame_spec hses hsize e hok.1
    obtain ⟨s', fresh', hrun', hses', hlen', hfresh', hna', hnf'⟩ :=
      captures_spec hsize es s1 lp.tail (lq ++ [b]) slots hses1 (hok.2 s1 hrun1)
    have hrun : captures size (e :: es) s = .ok s' := by
      simp only [captures, hrun1, ok_bind]
      exact hrun'
    have hkeep : ∀ x, s1.heap x = none → s.heap x = none := by
      intro x hx
      by_contra hne
      have hsome : (s.heap x).isSome = true := by
        cases hsx : s.heap x with
        | none => exact absurd hsx hne
        | some v => rfl
      have hmem := (hses.sys.live x).mp hsome
      have hmem1 : x ∈ lp.tail ++ (lq ++ [b]) ++ slots := by
        cases lp with
        | nil =>
          simp only [List.mem_append, List.tail_nil, List.mem_singleton, List.not_mem_nil,
            false_or] at hmem ⊢
          tauto
        | cons a lp' =>
          have hb : a = b := by
            have := (hcons (List.cons_ne_nil a lp')).1
            simpa using this
          subst hb
          simp only [List.mem_append, List.mem_cons, List.tail_cons, List.mem_singleton,
            List.not_mem_nil, or_false] at hmem ⊢
          tauto
      have := (hses1.sys.live x).mpr hmem1
      rw [hx] at this
      cases this
    cases lp with
    | cons a lp' =>
      have hb : a = b := by
        have := (hcons (List.cons_ne_nil a lp')).1
        simpa using this
      subst hb
      have hna1 := (hcons (List.cons_ne_nil a lp')).2
      refine ⟨s', fresh', hrun, ?_, ?_, fun x hx => hkeep x (hfresh' x hx), ?_, by rw [hnf', hnf1]⟩
      · simpa [List.append_assoc] using hses'
      · simp only [List.length_cons, List.tail_cons] at hlen' ⊢
        omega
      · simp only [List.length_cons, List.tail_cons] at hna' ⊢
        omega
    | nil =>
      obtain ⟨hbf, hna1⟩ := hnil rfl
      refine ⟨s', b :: fresh', hrun, ?_, ?_, ?_, ?_, by rw [hnf', hnf1]⟩
      · simpa [List.append_assoc] using hses'
      · simp only [List.length_cons, List.tail_nil, List.length_nil] at hlen' ⊢
        omega
      · intro x hx
        rcases List.mem_cons.mp hx with h | h
        · rw [h]
          exact hbf
        · exact hkeep x (hfresh' x h)
      · simp only [List.length_cons, List.tail_nil, List.length_nil] at hna' ⊢
        omega

theorem demoStallState_session : Session 1 demoStallState [1] [] [] where
  sys :=
    { pool := ⟨⟨rfl, by decide, _, rfl, rfl⟩, by decide, fun _ => rfl⟩
      queue := ⟨rfl, List.nodup_nil, fun h => absurd rfl h⟩
      nodup := by decide
      live := by
        intro a
        by_cases h1 : a = 1
        · subst h1
          decide
        · simp [demoStallState, h1]
      nonnull := by simp
      poolcount := rfl
      poolcap := by decide
      queuecount := rfl
      block := rfl
      plock := rfl
      sized := by
        intro a b hb
        by_cases h1 : a = 1
        · subst h1
          have : b = { data := [0], size := 1, next := NULL } := (Option.some.inj hb).symm
          subst this
          decide
        · simp [demoStallState, h1] at hb
      alloc := rfl }
  sizes := by
    intro a b hb
    by_cases h1 : a = 1
    · subst h1
      have : b = { data := [0], size := 1, next := NULL } := (Option.some.inj hb).symm
      subst this
      decide
    · simp [demoStallState, h1] at hb
  img := rfl

theorem demoStallEnvs_ok : CapturesOk 1 demoStallEnvs demoStallState := by
  simp [CapturesOk, demoStallEnvs, demoStallState, capture_frame, get_new_pixbuf, lock_p,
    unlock_p, load, XShmGetImage, State.init, memcpy_frame, queue_pixbuf, lock_b, unlock_b,
    store_next, Heap.set, NULL]

/-- C14: the stalled sink. From a state of a session in which the pool holds
the buffers `lp` (occupancy `m`) and the queue holds `lq` (depth `q`), `n`
captures in a row with no step of the writer in between return, the queue
depth is `q + n` and the pool occupancy `max (m - n) 0`; the queue has gained,
in order, the first `min m n` buffers of the pool and then `n - m` buffers
that were not allocated before, each obtained from the allocator
(`nalloc` grows by `n - m`, nothing is freed). -/
theorem stalled_sink (size : Nat) (hsize : size < 2 ^ 32) (s : State) (lp lq slots : List Ptr)
    (envs : List Env) (hses : Session size s lp lq slots) (hok : CapturesOk size envs s) :
    s.poolsize = lp.length ∧ s.queuesize = lq.length ∧
    ∃ s' fresh, captures size envs s = .ok s' ∧
      s'.queuesize = s.queuesize + envs.length ∧
      s'.poolsize = max (s.poolsize - envs.length) 0 ∧
      Session size s' (lp.drop envs.length) (lq ++ lp.take envs.length ++ fresh) slots ∧
      (lp.take envs.length).length = min lp.length envs.length ∧
      fresh.length = envs.length - lp.length ∧ (∀ a ∈ fresh, s.heap a = none) ∧
      s'.nalloc = s.nalloc + (envs.length - lp.length) ∧ s'.nfree = s.nfree := by
  obtain ⟨s', fresh, hrun, hses', hlen, hfresh, hna, hnf⟩ :=
    captures_spec hsize envs s lp lq slots hses hok
  refine ⟨hses.sys.poolcount, hses.sys.queuecount, s', fresh, hrun, ?_, ?_, hses', ?_, hlen,
    hfresh, hna, hnf⟩
  · rw [hses'.sys.queuecount, hses.sys.queuecount]
    simp only [List.length_append, List.length_take, hlen]
    push_cast
    omega
  · rw [hses'.sys.poolcount, hses.sys.poolcount]
    simp only [List.length_drop]
    omega
  · simp only [List.length_take]
    omega

theorem stalled_sink_witness :
    (1 < 2 ^ 32 ∧ Session 1 demoStallState [1] [] [] ∧
      CapturesOk 1 demoStallEnvs demoStallState) ∧
    ∃ s' fresh, captures 1 demoStallEnvs demoStallState = .ok s' ∧
      s'.queuesize = 2 ∧ s'.poolsize = 0 ∧ Session 1 s' [] ([1] ++ fresh) [] ∧
      fresh.length = 1 ∧ s'.nalloc = 2 := by
  obtain ⟨_, _, s', fresh, h1, h2, h3, h4, _, h6, _, h8, _⟩ :=
    stalled_sink 1 (by norm_num) demoStallState [1] [] [] demoStallEnvs demoStallState_session
      demoStallEnvs_ok
  exact ⟨⟨by norm_num, demoStallState_session, demoStallEnvs_ok⟩, s', fresh, h1, h2, h3,
    h4, h6, h8⟩

/-! ## Call sequences on queue and pool together -/

theorem SysInv.of_init : SysInv State.init [] [] [] where
  pool := ⟨rfl, List.nodup_nil, fun h => absurd rfl h⟩
  queue := ⟨rfl, List.nodup_nil, fun h => absurd rfl h⟩
  nodup := by simp
  live := by
    intro a
    simp [State.init]
  nonnull := by simp
  poolcount := rfl
  poolcap := by decide
  queuecount := rfl
  block := rfl
  plock := rfl
  sized := by
    intro a b hb
    simp [State.init] at hb
  alloc := rfl

/-- Every valid call sequence returns and keeps both lists well formed. -/
theorem runCalls_spec : ∀ (cs : List Call) (s : State) (lp lq held : List Ptr),
    SysInv s lp lq held → CallsOk cs s held →
    ∃ s' lp' lq' held', runCalls cs s = .ok s' ∧ SysInv s' lp' lq' held'
  | [], s, lp, lq, held, hinv, _ => ⟨s, lp, lq, held, rfl, hinv⟩
  | .acquire size m :: cs, s, lp, lq, held, hinv, hok => by
    cases lp with
    | cons a lp' =>
      obtain ⟨ba, _, _, hrun, hinv'⟩ := hinv.acquire_cons size m
      obtain ⟨s', r⟩ := runCalls_spec cs _ lp' lq (a :: held) hinv' (hok.2 _ _ hrun)
      exact ⟨s', by simp only [runCalls, hrun, ok_bind]; exact r⟩
    | nil =>
      obtain ⟨a, g, hm, ha0, hfresh⟩ := hok.1 hinv.pool.list
      subst hm
      obtain ⟨hrun, hinv'⟩ := hinv.acquire_nil size a g ha0 hfresh
      obtain ⟨s', r⟩ := runCalls_spec cs _ [] lq (a :: held) hinv' (hok.2 _ _ hrun)
      exact ⟨s', by simp only [runCalls, hrun, ok_bind]; exact r⟩
  | .release p :: cs, s, lp, lq, held, hinv, hok => by
    by_cases hp0 : p = NULL
    · subst hp0
      have hrun := pixbuf_return_to_pool_null s
      have hok' := hok.2 _ hrun
      rw [List.erase_of_not_mem hinv.nonnull] at hok'
      obtain ⟨s', r⟩ := runCalls_spec cs s lp lq held hinv hok'
      exact ⟨s', by simp only [runCalls, hrun, ok_bind]; exact r⟩
    · have hmem : p ∈ held := hok.1.resolve_left hp0
      by_cases hroom : s.poolsize < POOL_MAX
      · obtain ⟨h', hrun, _, hinv'⟩ := hinv.release_room hmem hroom
        obtain ⟨s', r⟩ := runCalls_spec cs _ (lp ++ [p]) lq (held.erase p) hinv'
          (hok.2 _ hrun)
        exact ⟨s', by simp only [runCalls, hrun, ok_bind]; exact r⟩
      · obtain ⟨hrun, hinv'⟩ := hinv.release_full hmem (not_lt.mp hroom)
        obtain ⟨s', r⟩ := runCalls_spec cs _ lp lq (held.erase p) hinv' (hok.2 _ hrun)
        exact ⟨s', by simp only [runCalls, hrun, ok_bind]; exact r⟩
  | .push b :: cs, s, lp, lq, held, hinv, hok => by
    obtain ⟨h', hrun, _, hinv'⟩ := hinv.push hok.1
    obtain ⟨s', r⟩ := runCalls_spec cs _ lp (lq ++ [b]) (held.erase b) hinv' (hok.2 _ hrun)
    exact ⟨s', by simp only [runCalls, hrun, ok_bind]; exact r⟩
  | .pop :: cs, s, lp, lq, held, hinv, hok => by
    cases lq with
    | cons a lq' =>
      obtain ⟨ba, _, ha0, hrun, hinv'⟩ := hinv.pop_cons
      have hok' := hok _ _ hrun
      rw [if_pos ha0] at hok'
      obtain ⟨s', r⟩ := runCalls_spec cs _ lp lq' (a :: held) hinv' hok'
      exact ⟨s', by simp only [runCalls, hrun, ok_bind]; exact r⟩
    | nil =>
      obtain ⟨hrun, hinv'⟩ := hinv.pop_nil
      have hok' := hok _ _ hrun
      rw [if_neg (not_not.mpr rfl)] at hok'
      obtain ⟨s', r⟩ := runCalls_spec cs _ lp [] held hinv' hok'
      exact ⟨s', by simp only [runCalls, hrun, ok_bind]; exact r⟩

set_option maxHeartbeats 1000000 in
theorem demoMixedCalls_ok : CallsOk demoMixedCalls State.init [] := by
  simp [CallsOk, demoMixedCalls, State.init, get_new_pixbuf, pixbuf_return_to_pool, queue_pixbuf,
    pop_pixbuf, lock_p, unlock_p, lock_b, unlock_b, load, store_next, Heap.set, NULL, POOL_MAX]

/-- C15: count and tail consistency. After every sequence of `queue_pixbuf`,
`pop_pixbuf`, `get_new_pixbuf` and `pixbuf_return_to_pool` calls from the
initial state (the callers passing buffers they hold, the allocator answering
new addresses), the calls have all returned and there are lists `lq` and `lp`
of distinct buffers such that following `next` from `first` visits exactly
`lq` and reaches `NULL`, `queuesize` is the length of `lq`, `last` is the final
buffer of `lq` when `lq` is not empty, the same holds of `pool_f`, `poolsize`,
`pool_l` and `lp`, and `queue_size()` returns the length of `lq`. -/
theorem count_tail_consistency (cs : List Call) (hok : CallsOk cs State.init []) :
    ∃ s' lp lq, runCalls cs State.init = .ok s' ∧
      (IsList s'.heap s'.first lq ∧ lq.Nodup ∧ s'.queuesize = lq.length ∧
        ∀ h : lq ≠ [], s'.last = lq.getLast h) ∧
      (IsList s'.heap s'.pool_f lp ∧ lp.Nodup ∧ s'.poolsize = lp.length ∧
        ∀ h : lp ≠ [], s'.pool_l = lp.getLast h) ∧
      ∃ s'', queue_size s' = .ok ((lq.length : Int), s'') := by
  obtain ⟨s', lp, lq, held, hrun, hinv⟩ := runCalls_spec cs State.init [] [] [] SysInv.of_init hok
  refine ⟨s', lp, lq, hrun,
    ⟨hinv.queue.list, hinv.queue.nodup, hinv.queuecount, hinv.queue.tail⟩,
    ⟨hinv.pool.list, hinv.pool.nodup, hinv.poolcount, hinv.pool.tail⟩, ?_⟩
  simp [queue_size, lock_b, unlock_b, hinv.block, hinv.queuecount]

set_option maxHeartbeats 1000000 in
theorem count_tail_consistency_witness :
    CallsOk demoMixedCalls State.init [] ∧
    ∃ s', runCalls demoMixedCalls State.init = .ok s' ∧
      s'.first = 1 ∧ s'.last = 1 ∧ s'.queuesize = 1 ∧
      s'.pool_f = NULL ∧ s'.poolsize = 0 := by
  refine ⟨demoMixedCalls_ok, ?_⟩
  obtain ⟨s', lp, lq, hrun, _, _, _⟩ := count_tail_consistency demoMixedCalls demoMixedCalls_ok
  refine ⟨s', hrun, ?_⟩
  have hrun' : ∃ s'', runCalls demoMixedCalls State.init = .ok s'' ∧
      s''.first = 1 ∧ s''.last = 1 ∧ s''.queuesize = 1 ∧
      s''.pool_f = NULL ∧ s''.poolsize = 0 := by
    simp [runCalls, demoMixedCalls, State.init, get_new_pixbuf, pixbuf_return_to_pool,
      queue_pixbuf, pop_pixbuf, lock_p, unlock_p, lock_b, unlock_b, load, store_next, Heap.set,
      NULL, POOL_MAX]
  obtain ⟨s'', h1, h2⟩ := hrun'
  rw [hrun] at h1
  cases h1
  exact h2

/-! ## The session size -/

/-- C16: the session size invariant. In every state reachable by the steps of
`main` and `buf_handler` in a session of frame size `size`, the pool is a list
`lp` and the queue a list `lq` such that every buffer in `lp`, in `lq` or held
in a local of either thread is allocated, has size field `size` and a data
region of at least `size` bytes, and `main`'s local `size` is `size`. So the
`memcpy` of `size` bytes that follows `get_new_pixbuf(size)` stays inside the
region of the buffer and returns, and the `write` of the writer thread sends
exactly `size` bytes; this although `get_new_pixbuf`, whatever size `n` it is
asked for, hands out the head of a non-empty pool as it is. -/
theorem session_size_invariant (size : Nat) (hsize : size < 2 ^ 32) (σ : Sys)
    (hr : Reach size σ) :
    ∃ lp lq, PoolIs σ.g lp ∧ QueueIs σ.g lq ∧
      (∀ a ∈ lp ++ lq ++ (mainSlot σ ++ handlerSlot σ),
        ∃ b, σ.g.heap a = some b ∧ b.size = size ∧ size ≤ b.data.length) ∧
      σ.m.size = size ∧
      (σ.mpc = .acquired → ∀ env, ∃ b, σ.g.heap σ.m.p = some b ∧ σ.m.size ≤ b.data.length ∧
        ∃ σ', main_step env σ = .ok σ') ∧
      (σ.hpc = .popped → ∃ σ' bytes, handler_step σ = .ok σ' ∧ bytes.length = size ∧
        σ'.g.out = σ.g.out ++ bytes) ∧
      (∀ n m a lp', lp = a :: lp' → ∃ s' b, get_new_pixbuf n m σ.g = .ok (a, s') ∧
        s'.heap a = some b ∧ b.size = size) := by
  obtain ⟨lp, lq, hinv⟩ := Reach.inv hsize hr
  have hall : ∀ a ∈ lp ++ lq ++ (mainSlot σ ++ handlerSlot σ),
      ∃ b, σ.g.heap a = some b ∧ b.size = size ∧ size ≤ b.data.length := by
    intro a ha
    obtain ⟨b, hb⟩ := Option.isSome_iff_exists.mp ((hinv.sys.live a).mpr ha)
    exact ⟨b, hb, hinv.sizes a b hb⟩
  refine ⟨lp, lq, hinv.sys.pool, hinv.sys.queue, hall, hinv.msize, ?_, ?_, ?_⟩
  · intro hpc env
    obtain ⟨b, hb, _, hlen⟩ := hall σ.m.p (by simp [mainSlot, hpc])
    obtain ⟨σ', hstep, _⟩ := hinv.main_acquired env hpc
    exact ⟨b, hb, by rw [hinv.msize]; exact hlen, σ', hstep⟩
  · intro hpc
    obtain ⟨b, hb, hbs, hlen⟩ := hall σ.h.p (by simp [handlerSlot, hpc])
    obtain ⟨σ', hstep, _, _, _, hout⟩ := hinv.handler_popped hpc
    refine ⟨σ', frameBytes σ.g.heap σ.h.p, hstep, ?_, hout⟩
    simp only [frameBytes, hb, List.length_take, hbs]
    omega
  · intro n m a lp' hlp
    subst hlp
    obtain ⟨ba, hba, _, hrun, _⟩ := hinv.sys.acquire_cons n m
    exact ⟨_, ba, hrun, hba, (hinv.sizes a ba hba).1⟩

theorem session_size_invariant_witness :
    ((2 : Nat) < 2 ^ 32 ∧ Reach 2 demoFinal) ∧
    ∃ lp lq, PoolIs demoFinal.g lp ∧ QueueIs demoFinal.g lq ∧
      (∀ a ∈ lp ++ lq ++ (mainSlot demoFinal ++ handlerSlot demoFinal),
        ∃ b, demoFinal.g.heap a = some b ∧ b.size = 2 ∧ 2 ≤ b.data.length) ∧
      demoFinal.m.size = 2 := by
  obtain ⟨lp, lq, h1, h2, h3, h4, _⟩ :=
    session_size_invariant 2 (by norm_num) demoFinal demoFinal_reach
  exact ⟨⟨by norm_num, demoFinal_reach⟩, lp, lq, h1, h2, h3, h4⟩

/-! ## Mutex set-up -/

/-- C17 (the code departs from the claim): `set_up_mutexes` joins the two
`pthread_mutex_init` results with `&&`. When the initialisation of `b_lock`
succeeds, that of `p_lock` is not attempted and the function returns; the
process is ended exactly when both initialisations fail; when `b_lock` fails
to initialise and `p_lock` succeeds, the function returns. -/
theorem set_up_mutexes_conjunction :
    (∀ rp, set_up_mutexes 0 rp = ([.b_lock], .ok ())) ∧
    (∀ rb rp, (set_up_mutexes rb rp).2 = .error .exitFailure ↔ (rb ≠ 0 ∧ rp ≠ 0)) ∧
    set_up_mutexes 1 0 = ([.b_lock, .p_lock], .ok ()) := by
  refine ⟨fun rp => rfl, fun rb rp => ?_, rfl⟩
  unfold set_up_mutexes
  by_cases hb : rb = 0
  · simp [hb]
  · by_cases hp : rp = 0
    · simp [hb, hp]
    · simp [hb, hp]

end Capture
